import Mathlib

/-!
Verification of the Markdown-to-mrkdwn converter (`md_to_mrkdwn` in `src/mrkdwn.rs`).

The converter is a fixed pipeline of regex rewriting stages over a mutable text
buffer, plus a side list of protected spans addressed by sentinel-delimited
placeholder tokens.  This file gives a shallow embedding: the text is a
`List Char`, each regex of the static pattern table is hand-translated into a
scanner that mirrors the regex crate's leftmost-first match semantics
(greedy/lazy repetition with preference-order backtracking), and
`Regex::replace_all` / `str::replace` become a generic fueled rewriting engine
that splices replacement text without rescanning it, exactly as the library
does.  The placeholder list is threaded through the stages explicitly.
-/

namespace Mrkdwn

/-- Working text, the Rust `String` viewed as its sequence of chars. -/
abbrev Str := List Char

/-- The sentinel byte `\x00` used to delimit placeholder tokens. -/
def nulC : Char := Char.ofNat 0

/-- The zero-width space `\u{200B}` used as an emphasis boundary marker. -/
def zws : Char := Char.ofNat 0x200B

/-- The bullet `\u{2022}` emitted for list items. -/
def bulletC : Char := Char.ofNat 0x2022

/-- Backtick. -/
def btick : Char := Char.ofNat 0x60

/-- Asterisk. -/
def starC : Char := '*'

/-- Single quote / apostrophe. -/
def quoteC : Char := Char.ofNat 0x27

/-- Boolean "is a prefix of" on char lists. -/
def pfx : Str → Str → Bool
  | [], _ => true
  | _ :: _, [] => false
  | p :: ps, c :: cs => p == c && pfx ps cs

/-- Boolean substring test: `subStr pat s` is true iff `pat` occurs contiguously in `s`
(mirrors Rust `str::contains`). -/
def subStr (pat : Str) : Str → Bool
  | [] => pfx pat []
  | c :: cs => pfx pat (c :: cs) || subStr pat cs

/-- `str::replace`: replace every occurrence of `pat` (nonempty) by `rep`, scanning left to
right and continuing after each replacement (replacement text is not rescanned).
Fueled; one unit of fuel per emitted char or match, so `s.length` suffices. -/
def repAllG (pat rep : Str) : Nat → Str → Str
  | 0, s => s
  | _ + 1, [] => []
  | n + 1, c :: cs =>
    if pfx pat (c :: cs) && !pat.isEmpty then
      rep ++ repAllG pat rep n (List.drop (pat.length - 1) cs)
    else
      c :: repAllG pat rep n cs

/-- Replace all occurrences of `pat` by `rep` in `s`. -/
def repAll (pat rep s : Str) : Str := repAllG pat rep s.length s

/-- Space or tab, the regex class `[ \t]`. -/
def isSpTab (c : Char) : Bool := c == ' ' || c == '\t'

/-- Unicode `White_Space`, as used by Rust `char::is_whitespace` (hence `str::trim`)
and by the regex crate's Unicode-mode `\s`. -/
def isWS (c : Char) : Bool :=
  c == ' ' || c == '\t' || c == '\n' || c.val == 0x0B || c.val == 0x0C || c == '\r' ||
  c.val == 0x85 || c.val == 0xA0 || c.val == 0x1680 ||
  (0x2000 ≤ c.val && c.val ≤ 0x200A) || c.val == 0x2028 || c.val == 0x2029 ||
  c.val == 0x202F || c.val == 0x205F || c.val == 0x3000

/-- Drop a trailing run of chars satisfying `p` (used for `trim_end`-style operations). -/
def dropTrailing (p : Char → Bool) (s : Str) : Str := (s.reverse.dropWhile p).reverse

/-- Rust `str::trim`: drop leading and trailing Unicode whitespace. -/
def rustTrim (s : Str) : Str := dropTrailing isWS (s.dropWhile isWS)

/-- Rust `str::trim_matches('\u{200B}')`: drop leading and trailing zero-width spaces. -/
def trimZwsEnds (s : Str) : Str := dropTrailing (· == zws) (s.dropWhile (· == zws))

/-- Case folding for the `(?i)` patterns: ASCII lowercasing plus the two Unicode simple
case foldings that land on ASCII letters occurring in the patterns
(`ſ` U+017F folds to `s`, the Kelvin sign U+212A folds to `k`), mirroring the regex
crate's Unicode simple case folding on the ASCII letters used in the tag names. -/
def foldC (c : Char) : Char :=
  if c.val == 0x17F then 's'
  else if c.val == 0x212A then 'k'
  else c.toLower

/-- Case-insensitive prefix test; the pattern `p` is given in lowercase. -/
def ciPfx : Str → Str → Bool
  | [], _ => true
  | _ :: _, [] => false
  | p :: ps, c :: cs => foldC c == p && ciPfx ps cs

/-- First index (0-based) at which `pat` starts in `s`, if any
(used for the lazy `(.*?)` of the `(?s)` patterns: shortest content). -/
def firstIdx (pat : Str) : Str → Option Nat
  | [] => if pat.isEmpty then some 0 else none
  | c :: cs => if pfx pat (c :: cs) then some 0 else (firstIdx pat cs).map (· + 1)

/-- Lazy search with a general closing matcher: smallest `n` such that `closeM` succeeds
on `drop n s`, returning `(n, close length)`.  Content chars are unrestricted
(the `(?s)` flag: `.` matches newline). -/
def lazyFind (closeM : Str → Option Nat) : Str → Option (Nat × Nat)
  | [] =>
    match closeM [] with
    | some k => some (0, k)
    | none => none
  | c :: cs =>
    match closeM (c :: cs) with
    | some k => some (0, k)
    | none => (lazyFind closeM cs).map (fun p => (p.1 + 1, p.2))

/-- Literal case-insensitive closing matcher. -/
def ciCloseM (close : Str) (s : Str) : Option Nat :=
  if ciPfx close s then some close.length else none

/-- Lazy `(.+?)` for the Markdown patterns (no `s` flag, so `.` excludes newline):
smallest `n ≥ 1` with `close` a prefix of `drop n s` and no newline among the
first `n` content chars. -/
def lazyFindNoNl (close : Str) : Str → Option Nat
  | [] => none
  | c :: cs =>
    if c == '\n' then none
    else if pfx close cs then some 1
    else (lazyFindNoNl close cs).map (· + 1)

/-- Largest index whose char satisfies `p`. -/
def lastIdxWhere (p : Char → Bool) : Str → Option Nat
  | [] => none
  | c :: cs =>
    match lastIdxWhere p cs with
    | some j => some (j + 1)
    | none => if p c then some 0 else none

/-- Largest index holding the char `t`. -/
def lastIdxOf (t : Char) (s : Str) : Option Nat := lastIdxWhere (· == t) s

/-- Category tags of the placeholder tokens. -/
def tagCB : Str := ['C', 'B']

/-- Inline-code tag. -/
def tagIC : Str := ['I', 'C']

/-- Table tag. -/
def tagTB : Str := ['T', 'B']

/-- Link tag. -/
def tagLK : Str := ['L', 'K']

/-- Bold-italic tag. -/
def tagBI : Str := ['B', 'I']

/-- Bold tag. -/
def tagBD : Str := ['B', 'D']

/-- The placeholder token `\x00{tag}{idx}\x00` written into the working text. -/
def tokenStr (tag : Str) (idx : Nat) : Str := nulC :: tag ++ (Nat.repr idx).data ++ [nulC]

/-- A replacement builder: given the current protected-span list, produce the text
spliced into the buffer and the updated list (the Rust closure over `placeholders`). -/
abbrev Build := List Str → Str × List Str

/-- A match attempt at the current position: on success, the match length and the builder. -/
abbrev TryFn := Str → Option (Nat × Build)

/-- `Regex::replace_all` for an unanchored pattern: scan left to right, try the pattern at
each position, splice the replacement and continue after the match (the replacement is
not rescanned).  Fueled by one unit per consumed char. -/
def runStageG (try? : TryFn) : Nat → Str → List Str → Str × List Str
  | 0, s, ps => (s, ps)
  | _ + 1, [], ps => ([], ps)
  | n + 1, c :: cs, ps =>
    match try? (c :: cs) with
    | some (len, build) =>
      let pr := build ps
      let rest := runStageG try? n (List.drop (len - 1) cs) pr.2
      (pr.1 ++ rest.1, rest.2)
    | none =>
      let rest := runStageG try? n cs ps
      (c :: rest.1, rest.2)

/-- Run an unanchored stage over the whole text. -/
def runStage (try? : TryFn) (s : Str) (ps : List Str) : Str × List Str :=
  runStageG try? s.length s ps

/-- `Regex::replace_all` for a `(?m)^`-anchored pattern: the pattern is only tried at the
start of the text and right after each newline.  `atLS` tracks whether the current
position is such a line start. -/
def runAnchG (try? : TryFn) : Nat → Bool → Str → List Str → Str × List Str
  | 0, _, s, ps => (s, ps)
  | _ + 1, _, [], ps => ([], ps)
  | n + 1, atLS, c :: cs, ps =>
    if atLS then
      match try? (c :: cs) with
      | some (len, build) =>
        let pr := build ps
        let rest := runAnchG try? n ((List.take len (c :: cs)).getLast? == some '\n')
          (List.drop (len - 1) cs) pr.2
        (pr.1 ++ rest.1, rest.2)
      | none =>
        let rest := runAnchG try? n (c == '\n') cs ps
        (c :: rest.1, rest.2)
    else
      let rest := runAnchG try? n (c == '\n') cs ps
      (c :: rest.1, rest.2)

/-- Run a `(?m)^`-anchored stage over the whole text (position 0 is a line start). -/
def runAnch (try? : TryFn) (s : Str) (ps : List Str) : Str × List Str :=
  runAnchG try? s.length true s ps

/-- The fence `\x60\x60\x60`. -/
def fenceMark : Str := [btick, btick, btick]

/-- Stage `fenced_code`, pattern `(?s)\x60\x60\x60[^\n]*\n(.*?)\x60\x60\x60`: the language
identifier up to the first newline is discarded, the body is captured lazily up to the
first closing fence, and the whole match is protected as `\x60\x60\x60\n{body}\x60\x60\x60`
under a `CB` token. -/
def fencedTry : TryFn := fun s =>
  if pfx fenceMark s then
    let afterOpen := s.drop 3
    let lang := afterOpen.takeWhile (· != '\n')
    match afterOpen.drop lang.length with
    | '\n' :: rest2 =>
      match firstIdx fenceMark rest2 with
      | some n =>
        some (3 + lang.length + 1 + n + 3, fun ps =>
          (tokenStr tagCB ps.length,
           ps ++ [fenceMark ++ '\n' :: rest2.take n ++ fenceMark]))
      | none => none
    | _ => none
  else none

/-- Stage `inline_code`, pattern `\x60([^\x60\n]+)\x60`: greedy class run of length ≥ 1,
then the closing backtick; protected as `\x60{content}\x60` under an `IC` token. -/
def inlineTry : TryFn := fun s =>
  match s with
  | c :: cs =>
    if c == btick then
      let content := cs.takeWhile (fun d => d != btick && d != '\n')
      if content.isEmpty then none
      else
        match cs.drop content.length with
        | d :: _ =>
          if d == btick then
            some (content.length + 2, fun ps =>
              (tokenStr tagIC ps.length, ps ++ [btick :: content ++ [btick]]))
          else none
        | [] => none
    else none
  | [] => none

/-- One table row line `^[ \t]*\|.+\|[ \t]*\n` (the `.+` cannot cross the newline, so the
line must be: optional space/tab padding, a pipe, at least one char, a pipe, optional
space/tab padding, then the mandatory newline); returns the consumed length. -/
def rowLineLen (s : Str) : Option Nat :=
  let line := s.takeWhile (· != '\n')
  if (s.drop line.length).isEmpty then none
  else
    let ws := line.takeWhile isSpTab
    match line.drop ws.length with
    | c :: rest =>
      if c == '|' then
        let core := dropTrailing isSpTab rest
        match core.getLast? with
        | some d => if d == '|' && core.length ≥ 2 then some (line.length + 1) else none
        | none => none
      else none
    | [] => none

/-- One table body line `^[ \t]*\|.+\|[ \t]*\n?`: greedy `.+` reaches the last pipe of the
line, then space/tab padding, then an optional newline; the match may thus end
mid-line.  Returns the consumed length and whether the optional newline was taken. -/
def bodyLineLen (s : Str) : Option (Nat × Bool) :=
  let line := s.takeWhile (· != '\n')
  let ws := line.takeWhile isSpTab
  match line.drop ws.length with
  | c :: rest =>
    if c == '|' then
      match lastIdxOf '|' rest with
      | some j =>
        if j ≥ 1 then
          let after := rest.drop (j + 1)
          let ws2 := after.takeWhile isSpTab
          if ws2.length == after.length && !(s.drop line.length).isEmpty then
            some (ws.length + 1 + j + 1 + ws2.length + 1, true)
          else
            some (ws.length + 1 + j + 1 + ws2.length, false)
        else none
      | none => none
    else none
  | [] => none

/-- The regex class `[\s:]`. -/
def isWsColon (c : Char) : Bool := isWS c || c == ':'

/-- The regex class `[\s:\-|]`. -/
def isSepBody (c : Char) : Bool := isWS c || c == ':' || c == '-' || c == '|'

/-- Backtracking tail of the separator row, for `[\s:\-|]*\|[ \t]*\n` given the maximal
class run `r2` and the text `after` it: the greedy run is given back to the largest
pipe position from which `[ \t]*` then a literal newline completes the match.
Returns the consumed length counted from the start of `r2`, through the newline. -/
def sepTail : Nat → Str → Str → Option Nat
  | 0, _, _ => none
  | fu + 1, r2, after =>
    match lastIdxOf '|' r2 with
    | none => none
    | some j =>
      let rem := r2.drop (j + 1) ++ after
      let ws2 := rem.takeWhile isSpTab
      match rem.drop ws2.length with
      | '\n' :: _ => some (j + 1 + ws2.length + 1)
      | _ => sepTail fu (r2.take j) after

/-- The separator row `^[ \t]*\|[\s:]*-[\s:\-|]*\|[ \t]*\n` tried at a line start
(note `[\s:]` contains the newline, so a separator may in principle span lines).
The classes before and after the mandatory dash are disjoint from it, so their greedy
runs need no backtracking; the closing pipe does (see `sepTail`). -/
def sepLen (s : Str) : Option Nat :=
  let ws := s.takeWhile isSpTab
  match s.drop ws.length with
  | c :: rest =>
    if c == '|' then
      let r1 := rest.takeWhile isWsColon
      match rest.drop r1.length with
      | d :: rest2 =>
        if d == '-' then
          let r2 := rest2.takeWhile isSepBody
          match sepTail (r2.length + 1) r2 (rest2.drop r2.length) with
          | some t => some (ws.length + 1 + r1.length + 1 + t)
          | none => none
        else none
      | [] => none
    else none
  | [] => none

/-- Lengths of the maximal run of header row lines starting at `s`. -/
def headerLens : Nat → Str → List Nat
  | 0, _ => []
  | fu + 1, s =>
    match rowLineLen s with
    | some len => len :: headerLens fu (s.drop len)
    | none => []

/-- The `(?:body line)*` loop: each iteration needs `^`, which only holds right after a
consumed newline, so the loop stops when an iteration did not take its optional
newline.  Returns the total consumed length. -/
def bodyRun : Nat → Str → Nat
  | 0, _ => 0
  | fu + 1, s =>
    match bodyLineLen s with
    | some (len, true) => len + bodyRun fu (s.drop len)
    | some (len, false) => len
    | none => 0

/-- Backtracking over the greedy `(?:header line)+`: given the lengths of the maximal
header run in reverse, try the separator after all of them, then after one fewer, …
(at least one header line is required).  On success returns the full match length. -/
def tableBackRev (s : Str) : List Nat → Option Nat
  | [] => none
  | l :: rest =>
    let hlen := (l :: rest).sum
    match sepLen (s.drop hlen) with
    | some slen => some (hlen + slen + bodyRun (s.length + 1) (s.drop (hlen + slen)))
    | none => tableBackRev s rest

/-- Rust `str::lines`: split at `\n`, dropping one `\r` at the end of a line and the
empty fragment after a trailing newline. -/
def rustLinesG : Nat → Str → List Str
  | 0, _ => []
  | _ + 1, [] => []
  | fu + 1, s =>
    let line := s.takeWhile (· != '\n')
    let line2 := if line.getLast? == some '\r' then line.dropLast else line
    match s.drop line.length with
    | _ :: rest2 => line2 :: rustLinesG fu rest2
    | [] => [line2]

/-- Rust `str::lines` as a list of lines. -/
def rustLines (s : Str) : List Str := rustLinesG (s.length + 1) s

/-- `Vec::join("\n")`. -/
def joinNl : List Str → Str
  | [] => []
  | [l] => l
  | l :: ls => l ++ '\n' :: joinNl ls

/-- The table replacement body: each line of the match trimmed, joined by newlines,
with trailing newlines removed (`lines().map(trim).join("\n")` then
`trim_end_matches('\n')`). -/
def tableBody (matched : Str) : Str :=
  dropTrailing (· == '\n') (joinNl ((rustLines matched).map rustTrim))

/-- Stage `table`, pattern
`(?m)((?:^[ \t]*\|.+\|[ \t]*\n)+^[ \t]*\|[\s:]*-[\s:\-|]*\|[ \t]*\n(?:^[ \t]*\|.+\|[ \t]*\n?)*)`,
tried only at line starts; the match is protected as a fenced code block of the trimmed
rows under a `TB` token. -/
def tableTry : TryFn := fun s =>
  match tableBackRev s (headerLens (s.length + 1) s).reverse with
  | some total =>
    some (total, fun ps =>
      (tokenStr tagTB ps.length,
       ps ++ [fenceMark ++ '\n' :: tableBody (s.take total) ++ '\n' :: fenceMark]))
  | none => none

/-- The `(?si)<name>(.*?)</name>` shape shared by the simple HTML tag pairs (no
attributes allowed on the opening tag): returns the match length and the capture. -/
def tagPairTry (name : Str) (s : Str) : Option (Nat × Str) :=
  match s with
  | '<' :: rest1 =>
    if ciPfx (name ++ ['>']) rest1 then
      let rest := rest1.drop (name.length + 1)
      match lazyFind (ciCloseM ('<' :: '/' :: name ++ ['>'])) rest with
      | some (n, k) => some (name.length + 2 + n + k, rest.take n)
      | none => none
    else none
  | _ => none

/-- A protected simple tag pair: the capture is wrapped and stored, a token is emitted. -/
def protTagTry (name tag wrapL wrapR : Str) : TryFn := fun s =>
  (tagPairTry name s).map (fun p =>
    (p.1, fun ps => (tokenStr tag ps.length, ps ++ [wrapL ++ p.2 ++ wrapR])))

/-- An in-place simple tag pair: the capture is wrapped and spliced directly. -/
def inlineTagTry (name : Str) (wrapL wrapR : Str) : TryFn := fun s =>
  (tagPairTry name s).map (fun p =>
    (p.1, fun ps => (wrapL ++ p.2 ++ wrapR, ps)))

/-- Digit `1`–`6` of the heading patterns. -/
def isH16 (c : Char) : Bool :=
  c == '1' || c == '2' || c == '3' || c == '4' || c == '5' || c == '6'

/-- Opening `<h[1-6][^>]*>`: returns the consumed length. -/
def hOpenLen (s : Str) : Option Nat :=
  match s with
  | c0 :: c1 :: c2 :: rest =>
    if c0 == '<' && foldC c1 == 'h' && isH16 c2 then
      let attrs := rest.takeWhile (· != '>')
      match rest.drop attrs.length with
      | '>' :: _ => some (3 + attrs.length + 1)
      | _ => none
    else none
  | _ => none

/-- Closing `</h[1-6]>` (its digit is independent of the opening one). -/
def hCloseM (s : Str) : Option Nat :=
  match s with
  | a :: b :: c :: d :: e :: _ =>
    if a == '<' && b == '/' && foldC c == 'h' && isH16 d && e == '>' then some 5 else none
  | _ => none

/-- Stage `html_heading`, pattern `(?si)<h[1-6][^>]*>(.*?)</h[1-6]>`: the capture is
protected as a zero-width-wrapped bold span under a `BD` token, and the token is
padded by a newline on each side. -/
def htmlHeadingTry : TryFn := fun s =>
  match hOpenLen s with
  | some ol =>
    let rest := s.drop ol
    match lazyFind hCloseM rest with
    | some (n, k) =>
      some (ol + n + k, fun ps =>
        ('\n' :: tokenStr tagBD ps.length ++ ['\n'],
         ps ++ [zws :: starC :: rest.take n ++ [starC, zws]]))
    | none => none
  | none => none

/-- Opening `<li[^>]*>`. -/
def liOpenLen (s : Str) : Option Nat :=
  match s with
  | c0 :: c1 :: c2 :: rest =>
    if c0 == '<' && foldC c1 == 'l' && foldC c2 == 'i' then
      let attrs := rest.takeWhile (· != '>')
      match rest.drop attrs.length with
      | '>' :: _ => some (3 + attrs.length + 1)
      | _ => none
    else none
  | _ => none

/-- Stage `html_li`, pattern `(?si)<li[^>]*>(.*?)</li>`, rewritten in place to
`\u{2022} {capture}\n`. -/
def htmlLiTry : TryFn := fun s =>
  match liOpenLen s with
  | some ol =>
    match lazyFind (ciCloseM ['<', '/', 'l', 'i', '>']) (s.drop ol) with
    | some (n, k) =>
      some (ol + n + k, fun ps => (bulletC :: ' ' :: (s.drop ol).take n ++ ['\n'], ps))
    | none => none
  | none => none

/-- Stage `html_br`, pattern `(?i)<br\s*/?>`, rewritten to a newline. -/
def htmlBrTry : TryFn := fun s =>
  match s with
  | c0 :: c1 :: c2 :: rest =>
    if c0 == '<' && foldC c1 == 'b' && foldC c2 == 'r' then
      let ws := rest.takeWhile isWS
      match rest.drop ws.length with
      | '/' :: '>' :: _ => some (3 + ws.length + 2, fun ps => (['\n'], ps))
      | '>' :: _ => some (3 + ws.length + 1, fun ps => (['\n'], ps))
      | _ => none
    else none
  | _ => none

/-- Stage `html_hr`, pattern `(?i)<hr\s*/?>`, removed. -/
def htmlHrTry : TryFn := fun s =>
  match s with
  | c0 :: c1 :: c2 :: rest =>
    if c0 == '<' && foldC c1 == 'h' && foldC c2 == 'r' then
      let ws := rest.takeWhile isWS
      match rest.drop ws.length with
      | '/' :: '>' :: _ => some (3 + ws.length + 2, fun ps => ([], ps))
      | '>' :: _ => some (3 + ws.length + 1, fun ps => ([], ps))
      | _ => none
    else none
  | _ => none

/-- The `[^>]*>` tail of the paragraph tag. -/
def pTagEnd (pre : Nat) (r2 : Str) : Option Nat :=
  let attrs := r2.takeWhile (· != '>')
  match r2.drop attrs.length with
  | '>' :: _ => some (pre + attrs.length + 1)
  | _ => none

/-- Stage `html_p`, pattern `(?si)</?p[^>]*>`, rewritten to a newline (note this matches
any tag whose name merely starts with `p`, such as `<pre>` — by that stage real
`<pre>` blocks are already tokenized). -/
def htmlPTry : TryFn := fun s =>
  match s with
  | '<' :: '/' :: c :: r2 =>
    if foldC c == 'p' then (pTagEnd 3 r2).map (fun len => (len, fun ps => (['\n'], ps)))
    else none
  | '<' :: c :: r2 =>
    if foldC c == 'p' then (pTagEnd 2 r2).map (fun len => (len, fun ps => (['\n'], ps)))
    else none
  | _ => none

/-- Double quote. -/
def dquoteC : Char := Char.ofNat 0x22

/-- A quote char of the `["']` classes. -/
def isQuote (c : Char) : Bool := c == dquoteC || c == quoteC

/-- `strip_angle_brackets` from the source: remove every `<` and `>`. -/
def stripAngle (s : Str) : Str := s.filter (fun c => c != '<' && c != '>')

/-- One candidate position for `href=["']([^"']*)["'][^>]*>(.*?)</a>` at offset `j` after
`<a\s`; returns (consumed length from that point, url capture, text capture). -/
def tryHrefAt (rest : Str) (j : Nat) : Option (Nat × Str × Str) :=
  let r1 := rest.drop j
  if ciPfx ['h', 'r', 'e', 'f', '='] r1 then
    match r1.drop 5 with
    | q :: r2 =>
      if isQuote q then
        let url := r2.takeWhile (fun c => !(isQuote c))
        match r2.drop url.length with
        | q2 :: r3 =>
          if isQuote q2 then
            let attrs2 := r3.takeWhile (· != '>')
            match r3.drop attrs2.length with
            | '>' :: r4 =>
              match lazyFind (ciCloseM ['<', '/', 'a', '>']) r4 with
              | some (n, k) =>
                some (j + 5 + 1 + url.length + 1 + attrs2.length + 1 + n + k, url, r4.take n)
              | none => none
            | _ => none
          else none
        | [] => none
      else none
    | [] => none
  else none

/-- Greedy `[^>]*` backtracking for the anchor pattern: try the candidate `href=`
positions from the largest offset down to 0. -/
def hrefBack (rest : Str) : Nat → Option (Nat × Str × Str)
  | 0 => tryHrefAt rest 0
  | j + 1 =>
    match tryHrefAt rest (j + 1) with
    | some r => some r
    | none => hrefBack rest j

/-- Stage `html_link`, pattern `(?si)<a\s[^>]*href=["']([^"']*)["'][^>]*>(.*?)</a>`:
protected as `<{url}|{text}>` (angle brackets stripped from the text) under an `LK`
token. -/
def htmlLinkTry : TryFn := fun s =>
  match s with
  | '<' :: a :: w :: rest =>
    if foldC a == 'a' && isWS w then
      match hrefBack rest (rest.takeWhile (· != '>')).length with
      | some (len, url, txt) =>
        some (3 + len, fun ps =>
          (tokenStr tagLK ps.length, ps ++ ['<' :: url ++ '|' :: stripAngle txt ++ ['>']]))
      | none => none
    else none
  | _ => none

/-- Stage `html_any_tag`, pattern `<[^>]+>`, removed. -/
def anyTagTry : TryFn := fun s =>
  match s with
  | '<' :: rest =>
    let inner := rest.takeWhile (· != '>')
    if inner.isEmpty then none
    else
      match rest.drop inner.length with
      | '>' :: _ => some (1 + inner.length + 1, fun ps => ([], ps))
      | _ => none
  | _ => none

/-- Stage `html_entity_apos`, pattern `&#0?39;|&apos;` (leftmost-first alternation,
greedy `0?`), decoded to a single quote. -/
def aposTry : TryFn := fun s =>
  if pfx ['&', '#', '0', '3', '9', ';'] s then some (6, fun ps => ([quoteC], ps))
  else if pfx ['&', '#', '3', '9', ';'] s then some (5, fun ps => ([quoteC], ps))
  else if pfx ['&', 'a', 'p', 'o', 's', ';'] s then some (6, fun ps => ([quoteC], ps))
  else none

/-- Stage `md_image`, pattern `!\[([^\]]*)\]\(([^)]+)\)`, rewritten in place to the bare
url (`$2`). -/
def mdImageTry : TryFn := fun s =>
  match s with
  | '!' :: '[' :: rest =>
    let alt := rest.takeWhile (· != ']')
    match rest.drop alt.length with
    | ']' :: '(' :: r2 =>
      let url := r2.takeWhile (· != ')')
      if url.isEmpty then none
      else
        match r2.drop url.length with
        | ')' :: _ => some (2 + alt.length + 2 + url.length + 1, fun ps => (url, ps))
        | _ => none
    | _ => none
  | _ => none

/-- Stage `md_link`, pattern `\[([^\]]+)\]\(([^)]+)\)`: protected as `<{url}|{text}>`
(angle brackets stripped from the text) under an `LK` token. -/
def mdLinkTry : TryFn := fun s =>
  match s with
  | '[' :: rest =>
    let txt := rest.takeWhile (· != ']')
    if txt.isEmpty then none
    else
      match rest.drop txt.length with
      | ']' :: '(' :: r2 =>
        let url := r2.takeWhile (· != ')')
        if url.isEmpty then none
        else
          match r2.drop url.length with
          | ')' :: _ =>
            some (1 + txt.length + 2 + url.length + 1, fun ps =>
              (tokenStr tagLK ps.length, ps ++ ['<' :: url ++ '|' :: stripAngle txt ++ ['>']]))
          | _ => none
      | _ => none
  | _ => none

/-- Stage `md_bold_italic`, pattern `\*\*\*(.+?)\*\*\*`: protected as
`\u{200B}*_{capture}_*\u{200B}` under a `BI` token. -/
def mdBoldItalicTry : TryFn := fun s =>
  if pfx [starC, starC, starC] s then
    match lazyFindNoNl [starC, starC, starC] (s.drop 3) with
    | some n =>
      some (3 + n + 3, fun ps =>
        (tokenStr tagBI ps.length,
         ps ++ [zws :: starC :: '_' :: (s.drop 3).take n ++ ['_', starC, zws]]))
    | none => none
  else none

/-- Stage `md_italic`, pattern `\*([^*\n]+?)\*`, rewritten in place to
`\u{200B}_{capture}_\u{200B}`. -/
def mdItalicTry : TryFn := fun s =>
  match s with
  | c :: cs =>
    if c == starC then
      let content := cs.takeWhile (fun d => d != starC && d != '\n')
      if content.isEmpty then none
      else
        match cs.drop content.length with
        | d :: _ =>
          if d == starC then
            some (content.length + 2, fun ps => (zws :: '_' :: content ++ ['_', zws], ps))
          else none
        | [] => none
    else none
  | [] => none

/-- The italic rewriting applied on its own to a capture (the inner
`RE.md_italic.replace_all(&caps[1], …)` of the bold stage). -/
def mdItalicAll (s : Str) : Str := (runStage mdItalicTry s []).1

/-- Stage `md_bold`, pattern `\*\*(.+?)\*\*`: the capture first has inner italics
rewritten, then the whole is protected as `\u{200B}*{inner}*\u{200B}` under a `BD`
token. -/
def mdBoldTry : TryFn := fun s =>
  if pfx [starC, starC] s then
    match lazyFindNoNl [starC, starC] (s.drop 2) with
    | some n =>
      some (2 + n + 2, fun ps =>
        (tokenStr tagBD ps.length,
         ps ++ [zws :: starC :: mdItalicAll ((s.drop 2).take n) ++ [starC, zws]]))
    | none => none
  else none

/-- Stage `md_strikethrough`, pattern `~~(.+?)~~`, rewritten in place to
`\u{200B}~{capture}~\u{200B}`. -/
def mdStrikeTry : TryFn := fun s =>
  if pfx ['~', '~'] s then
    match lazyFindNoNl ['~', '~'] (s.drop 2) with
    | some n =>
      some (2 + n + 2, fun ps => (zws :: '~' :: (s.drop 2).take n ++ ['~', zws], ps))
    | none => none
  else none

/-- Greedy backtracking of `\s+` before `(.+)$`: with `ws` the maximal whitespace run and
`after` the text past it, the largest give-back position from which `.` can match
(i.e. whose char is not a newline).  Returns the number of whitespace chars consumed. -/
def backJ (ws after : Str) : Option Nat :=
  if after.isEmpty then
    match lastIdxWhere (· != '\n') ws with
    | some j => if j ≥ 1 then some j else none
    | none => none
  else some ws.length

/-- Stage `md_heading`, pattern `(?m)^#{1,6}\s+(.+)$`, tried at line starts: the capture
is protected as a zero-width-wrapped bold span under a `BD` token. -/
def mdHeadingTry : TryFn := fun s =>
  let hashes := s.takeWhile (· == '#')
  let m := hashes.length
  if 1 ≤ m && m ≤ 6 then
    let rest := s.drop m
    let ws := rest.takeWhile isWS
    if ws.isEmpty then none
    else
      match backJ ws (rest.drop ws.length) with
      | some j =>
        let content := (rest.drop j).takeWhile (· != '\n')
        some (m + j + content.length, fun ps =>
          (tokenStr tagBD ps.length, ps ++ [zws :: starC :: content ++ [starC, zws]]))
      | none => none
  else none

/-- Stage `md_ul_dash` / `md_ul_star`, pattern `(?m)^(\s*)[-*] ` (with the given marker),
tried at line starts and rewritten to `$1\u{2022} `. -/
def mdUlTry (marker : Char) : TryFn := fun s =>
  let ws := s.takeWhile isWS
  match s.drop ws.length with
  | c :: ' ' :: _ =>
    if c == marker then some (ws.length + 2, fun ps => (ws ++ [bulletC, ' '], ps))
    else none
  | _ => none

/-- A char of the class `[-*_]`. -/
def isHrChar (c : Char) : Bool := c == '-' || c == starC || c == '_'

/-- Stage `md_hr`, pattern `(?m)^[-*_]{3,}\s*$`, tried at line starts and removed; the
greedy `\s*` is given back up to the last newline inside it so that `$` holds. -/
def mdHrTry : TryFn := fun s =>
  let run := s.takeWhile isHrChar
  if run.length ≥ 3 then
    let rest := s.drop run.length
    let ws := rest.takeWhile isWS
    if (rest.drop ws.length).isEmpty then
      some (run.length + ws.length, fun ps => ([], ps))
    else
      match lastIdxOf '\n' ws with
      | some j => some (run.length + j, fun ps => ([], ps))
      | none => none
  else none

/-- Stage `excess_newlines`, pattern `\n{3,}`, rewritten to exactly two newlines
(the greedy repetition consumes the maximal newline run). -/
def excessNlTry : TryFn := fun s =>
  if pfx ['\n', '\n', '\n'] s then
    some ((s.takeWhile (· == '\n')).length, fun ps => (['\n', '\n'], ps))
  else none

/-- The probe order of the restoration loop. -/
def allTags : List Str := [tagCB, tagIC, tagTB, tagLK, tagBI, tagBD]

/-- Restoration probe for one index: the first category whose token occurs in the text
has every occurrence of that token replaced by the stored text (`str::replace`), and
the probing stops (`break`). -/
def restoreGo : List Str → Str → Nat → Str → Str
  | [], t, _, _ => t
  | tg :: rest, t, idx, rep =>
    if subStr (tokenStr tg idx) t then repAll (tokenStr tg idx) rep t
    else restoreGo rest t idx rep

/-- Restore one protected span. -/
def restoreOne (t : Str) (idx : Nat) (rep : Str) : Str := restoreGo allTags t idx rep

/-- The restoration pass: walk the protected-span list in reverse index order. -/
def restoreAll (t : Str) (ps : List Str) : Str :=
  (((List.range ps.length).zip ps).reverse).foldl (fun acc pr => restoreOne acc pr.1 pr.2) t

/-- Two adjacent zero-width spaces. -/
def zz : Str := [zws, zws]

/-- The `while text.contains(ZWS ZWS)` collapse loop; each replacement shortens the text,
so `s.length` units of fuel suffice. -/
def collapseZwsG : Nat → Str → Str
  | 0, s => s
  | n + 1, s => if subStr zz s then collapseZwsG n (repAll zz [zws] s) else s

/-- Text together with the protected-span list. -/
abbrev StP := Str × List Str

/-- Step 2 of `md_to_mrkdwn`: protect fenced code blocks. -/
def stFenced (st : StP) : StP := runStage fencedTry st.1 st.2

/-- Step 3: protect inline code. -/
def stInline (st : StP) : StP := runStage inlineTry st.1 st.2

/-- Step 4: detect tables, wrap in a code block and protect. -/
def stTable (st : StP) : StP := runAnch tableTry st.1 st.2

/-- Step 5: `<pre>` to protected code block. -/
def stHtmlPre (st : StP) : StP :=
  runStage (protTagTry ['p', 'r', 'e'] tagCB (fenceMark ++ ['\n']) ('\n' :: fenceMark)) st.1 st.2

/-- Step 5: `<code>` to protected inline code. -/
def stHtmlCode (st : StP) : StP :=
  runStage (protTagTry ['c', 'o', 'd', 'e'] tagIC [btick] [btick]) st.1 st.2

/-- Step 5: `<strong>` to protected bold. -/
def stHtmlStrong (st : StP) : StP :=
  runStage (protTagTry ['s', 't', 'r', 'o', 'n', 'g'] tagBD [zws, starC] [starC, zws]) st.1 st.2

/-- Step 5: `<b>` to protected bold. -/
def stHtmlB (st : StP) : StP :=
  runStage (protTagTry ['b'] tagBD [zws, starC] [starC, zws]) st.1 st.2

/-- Step 5: `<em>` rewritten in place to italics. -/
def stHtmlEm (st : StP) : StP :=
  runStage (inlineTagTry ['e', 'm'] [zws, '_'] ['_', zws]) st.1 st.2

/-- Step 5: `<i>` rewritten in place to italics. -/
def stHtmlI (st : StP) : StP :=
  runStage (inlineTagTry ['i'] [zws, '_'] ['_', zws]) st.1 st.2

/-- Step 5: `<del>` rewritten in place to strikethrough. -/
def stHtmlDel (st : StP) : StP :=
  runStage (inlineTagTry ['d', 'e', 'l'] [zws, '~'] ['~', zws]) st.1 st.2

/-- Step 5: `<s>` rewritten in place to strikethrough. -/
def stHtmlS (st : StP) : StP :=
  runStage (inlineTagTry ['s'] [zws, '~'] ['~', zws]) st.1 st.2

/-- Step 5: `<strike>` rewritten in place to strikethrough. -/
def stHtmlStrike (st : StP) : StP :=
  runStage (inlineTagTry ['s', 't', 'r', 'i', 'k', 'e'] [zws, '~'] ['~', zws]) st.1 st.2

/-- Step 5: anchors to protected links. -/
def stHtmlLink (st : StP) : StP := runStage htmlLinkTry st.1 st.2

/-- Step 5: `<br>` to newline. -/
def stHtmlBr (st : StP) : StP := runStage htmlBrTry st.1 st.2

/-- Step 5: HTML headings to protected bold, newline-padded. -/
def stHtmlHeading (st : StP) : StP := runStage htmlHeadingTry st.1 st.2

/-- Step 5: `<li>` to bullet lines. -/
def stHtmlLi (st : StP) : StP := runStage htmlLiTry st.1 st.2

/-- Step 5: paragraph tags to newline. -/
def stHtmlP (st : StP) : StP := runStage htmlPTry st.1 st.2

/-- Step 5: `<hr>` removed. -/
def stHtmlHr (st : StP) : StP := runStage htmlHrTry st.1 st.2

/-- Step 6: Markdown images to their bare url. -/
def stMdImage (st : StP) : StP := runStage mdImageTry st.1 st.2

/-- Step 6: Markdown links to protected links. -/
def stMdLink (st : StP) : StP := runStage mdLinkTry st.1 st.2

/-- Step 6: strip any remaining HTML tag. -/
def stAnyTag (st : StP) : StP := runStage anyTagTry st.1 st.2

/-- Step 7: decode HTML entities in the fixed order lt, gt, quot, apos, amp. -/
def stEntities (st : StP) : StP :=
  let t := repAll ['&', 'l', 't', ';'] ['<'] st.1
  let t := repAll ['&', 'g', 't', ';'] ['>'] t
  let t := repAll ['&', 'q', 'u', 'o', 't', ';'] [dquoteC] t
  let t := (runStage aposTry t []).1
  let t := repAll ['&', 'a', 'm', 'p', ';'] ['&'] t
  (t, st.2)

/-- Step 9a: bold-italic to protected span. -/
def stMdBoldItalic (st : StP) : StP := runStage mdBoldItalicTry st.1 st.2

/-- Step 9b: bold to protected span (inner italics rewritten first). -/
def stMdBold (st : StP) : StP := runStage mdBoldTry st.1 st.2

/-- Step 9c: italics rewritten in place. -/
def stMdItalic (st : StP) : StP := runStage mdItalicTry st.1 st.2

/-- Step 10: strikethrough rewritten in place. -/
def stMdStrike (st : StP) : StP := runStage mdStrikeTry st.1 st.2

/-- Step 11: ATX headings to protected bold. -/
def stMdHeading (st : StP) : StP := runAnch mdHeadingTry st.1 st.2

/-- Step 12: unordered list markers to bullets. -/
def stMdUl (st : StP) : StP :=
  let st2 := runAnch (mdUlTry '-') st.1 st.2
  runAnch (mdUlTry starC) st2.1 st2.2

/-- Step 13: horizontal rules removed. -/
def stMdHr (st : StP) : StP := runAnch mdHrTry st.1 st.2

/-- Step 14: collapse runs of three or more newlines to two. -/
def stExcessNl (st : StP) : StP := runStage excessNlTry st.1 st.2

/-- The whole pipeline up to (and including) the newline collapse — everything before
the restoration pass — producing the working text and the protected-span list.
Mirrors `md_to_mrkdwn` steps 1–14 in source order. -/
def beforeRestoreP (input : Str) : StP :=
  let t := repAll ['\r', '\n'] ['\n'] input
  let t := t.filter (· != nulC)
  let st := stFenced (t, [])
  let st := stInline st
  let st := stTable st
  let st := stHtmlPre st
  let st := stHtmlCode st
  let st := stHtmlStrong st
  let st := stHtmlB st
  let st := stHtmlEm st
  let st := stHtmlI st
  let st := stHtmlDel st
  let st := stHtmlS st
  let st := stHtmlStrike st
  let st := stHtmlLink st
  let st := stHtmlBr st
  let st := stHtmlHeading st
  let st := stHtmlLi st
  let st := stHtmlP st
  let st := stHtmlHr st
  let st := stMdImage st
  let st := stMdLink st
  let st := stAnyTag st
  let st := stEntities st
  let st := stMdBoldItalic st
  let st := stMdBold st
  let st := stMdItalic st
  let st := stMdStrike st
  let st := stMdHeading st
  let st := stMdUl st
  let st := stMdHr st
  stExcessNl st

/-- The working text right before the restoration pass. -/
def beforeRestore (input : Str) : Str := (beforeRestoreP input).1

/-- The final cleanup after restoration: collapse doubled zero-width spaces, drop
zero-width spaces adjacent to a space or newline, strip residual sentinel bytes,
then trim whitespace and finally zero-width spaces from both ends. -/
def finalCleanup (t : Str) : Str :=
  let t := collapseZwsG t.length t
  let t := repAll [' ', zws] [' '] t
  let t := repAll [zws, ' '] [' '] t
  let t := repAll ['\n', zws] ['\n'] t
  let t := repAll [zws, '\n'] ['\n'] t
  let t := t.filter (· != nulC)
  trimZwsEnds (rustTrim t)

/-- `md_to_mrkdwn` on char lists. -/
def mdToMrkdwnL (s : Str) : Str :=
  if s.isEmpty then []
  else
    let st := beforeRestoreP s
    finalCleanup (restoreAll st.1 st.2)

/-- The converter `md_to_mrkdwn`: convert Markdown/HTML text to the target mrkdwn. -/
def md_to_mrkdwn (s : String) : String := String.mk (mdToMrkdwnL s.data)

/-- Three consecutive newlines. -/
def nl3 : Str := ['\n', '\n', '\n']

/-- The characters that can trigger some rewriting stage (conservatively: carriage
return, the sentinel byte, backtick, pipe, angle bracket, ampersand, opening square
bracket, asterisk, underscore, tilde, hash, dash, and the zero-width space). -/
def specialChars : Str :=
  ['\r', nulC, btick, '|', '<', '&', '[', starC, '_', '~', '#', '-', zws]

/-- A char that is in no trigger set of the pipeline. -/
def plainChar (c : Char) : Bool := !(specialChars.contains c)

/-- A line (no newline inside) that matches the table header-row shape
`[ \t]*\|.+\|[ \t]*` in full. -/
def lineIsRow (l : Str) : Bool := (rowLineLen (l ++ ['\n'])).isSome

/-- A line that matches the table separator-row shape `[ \t]*\|[\s:]*-[\s:\-|]*\|[ \t]*`
in full. -/
def lineIsSep (l : Str) : Bool := sepLen (l ++ ['\n']) == some (l.length + 1)

/-- A line that the table body-row pattern `[ \t]*\|.+\|[ \t]*\n?` consumes in full
(without a trailing newline). -/
def lineIsBodyAll (l : Str) : Bool := bodyLineLen l == some (l.length, false)

/-- Neither end of the text carries whitespace. -/
def noEdgeWS (t : Str) : Bool := !(t.head?.any isWS) && !(t.getLast?.any isWS)

/-! ### The sentinel-shielding invariant -/

/-- First letters of the placeholder tags (`CB`, `IC`, `TB`, `LK`, `BI`, `BD`). -/
def tagL (c : Char) : Bool :=
  c == 'C' || c == 'I' || c == 'T' || c == 'L' || c == 'B'

/-- Characters that can occur inside a placeholder token: the sentinel byte, the tag
letters and decimal digits.  No rewriting pattern of the pipeline is triggered by
any of them. -/
def tokChar (c : Char) : Bool :=
  c == nulC || c == 'C' || c == 'B' || c == 'I' || c == 'T' || c == 'L' || c == 'K' ||
  c == 'D' || c.isDigit

/-- Whether a text starts with a tag first-letter. -/
def tagLHead : Str → Bool
  | [] => false
  | d :: _ => tagL d

/-- Whether an optional context char is a digit. -/
def digitOpt : Option Char → Bool
  | none => false
  | some p => p.isDigit

/-- The shielding condition for one char: a sentinel byte must be immediately followed
by a tag first-letter or immediately preceded by a digit. -/
def headOK (prev : Option Char) (c : Char) (cs : Str) : Bool :=
  c != nulC || tagLHead cs || digitOpt prev

/-- The shielding invariant, relative to the char just before the text (if any): every
sentinel byte in the text is immediately followed by a tag first-letter or immediately
preceded by a digit.  Whole placeholder tokens satisfy it on both sides, every pipeline
step preserves it, and at the final sentinel strip it guarantees that removing the
sentinels cannot make a zero-width space adjacent to whitespace or to another
zero-width space. -/
def wkn : Option Char → Str → Bool
  | _, [] => true
  | prev, c :: cs => headOK prev c cs && wkn (some c) cs

/-- The last char of `t`, or the surrounding context `p` if `t` is empty. -/
def lastC (p : Option Char) (t : Str) : Option Char :=
  if t.isEmpty then p else t.getLast?

/-- Every stored protected span is shielded. -/
def PsW (ps : List Str) : Prop := ∀ p ∈ ps, wkn none p = true

/-- The contract a stage scanner must satisfy for the shielding invariant: it never
fires at a token character (so tokens are copied verbatim), and when it fires the
emitted text and the remaining suffix are shielded and the span list stays shielded. -/
def WScan (try? : TryFn) : Prop :=
  (∀ c cs, tagL c = true → try? (c :: cs) = none) ∧
  (∀ s len build ps prev, wkn prev s = true → PsW ps → try? s = some (len, build) →
     1 ≤ len ∧ wkn none (List.drop len s) = true ∧
     wkn none (build ps).1 = true ∧ PsW (build ps).2)

/-- The shielding invariant for a working state: the text is shielded and so is every
stored protected span. -/
def StW (st : StP) : Prop := wkn none st.1 = true ∧ PsW st.2

/-! ### Basic lemmas about the string utilities -/

theorem mem_of_pfx {pat s : Str} (h : pfx pat s = true) : ∀ c ∈ pat, c ∈ s := by
  induction pat generalizing s with
  | nil => intro c hc; cases hc
  | cons p ps ih =>
    cases s with
    | nil => simp [pfx] at h
    | cons a as =>
      simp only [pfx, Bool.and_eq_true, beq_iff_eq] at h
      intro c hc
      rcases List.mem_cons.mp hc with rfl | hc'
      · simp [h.1]
      · exact List.mem_cons_of_mem _ (ih h.2 c hc')

theorem mem_of_subStr {pat s : Str} (h : subStr pat s = true) : ∀ c ∈ pat, c ∈ s := by
  induction s with
  | nil => exact mem_of_pfx (by simpa [subStr] using h)
  | cons a as ih =>
    simp only [subStr, Bool.or_eq_true] at h
    rcases h with h1 | h2
    · exact mem_of_pfx h1
    · intro c hc; exact List.mem_cons_of_mem _ (ih h2 c hc)

theorem subStr_eq_false_of_not_mem {pat s : Str} {c : Char} (hc : c ∈ pat) (hs : c ∉ s) :
    subStr pat s = false := by
  cases hb : subStr pat s with
  | false => rfl
  | true => exact absurd (mem_of_subStr hb c hc) hs

theorem mem_of_mem_dropWhile {p : Char → Bool} {l : Str} {a : Char}
    (h : a ∈ l.dropWhile p) : a ∈ l := by
  induction l with
  | nil => simpa using h
  | cons c cs ih =>
    rw [List.dropWhile_cons] at h
    by_cases hc : p c = true
    · rw [if_pos hc] at h
      exact List.mem_cons_of_mem _ (ih h)
    · rw [if_neg hc] at h
      exact h

theorem mem_of_mem_dropTrailing {p : Char → Bool} {l : Str} {a : Char}
    (h : a ∈ dropTrailing p l) : a ∈ l := by
  unfold dropTrailing at h
  exact List.mem_reverse.mp (mem_of_mem_dropWhile (List.mem_reverse.mp h))

theorem mem_of_mem_rustTrim {l : Str} {a : Char} (h : a ∈ rustTrim l) : a ∈ l :=
  mem_of_mem_dropWhile (mem_of_mem_dropTrailing h)

theorem mem_of_mem_trimZwsEnds {l : Str} {a : Char} (h : a ∈ trimZwsEnds l) : a ∈ l :=
  mem_of_mem_dropWhile (mem_of_mem_dropTrailing h)

theorem nul_not_mem_finalCleanup (t : Str) : nulC ∉ finalCleanup t := by
  intro h
  rw [finalCleanup] at h
  have h2 := List.of_mem_filter (mem_of_mem_rustTrim (mem_of_mem_trimZwsEnds h))
  simp at h2

theorem nul_not_mem_output (s : String) : nulC ∉ (md_to_mrkdwn s).data := by
  intro h
  have h' : nulC ∈ mdToMrkdwnL s.data := h
  rw [mdToMrkdwnL] at h'
  cases he : s.data.isEmpty with
  | true =>
    rw [if_pos he] at h'
    simp at h'
  | false =>
    rw [if_neg (by simp [he])] at h'
    exact nul_not_mem_finalCleanup _ h'

theorem head?_dropWhile_ne {p : Char → Bool} {l : Str} {a : Char}
    (h : (l.dropWhile p).head? = some a) : p a = false := by
  induction l with
  | nil => simp at h
  | cons c cs ih =>
    rw [List.dropWhile_cons] at h
    by_cases hc : p c = true
    · rw [if_pos hc] at h; exact ih h
    · rw [if_neg hc] at h
      simp only [List.head?_cons, Option.some.injEq] at h
      subst h
      simpa using hc

theorem exists_append_dropTrailing (p : Char → Bool) (l : Str) :
    ∃ t, l = dropTrailing p l ++ t := by
  obtain ⟨t, ht⟩ := List.dropWhile_suffix (l := l.reverse) (p := p)
  refine ⟨t.reverse, ?_⟩
  have h2 := congrArg List.reverse ht
  simpa [dropTrailing, List.reverse_append] using h2.symm

theorem head?_dropTrailing {p : Char → Bool} {l : Str} {a : Char}
    (h : (dropTrailing p l).head? = some a) : l.head? = some a := by
  obtain ⟨t, ht⟩ := exists_append_dropTrailing p l
  rw [ht]
  cases hd : dropTrailing p l with
  | nil => rw [hd] at h; simp at h
  | cons x xs =>
    rw [hd] at h
    simp at h
    simp [h]

theorem trimZwsEnds_head_ne (t : Str) : (trimZwsEnds t).head? ≠ some zws := by
  intro h
  have h1 := head?_dropTrailing h
  have h2 := head?_dropWhile_ne h1
  simp at h2

theorem trimZwsEnds_getLast_ne (t : Str) : (trimZwsEnds t).getLast? ≠ some zws := by
  intro h
  unfold trimZwsEnds dropTrailing at h
  rw [List.getLast?_reverse] at h
  have h2 := head?_dropWhile_ne h
  simp at h2

theorem finalCleanup_head_ne (t : Str) : (finalCleanup t).head? ≠ some zws := by
  rw [finalCleanup]
  exact trimZwsEnds_head_ne _

theorem finalCleanup_getLast_ne (t : Str) : (finalCleanup t).getLast? ≠ some zws := by
  rw [finalCleanup]
  exact trimZwsEnds_getLast_ne _

/-! ### The newline-collapse stage leaves no triple newline -/

theorem drop_takeWhile_len (q : Char → Bool) (l : Str) :
    l.drop (l.takeWhile q).length = l.dropWhile q := by
  induction l with
  | nil => rfl
  | cons c cs ih =>
    rw [List.takeWhile_cons, List.dropWhile_cons]
    by_cases hc : q c = true
    · simp [hc, ih]
    · simp [hc]

theorem take_eq_of_pfx : ∀ {pat l : Str}, pfx pat l = true → l.take pat.length = pat := by
  intro pat
  induction pat with
  | nil => intro l _; rfl
  | cons p ps ih =>
    intro l h
    cases l with
    | nil => simp [pfx] at h
    | cons a as =>
      simp only [pfx, Bool.and_eq_true, beq_iff_eq] at h
      simp [h.1, ih h.2]

theorem head?_eq_of_take_two_eq {l m : Str} (h : l.take 2 = m.take 2) :
    l.head? = m.head? := by
  cases l <;> cases m <;> simp_all [List.take]

theorem pfx_single_iff {a : Char} {l : Str} : pfx [a] l = true ↔ l.head? = some a := by
  cases l with
  | nil => simp [pfx]
  | cons c cs =>
    simp only [pfx, Bool.and_eq_true, beq_iff_eq, List.head?_cons, Option.some.injEq, and_true]
    exact eq_comm

theorem runStageG_cons_some {try? : TryFn} {n : Nat} {c : Char} {cs : Str} {ps : List Str}
    {len : Nat} {build : Build} (h : try? (c :: cs) = some (len, build)) :
    runStageG try? (n + 1) (c :: cs) ps =
      ((build ps).1 ++ (runStageG try? n (List.drop (len - 1) cs) (build ps).2).1,
        (runStageG try? n (List.drop (len - 1) cs) (build ps).2).2) := by
  rw [runStageG, h]

theorem runStageG_cons_none {try? : TryFn} {n : Nat} {c : Char} {cs : Str} {ps : List Str}
    (h : try? (c :: cs) = none) :
    runStageG try? (n + 1) (c :: cs) ps =
      (c :: (runStageG try? n cs ps).1, (runStageG try? n cs ps).2) := by
  rw [runStageG, h]

theorem length_dropWhile_le (p : Char → Bool) (l : Str) :
    (l.dropWhile p).length ≤ l.length := by
  induction l with
  | nil => simp
  | cons c cs ih =>
    rw [List.dropWhile_cons]
    by_cases hc : p c = true
    · rw [if_pos hc]
      exact le_trans ih (by simp)
    · rw [if_neg hc]

theorem take_two_cons_cons {a b : Char} (l : Str) (h : l.take 2 = [a, b]) :
    ∃ u, l = a :: b :: u := by
  cases l with
  | nil => simp at h
  | cons x xs =>
    cases xs with
    | nil => simp [List.take] at h
    | cons y ys =>
      simp [List.take] at h
      exact ⟨ys, by simp [h.1, h.2]⟩

theorem excess_no_triple (n : Nat) (s : Str) (ps : List Str) (hn : s.length ≤ n) :
    subStr nl3 (runStageG excessNlTry n s ps).1 = false ∧
      (runStageG excessNlTry n s ps).1.take 2 = s.take 2 := by
  induction n generalizing s ps with
  | zero =>
    have hs : s = [] := List.eq_nil_of_length_eq_zero (Nat.le_zero.mp hn)
    subst hs
    simp [runStageG, subStr, pfx, nl3]
  | succ n ih =>
    cases s with
    | nil => simp [runStageG, subStr, pfx, nl3]
    | cons c cs =>
      by_cases hp : pfx ['\n', '\n', '\n'] (c :: cs) = true
      · -- a match: the maximal newline run is replaced by two newlines
        have hsome : excessNlTry (c :: cs) =
            some (((c :: cs).takeWhile (· == '\n')).length, fun ps => (['\n', '\n'], ps)) := by
          simp only [excessNlTry, if_pos hp]
        rw [runStageG_cons_some hsome]
        simp only []
        -- shape facts from the prefix
        have htake := take_eq_of_pfx hp
        have hshape : c = '\n' ∧ cs.take 2 = ['\n', '\n'] := by
          simpa [List.take] using htake
        obtain ⟨hc, hcs2⟩ := hshape
        subst hc
        have hlen : ((('\n' : Char) :: cs).takeWhile (· == '\n')).length =
            (cs.takeWhile (· == '\n')).length + 1 := by
          simp [List.takeWhile_cons]
        have hdrop : List.drop (((('\n' : Char) :: cs).takeWhile (· == '\n')).length - 1) cs =
            cs.dropWhile (· == '\n') := by
          rw [hlen]
          simpa using drop_takeWhile_len (· == '\n') cs
        rw [hdrop]
        have hrl : (cs.dropWhile (· == '\n')).length ≤ n := by
          have h1 := length_dropWhile_le (· == '\n') cs
          simp only [List.length_cons] at hn
          omega
        have hr := ih (cs.dropWhile (· == '\n')) ps hrl
        have hhead : ∀ a, (runStageG excessNlTry n (cs.dropWhile (· == '\n')) ps).1.head? =
            some a → ((· == '\n') a) = false := by
          intro a ha
          have h0 := head?_eq_of_take_two_eq hr.2
          rw [h0] at ha
          exact head?_dropWhile_ne (p := (· == '\n')) ha
        have hA : pfx ['\n'] (runStageG excessNlTry n (cs.dropWhile (· == '\n')) ps).1
            = false := by
          cases hR : (runStageG excessNlTry n (cs.dropWhile (· == '\n')) ps).1 with
          | nil => simp [pfx]
          | cons b bs =>
            have hb := hhead b (by rw [hR]; rfl)
            have hne : b ≠ '\n' := by simpa using hb
            simp [pfx, Ne.symm hne]
        have hB : pfx ['\n', '\n'] (runStageG excessNlTry n (cs.dropWhile (· == '\n')) ps).1
            = false := by
          cases hb : pfx ['\n', '\n'] (runStageG excessNlTry n (cs.dropWhile (· == '\n')) ps).1 with
          | false => rfl
          | true =>
            have h2 := take_eq_of_pfx hb
            have h3 : (runStageG excessNlTry n (cs.dropWhile (· == '\n')) ps).1.head?
                = some '\n' := by
              have h4 := head?_eq_of_take_two_eq (m := (['\n', '\n'] : Str)) (by simpa using h2)
              simpa using h4
            have h5 := hhead _ h3
            simp at h5
        constructor
        · show subStr nl3 (['\n', '\n'] ++ _) = false
          simp only [List.cons_append, List.nil_append]
          simp only [subStr, pfx, nl3, hA, hB, Bool.and_false, Bool.and_true,
            beq_self_eq_true, Bool.true_and, Bool.false_or, Bool.or_false]
          simpa [nl3] using hr.1
        · have h6 : cs.take 1 = ['\n'] := by
            have h7 := congrArg (List.take 1) hcs2
            simpa [List.take_take] using h7
          simp [List.take, h6]
      · have hnone : excessNlTry (c :: cs) = none := by
          simp only [excessNlTry, if_neg hp]
        rw [runStageG_cons_none hnone]
        have hcs : cs.length ≤ n := by
          simp only [List.length_cons] at hn
          omega
        have hr := ih cs ps hcs
        constructor
        · have hfront : pfx nl3 (c :: (runStageG excessNlTry n cs ps).1) = false := by
            cases hpf : pfx nl3 (c :: (runStageG excessNlTry n cs ps).1) with
            | false => rfl
            | true =>
              exfalso
              simp only [nl3, pfx, Bool.and_eq_true, beq_iff_eq] at hpf
              obtain ⟨hc, hrest⟩ := hpf
              subst hc
              have h3 := take_eq_of_pfx hrest
              have h4 : cs.take 2 = ['\n', '\n'] := by
                rw [← hr.2]
                simpa using h3
              obtain ⟨u, hu⟩ := take_two_cons_cons cs h4
              exact hp (by simp [hu, pfx, nl3])
          simp only [subStr, hfront, hr.1, Bool.or_false]
        · have h5 : (runStageG excessNlTry n cs ps).1.take 1 = cs.take 1 := by
            have h8 := congrArg (List.take 1) hr.2
            simpa [List.take_take] using h8
          simp [List.take, h5]

theorem stExcessNl_no_triple (st : StP) : subStr nl3 (stExcessNl st).1 = false := by
  rw [stExcessNl, runStage]
  exact (excess_no_triple st.1.length st.1 st.2 le_rfl).1

/-! ### Identity of the stages on text without their trigger characters -/

theorem mem_of_mem_take {n : Nat} {l : Str} {a : Char} (h : a ∈ l.take n) : a ∈ l :=
  (List.take_sublist n l).subset h

theorem mem_of_mem_drop {n : Nat} {l : Str} {a : Char} (h : a ∈ l.drop n) : a ∈ l :=
  (List.drop_sublist n l).subset h

theorem mem_of_mem_takeWhile {p : Char → Bool} {l : Str} {a : Char}
    (h : a ∈ l.takeWhile p) : a ∈ l := by
  induction l with
  | nil => simpa using h
  | cons c cs ih =>
    rw [List.takeWhile_cons] at h
    by_cases hc : p c = true
    · rw [if_pos hc] at h
      rcases List.mem_cons.mp h with rfl | h2
      · exact List.mem_cons_self _ _
      · exact List.mem_cons_of_mem _ (ih h2)
    · rw [if_neg hc] at h
      simp at h

theorem runStageG_id {try? : TryFn} {n : Nat} {s : Str} {ps : List Str}
    (H : ∀ c cs, (c :: cs) <:+ s → try? (c :: cs) = none) :
    runStageG try? n s ps = (s, ps) := by
  induction n generalizing s with
  | zero => rfl
  | succ n ih =>
    cases s with
    | nil => rfl
    | cons c cs =>
      rw [runStageG_cons_none (H c cs List.suffix_rfl)]
      rw [ih (fun a as hsuf => H a as (hsuf.trans (List.suffix_cons c cs)))]

theorem runStage_id {try? : TryFn} {s : Str} {ps : List Str}
    (H : ∀ c cs, (c :: cs) <:+ s → try? (c :: cs) = none) :
    runStage try? s ps = (s, ps) :=
  runStageG_id H

theorem runAnchG_cons_none {try? : TryFn} {n : Nat} {c : Char} {cs : Str} {ps : List Str}
    {b : Bool} (h : try? (c :: cs) = none) :
    runAnchG try? (n + 1) b (c :: cs) ps =
      (c :: (runAnchG try? n (c == '\n') cs ps).1, (runAnchG try? n (c == '\n') cs ps).2) := by
  cases b with
  | true =>
    rw [runAnchG, h]
    rw [if_pos rfl]
  | false =>
    rw [runAnchG]
    rw [if_neg (by simp)]

theorem runAnchG_id {try? : TryFn} {n : Nat} {b : Bool} {s : Str} {ps : List Str}
    (H : ∀ c cs, (c :: cs) <:+ s → try? (c :: cs) = none) :
    runAnchG try? n b s ps = (s, ps) := by
  induction n generalizing s b with
  | zero => rfl
  | succ n ih =>
    cases s with
    | nil => rfl
    | cons c cs =>
      rw [runAnchG_cons_none (H c cs List.suffix_rfl)]
      rw [ih (fun a as hsuf => H a as (hsuf.trans (List.suffix_cons c cs)))]

theorem runAnch_id {try? : TryFn} {s : Str} {ps : List Str}
    (H : ∀ c cs, (c :: cs) <:+ s → try? (c :: cs) = none) :
    runAnch try? s ps = (s, ps) :=
  runAnchG_id H

theorem repAllG_id {pat rep : Str} {c : Char} (hc : c ∈ pat) :
    ∀ (n : Nat) (s : Str), c ∉ s → repAllG pat rep n s = s := by
  intro n
  induction n with
  | zero => intro s _; rfl
  | succ n ih =>
    intro s hs
    cases s with
    | nil => rfl
    | cons a as =>
      unfold repAllG
      rw [if_neg]
      · rw [ih as (fun hm => hs (List.mem_cons_of_mem _ hm))]
      · intro hcond
        have hp : pfx pat (a :: as) = true := ((Bool.and_eq_true _ _).mp hcond).1
        exact hs (mem_of_pfx hp c hc)

theorem repAll_id {pat rep s : Str} {c : Char} (hc : c ∈ pat) (hs : c ∉ s) :
    repAll pat rep s = s :=
  repAllG_id hc s.length s hs

theorem subStr_of_suffix_pfx {pat u s : Str} (hs : u <:+ s) (hp : pfx pat u = true) :
    subStr pat s = true := by
  obtain ⟨pre, rfl⟩ := hs
  induction pre with
  | nil =>
    cases u with
    | nil => simpa [subStr] using hp
    | cons a as => simp [subStr, hp]
  | cons p rest ih =>
    rw [List.cons_append, subStr, ih, Bool.or_true]

theorem collapseZwsG_id {n : Nat} {t : Str} (h : subStr zz t = false) :
    collapseZwsG n t = t := by
  cases n with
  | zero => rfl
  | succ n =>
    unfold collapseZwsG
    rw [if_neg (by simp [h])]

theorem dropWhile_eq_self {p : Char → Bool} {t : Str}
    (h : ∀ a, t.head? = some a → p a = false) : t.dropWhile p = t := by
  cases t with
  | nil => rfl
  | cons c cs =>
    rw [List.dropWhile_cons, if_neg]
    simp [h c rfl]

theorem dropTrailing_eq_self {p : Char → Bool} {t : Str}
    (h : ∀ a, t.getLast? = some a → p a = false) : dropTrailing p t = t := by
  unfold dropTrailing
  rw [dropWhile_eq_self, List.reverse_reverse]
  intro a ha
  rw [List.head?_reverse] at ha
  exact h a ha

theorem filter_ne_nul_id {t : Str} (h : nulC ∉ t) : t.filter (· != nulC) = t := by
  rw [List.filter_eq_self]
  intro a ha
  simp only [bne_iff_ne, ne_eq]
  intro he
  exact h (he ▸ ha)

theorem head_beq_false {c d : Char} {cs : Str} (h : d ∉ c :: cs) : (c == d) = false := by
  simp only [beq_eq_false_iff_ne, ne_eq]
  intro he
  exact h (by simp [he])

theorem fencedTry_none {s : Str} (h : btick ∉ s) : fencedTry s = none := by
  unfold fencedTry
  rw [if_neg]
  intro hp
  exact h (mem_of_pfx hp btick (by simp [fenceMark]))

theorem inlineTry_none {s : Str} (h : btick ∉ s) : inlineTry s = none := by
  cases s with
  | nil => rfl
  | cons c cs =>
    simp only [inlineTry]
    rw [if_neg (by simp [head_beq_false h])]

theorem rowLineLen_none {s : Str} (h : '|' ∉ s) : rowLineLen s = none := by
  simp only [rowLineLen]
  split
  · rfl
  · split
    · rename_i c rest heq
      rw [if_neg]
      intro he
      have hc : c = '|' := by simpa using he
      subst hc
      exact h (mem_of_mem_takeWhile (mem_of_mem_drop (heq ▸ List.mem_cons_self _ _)))
    · rfl

theorem headerLens_nil {fu : Nat} {s : Str} (h : rowLineLen s = none) : headerLens fu s = [] := by
  cases fu with
  | zero => rfl
  | succ fu =>
    unfold headerLens
    rw [h]

theorem tableTry_none {s : Str} (h : '|' ∉ s) : tableTry s = none := by
  unfold tableTry
  rw [headerLens_nil (rowLineLen_none h)]
  rfl

theorem tagPairTry_none {name s : Str} (h : '<' ∉ s) : tagPairTry name s = none := by
  cases s with
  | nil => rfl
  | cons c cs =>
    unfold tagPairTry
    split
    · rename_i rest1 heq
      exfalso
      have : c = '<' := (List.cons.injEq _ _ _ _).mp heq |>.1
      exact h (by simp [this])
    · rfl

theorem protTagTry_none {name tag wrapL wrapR : Str} {s : Str} (h : '<' ∉ s) :
    protTagTry name tag wrapL wrapR s = none := by
  unfold protTagTry
  rw [tagPairTry_none h]
  rfl

theorem inlineTagTry_none {name wrapL wrapR : Str} {s : Str} (h : '<' ∉ s) :
    inlineTagTry name wrapL wrapR s = none := by
  unfold inlineTagTry
  rw [tagPairTry_none h]
  rfl

theorem hOpenLen_none {s : Str} (h : '<' ∉ s) : hOpenLen s = none := by
  unfold hOpenLen
  split
  · rename_i c0 c1 c2 rest
    rw [if_neg]
    intro hcond
    have h5 := ((Bool.and_eq_true _ _).mp hcond).1
    have h6 := ((Bool.and_eq_true _ _).mp h5).1
    have h0 : c0 = '<' := by simpa using h6
    subst h0
    exact h (List.mem_cons_self _ _)
  · rfl

theorem htmlHeadingTry_none {s : Str} (h : '<' ∉ s) : htmlHeadingTry s = none := by
  unfold htmlHeadingTry
  rw [hOpenLen_none h]

theorem liOpenLen_none {s : Str} (h : '<' ∉ s) : liOpenLen s = none := by
  unfold liOpenLen
  split
  · rename_i c0 c1 c2 rest
    rw [if_neg]
    intro hcond
    have h5 := ((Bool.and_eq_true _ _).mp hcond).1
    have h6 := ((Bool.and_eq_true _ _).mp h5).1
    have h0 : c0 = '<' := by simpa using h6
    subst h0
    exact h (List.mem_cons_self _ _)
  · rfl

theorem htmlLiTry_none {s : Str} (h : '<' ∉ s) : htmlLiTry s = none := by
  unfold htmlLiTry
  rw [liOpenLen_none h]

theorem htmlBrTry_none {s : Str} (h : '<' ∉ s) : htmlBrTry s = none := by
  unfold htmlBrTry
  split
  · rename_i c0 c1 c2 rest
    rw [if_neg]
    intro hcond
    have h5 := ((Bool.and_eq_true _ _).mp hcond).1
    have h6 := ((Bool.and_eq_true _ _).mp h5).1
    have h0 : c0 = '<' := by simpa using h6
    subst h0
    exact h (List.mem_cons_self _ _)
  · rfl

theorem htmlHrTry_none {s : Str} (h : '<' ∉ s) : htmlHrTry s = none := by
  unfold htmlHrTry
  split
  · rename_i c0 c1 c2 rest
    rw [if_neg]
    intro hcond
    have h5 := ((Bool.and_eq_true _ _).mp hcond).1
    have h6 := ((Bool.and_eq_true _ _).mp h5).1
    have h0 : c0 = '<' := by simpa using h6
    subst h0
    exact h (List.mem_cons_self _ _)
  · rfl

theorem htmlPTry_none {s : Str} (h : '<' ∉ s) : htmlPTry s = none := by
  unfold htmlPTry
  split
  · exact absurd (List.mem_cons_self _ _) h
  · exact absurd (List.mem_cons_self _ _) h
  · rfl

theorem htmlLinkTry_none {s : Str} (h : '<' ∉ s) : htmlLinkTry s = none := by
  unfold htmlLinkTry
  split
  · exact absurd (List.mem_cons_self _ _) h
  · rfl

theorem anyTagTry_none {s : Str} (h : '<' ∉ s) : anyTagTry s = none := by
  unfold anyTagTry
  split
  · exact absurd (List.mem_cons_self _ _) h
  · rfl

theorem aposTry_none {s : Str} (h : '&' ∉ s) : aposTry s = none := by
  unfold aposTry
  rw [if_neg, if_neg, if_neg]
  · intro hp; exact h (mem_of_pfx hp '&' (by simp))
  · intro hp; exact h (mem_of_pfx hp '&' (by simp))
  · intro hp; exact h (mem_of_pfx hp '&' (by simp))

theorem mdImageTry_none {s : Str} (h : '[' ∉ s) : mdImageTry s = none := by
  unfold mdImageTry
  split
  · exact absurd (List.mem_cons_of_mem _ (List.mem_cons_self _ _)) h
  · rfl

theorem mdLinkTry_none {s : Str} (h : '[' ∉ s) : mdLinkTry s = none := by
  unfold mdLinkTry
  split
  · exact absurd (List.mem_cons_self _ _) h
  · rfl

theorem mdBoldItalicTry_none {s : Str} (h : starC ∉ s) : mdBoldItalicTry s = none := by
  unfold mdBoldItalicTry
  rw [if_neg]
  intro hp
  exact h (mem_of_pfx hp starC (by simp))

theorem mdBoldTry_none {s : Str} (h : starC ∉ s) : mdBoldTry s = none := by
  unfold mdBoldTry
  rw [if_neg]
  intro hp
  exact h (mem_of_pfx hp starC (by simp))

theorem mdItalicTry_none {s : Str} (h : starC ∉ s) : mdItalicTry s = none := by
  cases s with
  | nil => rfl
  | cons c cs =>
    simp only [mdItalicTry]
    rw [if_neg (by simp [head_beq_false h])]

theorem mdStrikeTry_none {s : Str} (h : '~' ∉ s) : mdStrikeTry s = none := by
  unfold mdStrikeTry
  rw [if_neg]
  intro hp
  exact h (mem_of_pfx hp '~' (by simp))

theorem takeWhile_beq_nil {t : Char} {s : Str} (h : t ∉ s) : s.takeWhile (· == t) = [] := by
  cases s with
  | nil => rfl
  | cons c cs =>
    rw [List.takeWhile_cons, if_neg]
    simp [head_beq_false h]

theorem mdHeadingTry_none {s : Str} (h : '#' ∉ s) : mdHeadingTry s = none := by
  simp only [mdHeadingTry]
  rw [takeWhile_beq_nil h]
  rw [if_neg (by simp)]

theorem mdUlTry_none {marker : Char} {s : Str} (h : marker ∉ s) : mdUlTry marker s = none := by
  simp only [mdUlTry]
  split
  · rename_i c rest heq
    rw [if_neg]
    intro he
    have hc : c = marker := by simpa using he
    subst hc
    exact h (mem_of_mem_drop (heq ▸ List.mem_cons_self _ _))
  · rfl

theorem takeWhile_isHrChar_nil {s : Str} (h1 : '-' ∉ s) (h2 : starC ∉ s) (h3 : '_' ∉ s) :
    s.takeWhile isHrChar = [] := by
  cases s with
  | nil => rfl
  | cons c cs =>
    rw [List.takeWhile_cons, if_neg]
    simp only [isHrChar, Bool.or_eq_true, not_or]
    refine ⟨⟨?_, ?_⟩, ?_⟩ <;> simp [head_beq_false h1, head_beq_false h2, head_beq_false h3]

theorem mdHrTry_none {s : Str} (h1 : '-' ∉ s) (h2 : starC ∉ s) (h3 : '_' ∉ s) :
    mdHrTry s = none := by
  simp only [mdHrTry]
  rw [takeWhile_isHrChar_nil h1 h2 h3]
  rw [if_neg (by simp)]

theorem excessNlTry_none_of_no_triple {u s : Str} (hsuf : u <:+ s)
    (h : subStr nl3 s = false) : excessNlTry u = none := by
  unfold excessNlTry
  rw [if_neg]
  intro hp
  rw [subStr_of_suffix_pfx hsuf (by simpa [nl3] using hp)] at h
  simp at h

/-! ### Stage-level identity lemmas -/

theorem stFenced_id {t : Str} {ps : List Str} (h : btick ∉ t) : stFenced (t, ps) = (t, ps) := by
  simp only [stFenced]
  exact runStage_id (fun c cs hsuf => fencedTry_none (fun hm => h (hsuf.sublist.subset hm)))

theorem stInline_id {t : Str} {ps : List Str} (h : btick ∉ t) : stInline (t, ps) = (t, ps) := by
  simp only [stInline]
  exact runStage_id (fun c cs hsuf => inlineTry_none (fun hm => h (hsuf.sublist.subset hm)))

theorem stTable_id {t : Str} {ps : List Str} (h : '|' ∉ t) : stTable (t, ps) = (t, ps) := by
  simp only [stTable]
  exact runAnch_id (fun c cs hsuf => tableTry_none (fun hm => h (hsuf.sublist.subset hm)))

theorem stHtmlPre_id {t : Str} {ps : List Str} (h : '<' ∉ t) : stHtmlPre (t, ps) = (t, ps) := by
  simp only [stHtmlPre]
  exact runStage_id (fun c cs hsuf => protTagTry_none (fun hm => h (hsuf.sublist.subset hm)))

theorem stHtmlCode_id {t : Str} {ps : List Str} (h : '<' ∉ t) : stHtmlCode (t, ps) = (t, ps) := by
  simp only [stHtmlCode]
  exact runStage_id (fun c cs hsuf => protTagTry_none (fun hm => h (hsuf.sublist.subset hm)))

theorem stHtmlStrong_id {t : Str} {ps : List Str} (h : '<' ∉ t) :
    stHtmlStrong (t, ps) = (t, ps) := by
  simp only [stHtmlStrong]
  exact runStage_id (fun c cs hsuf => protTagTry_none (fun hm => h (hsuf.sublist.subset hm)))

theorem stHtmlB_id {t : Str} {ps : List Str} (h : '<' ∉ t) : stHtmlB (t, ps) = (t, ps) := by
  simp only [stHtmlB]
  exact runStage_id (fun c cs hsuf => protTagTry_none (fun hm => h (hsuf.sublist.subset hm)))

theorem stHtmlEm_id {t : Str} {ps : List Str} (h : '<' ∉ t) : stHtmlEm (t, ps) = (t, ps) := by
  simp only [stHtmlEm]
  exact runStage_id (fun c cs hsuf => inlineTagTry_none (fun hm => h (hsuf.sublist.subset hm)))

theorem stHtmlI_id {t : Str} {ps : List Str} (h : '<' ∉ t) : stHtmlI (t, ps) = (t, ps) := by
  simp only [stHtmlI]
  exact runStage_id (fun c cs hsuf => inlineTagTry_none (fun hm => h (hsuf.sublist.subset hm)))

theorem stHtmlDel_id {t : Str} {ps : List Str} (h : '<' ∉ t) : stHtmlDel (t, ps) = (t, ps) := by
  simp only [stHtmlDel]
  exact runStage_id (fun c cs hsuf => inlineTagTry_none (fun hm => h (hsuf.sublist.subset hm)))

theorem stHtmlS_id {t : Str} {ps : List Str} (h : '<' ∉ t) : stHtmlS (t, ps) = (t, ps) := by
  simp only [stHtmlS]
  exact runStage_id (fun c cs hsuf => inlineTagTry_none (fun hm => h (hsuf.sublist.subset hm)))

theorem stHtmlStrike_id {t : Str} {ps : List Str} (h : '<' ∉ t) :
    stHtmlStrike (t, ps) = (t, ps) := by
  simp only [stHtmlStrike]
  exact runStage_id (fun c cs hsuf => inlineTagTry_none (fun hm => h (hsuf.sublist.subset hm)))

theorem stHtmlLink_id {t : Str} {ps : List Str} (h : '<' ∉ t) : stHtmlLink (t, ps) = (t, ps) := by
  simp only [stHtmlLink]
  exact runStage_id (fun c cs hsuf => htmlLinkTry_none (fun hm => h (hsuf.sublist.subset hm)))

theorem stHtmlBr_id {t : Str} {ps : List Str} (h : '<' ∉ t) : stHtmlBr (t, ps) = (t, ps) := by
  simp only [stHtmlBr]
  exact runStage_id (fun c cs hsuf => htmlBrTry_none (fun hm => h (hsuf.sublist.subset hm)))

theorem stHtmlHeading_id {t : Str} {ps : List Str} (h : '<' ∉ t) :
    stHtmlHeading (t, ps) = (t, ps) := by
  simp only [stHtmlHeading]
  exact runStage_id (fun c cs hsuf => htmlHeadingTry_none (fun hm => h (hsuf.sublist.subset hm)))

theorem stHtmlLi_id {t : Str} {ps : List Str} (h : '<' ∉ t) : stHtmlLi (t, ps) = (t, ps) := by
  simp only [stHtmlLi]
  exact runStage_id (fun c cs hsuf => htmlLiTry_none (fun hm => h (hsuf.sublist.subset hm)))

theorem stHtmlP_id {t : Str} {ps : List Str} (h : '<' ∉ t) : stHtmlP (t, ps) = (t, ps) := by
  simp only [stHtmlP]
  exact runStage_id (fun c cs hsuf => htmlPTry_none (fun hm => h (hsuf.sublist.subset hm)))

theorem stHtmlHr_id {t : Str} {ps : List Str} (h : '<' ∉ t) : stHtmlHr (t, ps) = (t, ps) := by
  simp only [stHtmlHr]
  exact runStage_id (fun c cs hsuf => htmlHrTry_none (fun hm => h (hsuf.sublist.subset hm)))

theorem stMdImage_id {t : Str} {ps : List Str} (h : '[' ∉ t) : stMdImage (t, ps) = (t, ps) := by
  simp only [stMdImage]
  exact runStage_id (fun c cs hsuf => mdImageTry_none (fun hm => h (hsuf.sublist.subset hm)))

theorem stMdLink_id {t : Str} {ps : List Str} (h : '[' ∉ t) : stMdLink (t, ps) = (t, ps) := by
  simp only [stMdLink]
  exact runStage_id (fun c cs hsuf => mdLinkTry_none (fun hm => h (hsuf.sublist.subset hm)))

theorem stAnyTag_id {t : Str} {ps : List Str} (h : '<' ∉ t) : stAnyTag (t, ps) = (t, ps) := by
  simp only [stAnyTag]
  exact runStage_id (fun c cs hsuf => anyTagTry_none (fun hm => h (hsuf.sublist.subset hm)))

theorem stEntities_id {t : Str} {ps : List Str} (h : '&' ∉ t) : stEntities (t, ps) = (t, ps) := by
  simp only [stEntities]
  rw [repAll_id (show '&' ∈ ['&', 'l', 't', ';'] by simp) h]
  rw [repAll_id (show '&' ∈ ['&', 'g', 't', ';'] by simp) h]
  rw [repAll_id (show '&' ∈ ['&', 'q', 'u', 'o', 't', ';'] by simp) h]
  have ha : (runStage aposTry t []).1 = t := by
    rw [runStage_id (fun c cs hsuf => aposTry_none (fun hm => h (hsuf.sublist.subset hm)))]
  rw [ha]
  rw [repAll_id (show '&' ∈ ['&', 'a', 'm', 'p', ';'] by simp) h]

theorem stMdBoldItalic_id {t : Str} {ps : List Str} (h : starC ∉ t) :
    stMdBoldItalic (t, ps) = (t, ps) := by
  simp only [stMdBoldItalic]
  exact runStage_id (fun c cs hsuf => mdBoldItalicTry_none (fun hm => h (hsuf.sublist.subset hm)))

theorem stMdBold_id {t : Str} {ps : List Str} (h : starC ∉ t) : stMdBold (t, ps) = (t, ps) := by
  simp only [stMdBold]
  exact runStage_id (fun c cs hsuf => mdBoldTry_none (fun hm => h (hsuf.sublist.subset hm)))

theorem stMdItalic_id {t : Str} {ps : List Str} (h : starC ∉ t) :
    stMdItalic (t, ps) = (t, ps) := by
  simp only [stMdItalic]
  exact runStage_id (fun c cs hsuf => mdItalicTry_none (fun hm => h (hsuf.sublist.subset hm)))

theorem stMdStrike_id {t : Str} {ps : List Str} (h : '~' ∉ t) : stMdStrike (t, ps) = (t, ps) := by
  simp only [stMdStrike]
  exact runStage_id (fun c cs hsuf => mdStrikeTry_none (fun hm => h (hsuf.sublist.subset hm)))

theorem stMdHeading_id {t : Str} {ps : List Str} (h : '#' ∉ t) :
    stMdHeading (t, ps) = (t, ps) := by
  simp only [stMdHeading]
  exact runAnch_id (fun c cs hsuf => mdHeadingTry_none (fun hm => h (hsuf.sublist.subset hm)))

theorem stMdUl_id {t : Str} {ps : List Str} (hd : '-' ∉ t) (hs : starC ∉ t) :
    stMdUl (t, ps) = (t, ps) := by
  simp only [stMdUl]
  have h1 : runAnch (mdUlTry '-') t ps = (t, ps) :=
    runAnch_id (fun c cs hsuf => mdUlTry_none (fun hm => hd (hsuf.sublist.subset hm)))
  rw [h1]
  exact runAnch_id (fun c cs hsuf => mdUlTry_none (fun hm => hs (hsuf.sublist.subset hm)))

theorem stMdHr_id {t : Str} {ps : List Str} (h1 : '-' ∉ t) (h2 : starC ∉ t) (h3 : '_' ∉ t) :
    stMdHr (t, ps) = (t, ps) := by
  simp only [stMdHr]
  exact runAnch_id (fun c cs hsuf => mdHrTry_none (fun hm => h1 (hsuf.sublist.subset hm))
    (fun hm => h2 (hsuf.sublist.subset hm)) (fun hm => h3 (hsuf.sublist.subset hm)))

theorem stExcessNl_id {t : Str} {ps : List Str} (h : subStr nl3 t = false) :
    stExcessNl (t, ps) = (t, ps) := by
  simp only [stExcessNl]
  exact runStage_id (fun c cs hsuf => excessNlTry_none_of_no_triple hsuf h)

theorem restoreAll_nil (t : Str) : restoreAll t [] = t := rfl

theorem mem_of_getLast?_eq {t : Str} {a : Char} (h : t.getLast? = some a) : a ∈ t := by
  rw [← List.head?_reverse] at h
  exact List.mem_reverse.mp (List.mem_of_mem_head? h)

theorem rustTrim_id {t : Str} (hh : ∀ a, t.head? = some a → isWS a = false)
    (hl : ∀ a, t.getLast? = some a → isWS a = false) : rustTrim t = t := by
  unfold rustTrim
  rw [dropWhile_eq_self hh]
  exact dropTrailing_eq_self hl

theorem trimZwsEnds_id {t : Str} (hz : zws ∉ t) : trimZwsEnds t = t := by
  have hne : ∀ a, a ∈ t → (a == zws) = false := by
    intro a ha
    simp only [beq_eq_false_iff_ne, ne_eq]
    intro he
    exact hz (he ▸ ha)
  unfold trimZwsEnds
  rw [dropWhile_eq_self (fun a ha => hne a (List.mem_of_mem_head? ha))]
  exact dropTrailing_eq_self (fun a ha => hne a (mem_of_getLast?_eq ha))

theorem finalCleanup_id {t : Str} (hz : zws ∉ t) (hn : nulC ∉ t)
    (hh : ∀ a, t.head? = some a → isWS a = false)
    (hl : ∀ a, t.getLast? = some a → isWS a = false) : finalCleanup t = t := by
  simp only [finalCleanup]
  rw [collapseZwsG_id (subStr_eq_false_of_not_mem (show zws ∈ zz by simp [zz]) hz)]
  rw [repAll_id (show zws ∈ [' ', zws] by simp) hz]
  rw [repAll_id (show zws ∈ [zws, ' '] by simp) hz]
  rw [repAll_id (show zws ∈ ['\n', zws] by simp) hz]
  rw [repAll_id (show zws ∈ [zws, '\n'] by simp) hz]
  rw [filter_ne_nul_id hn]
  rw [rustTrim_id hh hl]
  exact trimZwsEnds_id hz

theorem beforeRestoreP_plain_id {t : Str}
    (hbt : btick ∉ t) (hpipe : '|' ∉ t) (hlt : '<' ∉ t) (hamp : '&' ∉ t) (hlb : '[' ∉ t)
    (hstar : starC ∉ t) (htld : '~' ∉ t) (hhash : '#' ∉ t) (hdash : '-' ∉ t)
    (hund : '_' ∉ t) (hnul : nulC ∉ t) (hcr : '\r' ∉ t) (hnl : subStr nl3 t = false) :
    beforeRestoreP t = (t, []) := by
  simp only [beforeRestoreP]
  rw [repAll_id (show '\r' ∈ ['\r', '\n'] by simp) hcr]
  rw [filter_ne_nul_id hnul]
  rw [stFenced_id hbt]
  rw [stInline_id hbt]
  rw [stTable_id hpipe]
  rw [stHtmlPre_id hlt]
  rw [stHtmlCode_id hlt]
  rw [stHtmlStrong_id hlt]
  rw [stHtmlB_id hlt]
  rw [stHtmlEm_id hlt]
  rw [stHtmlI_id hlt]
  rw [stHtmlDel_id hlt]
  rw [stHtmlS_id hlt]
  rw [stHtmlStrike_id hlt]
  rw [stHtmlLink_id hlt]
  rw [stHtmlBr_id hlt]
  rw [stHtmlHeading_id hlt]
  rw [stHtmlLi_id hlt]
  rw [stHtmlP_id hlt]
  rw [stHtmlHr_id hlt]
  rw [stMdImage_id hlb]
  rw [stMdLink_id hlb]
  rw [stAnyTag_id hlt]
  rw [stEntities_id hamp]
  rw [stMdBoldItalic_id hstar]
  rw [stMdBold_id hstar]
  rw [stMdItalic_id hstar]
  rw [stMdStrike_id htld]
  rw [stMdHeading_id hhash]
  rw [stMdUl_id hdash hstar]
  rw [stMdHr_id hdash hstar hund]
  rw [stExcessNl_id hnl]

/-- C4 (amended): the conversion is the identity on text that contains none of the
pipeline's trigger characters (in particular no carriage return, so line-ending
normalization is also the identity on it), no run of three or more newlines, and no
whitespace at either end. -/
theorem c4_identity_on_plain_text (s : String)
    (hplain : s.data.all plainChar = true)
    (hnl : subStr nl3 s.data = false)
    (hedge : noEdgeWS s.data = true) :
    md_to_mrkdwn s = s := by
  have hmem : ∀ c ∈ s.data, plainChar c = true := by simpa using hplain
  have hnm : ∀ d : Char, plainChar d = false → d ∉ s.data := by
    intro d hd hm
    rw [hmem d hm] at hd
    exact Bool.noConfusion hd
  have hbt : btick ∉ s.data := hnm btick (by decide)
  have hpipe : '|' ∉ s.data := hnm '|' (by decide)
  have hlt : '<' ∉ s.data := hnm '<' (by decide)
  have hamp : '&' ∉ s.data := hnm '&' (by decide)
  have hlb : '[' ∉ s.data := hnm '[' (by decide)
  have hstar : starC ∉ s.data := hnm starC (by decide)
  have htld : '~' ∉ s.data := hnm '~' (by decide)
  have hhash : '#' ∉ s.data := hnm '#' (by decide)
  have hdash : '-' ∉ s.data := hnm '-' (by decide)
  have hund : '_' ∉ s.data := hnm '_' (by decide)
  have hzws : zws ∉ s.data := hnm zws (by decide)
  have hnul : nulC ∉ s.data := hnm nulC (by decide)
  have hcr : '\r' ∉ s.data := hnm '\r' (by decide)
  unfold noEdgeWS at hedge
  have hh : ∀ a, s.data.head? = some a → isWS a = false := by
    intro a ha
    have h1 := ((Bool.and_eq_true _ _).mp hedge).1
    rw [ha] at h1
    simpa using h1
  have hl : ∀ a, s.data.getLast? = some a → isWS a = false := by
    intro a ha
    have h1 := ((Bool.and_eq_true _ _).mp hedge).2
    rw [ha] at h1
    simpa using h1
  have hmain : mdToMrkdwnL s.data = s.data := by
    rw [mdToMrkdwnL]
    cases he : s.data.isEmpty with
    | true =>
      rw [if_pos rfl]
      exact (by simpa using he : s.data = []).symm
    | false =>
      rw [if_neg (by simp)]
      show finalCleanup (restoreAll (beforeRestoreP s.data).1 (beforeRestoreP s.data).2) = s.data
      rw [beforeRestoreP_plain_id hbt hpipe hlt hamp hlb hstar htld hhash hdash hund hnul
        hcr hnl]
      show finalCleanup (restoreAll s.data []) = s.data
      rw [restoreAll_nil]
      exact finalCleanup_id hzws hnul hh hl
  show String.mk (mdToMrkdwnL s.data) = s
  rw [hmain]

/-- Witness for the amended C4 theorem at a concrete special-character-free text. -/
theorem c4_identity_witness :
    md_to_mrkdwn "plain text line one.\ntext with (brackets) and > quotes!" =
      "plain text line one.\ntext with (brackets) and > quotes!" :=
  c4_identity_on_plain_text _ (by decide) (by decide) (by decide)

/-! ### The image stage on a whole image literal -/

theorem takeWhile_append_all {p : Char → Bool} {a : Str} (b : Str)
    (h : ∀ c ∈ a, p c = true) : (a ++ b).takeWhile p = a ++ b.takeWhile p := by
  induction a with
  | nil => rfl
  | cons c cs ih =>
    rw [List.cons_append, List.takeWhile_cons, if_pos (h c (by simp)), List.cons_append]
    rw [ih (fun d hd => h d (by simp [hd]))]

theorem runStageG_nil {try? : TryFn} {n : Nat} {ps : List Str} :
    runStageG try? n [] ps = ([], ps) := by
  cases n <;> rfl

theorem mdImageTry_whole {alt url : Str} (halt : ']' ∉ alt) (hurl : ')' ∉ url)
    (hne : url ≠ []) :
    mdImageTry ('!' :: '[' :: (alt ++ (']' :: '(' :: (url ++ [')'])))) =
      some (2 + alt.length + 2 + url.length + 1, fun ps => (url, ps)) := by
  have hta : (alt ++ (']' :: '(' :: (url ++ [')']))).takeWhile (· != ']') = alt := by
    rw [takeWhile_append_all _ (fun c hc => by
      simp only [bne_iff_ne, ne_eq, decide_eq_true_eq]
      intro he
      exact halt (he ▸ hc))]
    simp [List.takeWhile_cons]
  have htu : (url ++ [')']).takeWhile (· != ')') = url := by
    rw [takeWhile_append_all _ (fun c hc => by
      simp only [bne_iff_ne, ne_eq, decide_eq_true_eq]
      intro he
      exact hurl (he ▸ hc))]
    simp [List.takeWhile_cons]
  simp only [mdImageTry, hta, htu]
  rw [List.drop_left]
  simp only [htu, List.drop_left]
  rw [if_neg (by simpa [List.isEmpty_iff] using hne)]

theorem stMdImage_whole {alt url : Str} {ps : List Str} (halt : ']' ∉ alt)
    (hurl : ')' ∉ url) (hne : url ≠ []) :
    stMdImage ('!' :: '[' :: (alt ++ (']' :: '(' :: (url ++ [')']))), ps) = (url, ps) := by
  simp only [stMdImage, runStage, List.length_cons]
  rw [runStageG_cons_some (mdImageTry_whole halt hurl hne)]
  have hlen : 2 + alt.length + 2 + url.length + 1 - 1 =
      ('[' :: (alt ++ (']' :: '(' :: (url ++ [')'])))).length := by
    simp [List.length_append, List.length_cons]
    omega
  rw [hlen, List.drop_length, runStageG_nil]
  simp

set_option maxRecDepth 20000 in
/-- C7: a Markdown link converts to the `<url|text>` syntax, and an image literal
`![alt](url)` collapses to the bare url, for any alt text and url over the
trigger-free character sets (the url additionally without `)` or newline, nonempty,
and without whitespace at its ends). -/
theorem c7_links_and_images (alt url : Str)
    (halt : alt.all (fun c => plainChar c && (c != ']')) = true)
    (hurl : url.all (fun c => plainChar c && (c != ')') && (c != '\n')) = true)
    (hne : url ≠ [])
    (hedge : noEdgeWS url = true) :
    md_to_mrkdwn "[click](https://example.com)" = "<https://example.com|click>" ∧
      md_to_mrkdwn (String.mk ('!' :: '[' :: (alt ++ (']' :: '(' :: (url ++ [')']))))) =
        String.mk url := by
  constructor
  · decide
  · simp only [List.all_eq_true, Bool.and_eq_true, bne_iff_ne, ne_eq] at halt hurl
    have haltne : ']' ∉ alt := fun hm => (halt _ hm).2 rfl
    have hurlne : ')' ∉ url := fun hm => (hurl _ hm).1.2 rfl
    have hnlu : '\n' ∉ url := fun hm => (hurl _ hm).2 rfl
    have hnm : ∀ d : Char, plainChar d = false → d ≠ '!' → d ≠ '[' → d ≠ ']' →
        d ≠ '(' → d ≠ ')' →
        d ∉ ('!' :: '[' :: (alt ++ (']' :: '(' :: (url ++ [')'])))) := by
      intro d hd h1 h2 h3 h4 h5 hm
      simp only [List.mem_cons, List.mem_append, List.not_mem_nil, or_false] at hm
      rcases hm with rfl | rfl | hm | rfl | rfl | hm | rfl
      · exact h1 rfl
      · exact h2 rfl
      · rw [(halt _ hm).1] at hd; exact Bool.noConfusion hd
      · exact h3 rfl
      · exact h4 rfl
      · rw [(hurl _ hm).1.1] at hd; exact Bool.noConfusion hd
      · exact h5 rfl
    have hnmu : ∀ d : Char, plainChar d = false → d ∉ url := by
      intro d hd hm
      rw [(hurl _ hm).1.1] at hd
      exact Bool.noConfusion hd
    have hbt := hnm btick (by decide) (by decide) (by decide) (by decide) (by decide)
      (by decide)
    have hpipe := hnm '|' (by decide) (by decide) (by decide) (by decide) (by decide)
      (by decide)
    have hlt := hnm '<' (by decide) (by decide) (by decide) (by decide) (by decide)
      (by decide)
    have hcr := hnm '\r' (by decide) (by decide) (by decide) (by decide) (by decide)
      (by decide)
    have hnul := hnm nulC (by decide) (by decide) (by decide) (by decide) (by decide)
      (by decide)
    have hlbu := hnmu '[' (by decide)
    have hltu := hnmu '<' (by decide)
    have hampu := hnmu '&' (by decide)
    have hstaru := hnmu starC (by decide)
    have htldu := hnmu '~' (by decide)
    have hhashu := hnmu '#' (by decide)
    have hdashu := hnmu '-' (by decide)
    have hundu := hnmu '_' (by decide)
    have hzwsu := hnmu zws (by decide)
    have hnulu := hnmu nulC (by decide)
    have hnl3u : subStr nl3 url = false :=
      subStr_eq_false_of_not_mem (show '\n' ∈ nl3 by simp [nl3]) hnlu
    unfold noEdgeWS at hedge
    have hhu : ∀ a, url.head? = some a → isWS a = false := by
      intro a ha
      have h1 := ((Bool.and_eq_true _ _).mp hedge).1
      rw [ha] at h1
      simpa using h1
    have hlu : ∀ a, url.getLast? = some a → isWS a = false := by
      intro a ha
      have h1 := ((Bool.and_eq_true _ _).mp hedge).2
      rw [ha] at h1
      simpa using h1
    have hmain : mdToMrkdwnL ('!' :: '[' :: (alt ++ (']' :: '(' :: (url ++ [')'])))) =
        url := by
      rw [mdToMrkdwnL]
      rw [if_neg (by simp)]
      show finalCleanup (restoreAll
        (beforeRestoreP ('!' :: '[' :: (alt ++ (']' :: '(' :: (url ++ [')']))))).1
        (beforeRestoreP ('!' :: '[' :: (alt ++ (']' :: '(' :: (url ++ [')']))))).2) = url
      have hbrp : beforeRestoreP ('!' :: '[' :: (alt ++ (']' :: '(' :: (url ++ [')'])))) =
          (url, []) := by
        simp only [beforeRestoreP]
        rw [repAll_id (show '\r' ∈ ['\r', '\n'] by simp) hcr]
        rw [filter_ne_nul_id hnul]
        rw [stFenced_id hbt, stInline_id hbt, stTable_id hpipe]
        rw [stHtmlPre_id hlt, stHtmlCode_id hlt, stHtmlStrong_id hlt, stHtmlB_id hlt,
          stHtmlEm_id hlt, stHtmlI_id hlt, stHtmlDel_id hlt, stHtmlS_id hlt,
          stHtmlStrike_id hlt, stHtmlLink_id hlt, stHtmlBr_id hlt, stHtmlHeading_id hlt,
          stHtmlLi_id hlt, stHtmlP_id hlt, stHtmlHr_id hlt]
        rw [stMdImage_whole haltne hurlne hne]
        rw [stMdLink_id hlbu, stAnyTag_id hltu, stEntities_id hampu,
          stMdBoldItalic_id hstaru, stMdBold_id hstaru, stMdItalic_id hstaru,
          stMdStrike_id htldu, stMdHeading_id hhashu, stMdUl_id hdashu hstaru,
          stMdHr_id hdashu hstaru hundu, stExcessNl_id hnl3u]
      rw [hbrp]
      show finalCleanup (restoreAll url []) = url
      rw [restoreAll_nil]
      exact finalCleanup_id hzwsu hnulu hhu hlu
    show String.mk (mdToMrkdwnL ('!' :: '[' :: (alt ++ (']' :: '(' :: (url ++ [')']))))) =
      String.mk url
    rw [hmain]

/-! ### The fenced-code stage on a whole fenced block -/

theorem pfx_refl (a : Str) : pfx a a = true := by
  induction a with
  | nil => rfl
  | cons c cs ih => simp [pfx, ih]

theorem subStr_self {pat : Str} (h : pat ≠ []) : subStr pat pat = true := by
  cases pat with
  | nil => exact absurd rfl h
  | cons c cs => simp [subStr, pfx_refl]

theorem repAllG_nil {pat rep : Str} {n : Nat} : repAllG pat rep n [] = [] := by
  cases n <;> rfl

theorem repAll_self {pat rep : Str} (hne : pat ≠ []) : repAll pat rep pat = rep := by
  cases pat with
  | nil => exact absurd rfl hne
  | cons c cs =>
    rw [repAll, List.length_cons]
    unfold repAllG
    rw [if_pos (by simp [pfx_refl])]
    rw [show (c :: cs).length - 1 = cs.length from by simp]
    rw [List.drop_length, repAllG_nil, List.append_nil]

theorem firstIdx_boundary {body : Str} (hb : subStr fenceMark body = false)
    (hlast : body.getLast? ≠ some btick) :
    firstIdx fenceMark (body ++ fenceMark) = some body.length := by
  induction body with
  | nil => decide
  | cons c cs ih =>
    have hb' : subStr fenceMark cs = false := by
      rw [subStr] at hb
      cases hcs : subStr fenceMark cs with
      | false => rfl
      | true =>
        rw [hcs, Bool.or_true] at hb
        exact Bool.noConfusion hb
    have hlast' : cs.getLast? ≠ some btick := by
      cases cs with
      | nil => simp
      | cons d ds =>
        rw [← List.getLast?_cons_cons (a := c)]
        exact hlast
    have hpf : pfx fenceMark ((c :: cs) ++ fenceMark) = false := by
      cases hpf2 : pfx fenceMark ((c :: cs) ++ fenceMark) with
      | false => rfl
      | true =>
        exfalso
        cases cs with
        | nil =>
          simp only [fenceMark, pfx, List.cons_append, List.nil_append,
            Bool.and_eq_true, beq_iff_eq] at hpf2
          exact hlast (by simp [hpf2.1])
        | cons d ds =>
          cases ds with
          | nil =>
            simp only [fenceMark, pfx, List.cons_append, List.nil_append,
              Bool.and_eq_true, beq_iff_eq] at hpf2
            exact hlast (by simp [hpf2.2.1])
          | cons e es =>
            simp only [fenceMark, pfx, List.cons_append, Bool.and_eq_true,
              beq_iff_eq] at hpf2
            obtain ⟨h1, h2, h3, -⟩ := hpf2
            subst h1
            subst h2
            subst h3
            have hsub : subStr fenceMark (btick :: btick :: btick :: es) = true := by
              simp [subStr, fenceMark, pfx]
            rw [hsub] at hb
            exact Bool.noConfusion hb
    rw [List.cons_append, firstIdx]
    rw [← List.cons_append, hpf]
    rw [if_neg (by simp)]
    rw [ih hb' hlast']
    rfl

theorem fencedTry_whole {lang body : Str} (hl : '\n' ∉ lang)
    (hb : subStr fenceMark body = false) (hlast : body.getLast? ≠ some btick) :
    fencedTry (btick :: btick :: btick :: (lang ++ ('\n' :: (body ++ fenceMark)))) =
      some (3 + lang.length + 1 + body.length + 3, fun ps =>
        (tokenStr tagCB ps.length, ps ++ [fenceMark ++ '\n' :: body ++ fenceMark])) := by
  have hta : (lang ++ ('\n' :: (body ++ fenceMark))).takeWhile (· != '\n') = lang := by
    rw [takeWhile_append_all _ (fun c hc => by
      simp only [bne_iff_ne, ne_eq, decide_eq_true_eq]
      intro he
      exact hl (he ▸ hc))]
    simp [List.takeWhile_cons]
  unfold fencedTry
  rw [if_pos (by simp [fenceMark, pfx])]
  simp only [List.drop_succ_cons, List.drop_zero, hta, List.drop_left]
  rw [firstIdx_boundary hb hlast]
  simp only [List.take_left]

theorem stFenced_whole {lang body : Str} (hl : '\n' ∉ lang)
    (hb : subStr fenceMark body = false) (hlast : body.getLast? ≠ some btick) :
    stFenced (btick :: btick :: btick :: (lang ++ ('\n' :: (body ++ fenceMark))), []) =
      (tokenStr tagCB 0, [fenceMark ++ '\n' :: body ++ fenceMark]) := by
  simp only [stFenced, runStage, List.length_cons]
  rw [runStageG_cons_some (fencedTry_whole hl hb hlast)]
  have hlen : 3 + lang.length + 1 + body.length + 3 - 1 =
      (btick :: btick :: (lang ++ ('\n' :: (body ++ fenceMark)))).length := by
    simp [List.length_append, List.length_cons, fenceMark]
    omega
  rw [hlen, List.drop_length, runStageG_nil]
  simp

theorem restoreAll_single_cb (p : Str) : restoreAll (tokenStr tagCB 0) [p] = p := by
  have h1 : restoreAll (tokenStr tagCB 0) [p] = restoreOne (tokenStr tagCB 0) 0 p := by
    simp [restoreAll, List.range_succ]
  rw [h1]
  simp only [restoreOne, allTags, restoreGo]
  rw [if_pos (subStr_self (by simp [tokenStr]))]
  exact repAll_self (by simp [tokenStr])

set_option maxRecDepth 20000 in
/-- C2 (amended): an input consisting of one fenced code block converts to the block
with its language identifier dropped and its body byte-for-byte preserved, provided
the body contains no zero-width space, sentinel byte, carriage return, or fence, and
does not end in a backtick — the zero-width cleanup, sentinel strip, and line-ending
normalization also apply to restored code bodies and would otherwise rewrite them. -/
theorem c2_fenced_block_preserved (lang body : Str)
    (hlangnl : '\n' ∉ lang) (hlangcr : '\r' ∉ lang) (hlangnul : nulC ∉ lang)
    (hbfence : subStr fenceMark body = false) (hblast : body.getLast? ≠ some btick)
    (hbcr : '\r' ∉ body) (hbnul : nulC ∉ body) (hbzws : zws ∉ body) :
    md_to_mrkdwn (String.mk (btick :: btick :: btick ::
        (lang ++ ('\n' :: (body ++ fenceMark))))) =
      String.mk (fenceMark ++ '\n' :: body ++ fenceMark) := by
  have hp : (fenceMark ++ '\n' :: body ++ fenceMark) =
      (fenceMark ++ ('\n' :: body)) ++ fenceMark := by simp
  have hwcr : '\r' ∉ (btick :: btick :: btick :: (lang ++ ('\n' :: (body ++ fenceMark)))) := by
    simp only [List.mem_cons, List.mem_append, fenceMark]
    intro hm
    rcases hm with h | h | h | h | h
    · exact absurd h.symm (by decide)
    · exact absurd h.symm (by decide)
    · exact absurd h.symm (by decide)
    · exact hlangcr h
    · rcases h with h | h
      · exact absurd h (by decide)
      · rcases h with h | h
        · exact hbcr h
        · simp at h
          exact absurd h (by decide)
  have hwnul : nulC ∉ (btick :: btick :: btick :: (lang ++ ('\n' :: (body ++ fenceMark)))) := by
    simp only [List.mem_cons, List.mem_append, fenceMark]
    intro hm
    rcases hm with h | h | h | h | h
    · exact absurd h.symm (by decide)
    · exact absurd h.symm (by decide)
    · exact absurd h.symm (by decide)
    · exact hlangnul h
    · rcases h with h | h
      · exact absurd h (by decide)
      · rcases h with h | h
        · exact hbnul h
        · simp at h
          exact absurd h (by decide)
  have hpzws : zws ∉ (fenceMark ++ '\n' :: body ++ fenceMark) := by
    simp only [List.mem_append, List.mem_cons, fenceMark]
    intro hm
    rcases hm with h | h
    · rcases h with h | h
      · simp at h
        exact absurd h (by decide)
      · rcases h with h | h
        · exact absurd h (by decide)
        · exact hbzws h
    · simp at h
      exact absurd h (by decide)
  have hpnul : nulC ∉ (fenceMark ++ '\n' :: body ++ fenceMark) := by
    simp only [List.mem_append, List.mem_cons, fenceMark]
    intro hm
    rcases hm with h | h
    · rcases h with h | h
      · simp at h
        exact absurd h (by decide)
      · rcases h with h | h
        · exact absurd h (by decide)
        · exact hbnul h
    · simp at h
      exact absurd h (by decide)
  have hphead : ∀ a, (fenceMark ++ '\n' :: body ++ fenceMark).head? = some a →
      isWS a = false := by
    intro a ha
    simp only [fenceMark, List.cons_append, List.head?_cons, Option.some.injEq] at ha
    subst ha
    decide
  have hplast : ∀ a, (fenceMark ++ '\n' :: body ++ fenceMark).getLast? = some a →
      isWS a = false := by
    intro a ha
    rw [hp, ← List.head?_reverse, List.reverse_append] at ha
    simp only [fenceMark, List.reverse_cons, List.reverse_nil, List.nil_append,
      List.cons_append, List.head?_cons, Option.some.injEq] at ha
    subst ha
    decide
  have hmain : mdToMrkdwnL (btick :: btick :: btick ::
      (lang ++ ('\n' :: (body ++ fenceMark)))) = fenceMark ++ '\n' :: body ++ fenceMark := by
    rw [mdToMrkdwnL]
    rw [if_neg (by simp)]
    show finalCleanup (restoreAll
      (beforeRestoreP (btick :: btick :: btick :: (lang ++ ('\n' :: (body ++ fenceMark))))).1
      (beforeRestoreP (btick :: btick :: btick ::
        (lang ++ ('\n' :: (body ++ fenceMark))))).2) =
      fenceMark ++ '\n' :: body ++ fenceMark
    have hbrp : beforeRestoreP (btick :: btick :: btick ::
        (lang ++ ('\n' :: (body ++ fenceMark)))) =
        (tokenStr tagCB 0, [fenceMark ++ '\n' :: body ++ fenceMark]) := by
      simp only [beforeRestoreP]
      rw [repAll_id (show '\r' ∈ ['\r', '\n'] by simp) hwcr]
      rw [filter_ne_nul_id hwnul]
      rw [stFenced_whole hlangnl hbfence hblast]
      rw [stInline_id (by decide), stTable_id (by decide)]
      rw [stHtmlPre_id (by decide), stHtmlCode_id (by decide), stHtmlStrong_id (by decide),
        stHtmlB_id (by decide), stHtmlEm_id (by decide), stHtmlI_id (by decide),
        stHtmlDel_id (by decide), stHtmlS_id (by decide), stHtmlStrike_id (by decide),
        stHtmlLink_id (by decide), stHtmlBr_id (by decide), stHtmlHeading_id (by decide),
        stHtmlLi_id (by decide), stHtmlP_id (by decide), stHtmlHr_id (by decide)]
      rw [stMdImage_id (by decide), stMdLink_id (by decide), stAnyTag_id (by decide),
        stEntities_id (by decide), stMdBoldItalic_id (by decide), stMdBold_id (by decide),
        stMdItalic_id (by decide), stMdStrike_id (by decide), stMdHeading_id (by decide),
        stMdUl_id (by decide) (by decide), stMdHr_id (by decide) (by decide) (by decide),
        stExcessNl_id (by decide)]
    rw [hbrp]
    show finalCleanup (restoreAll (tokenStr tagCB 0)
      [fenceMark ++ '\n' :: body ++ fenceMark]) = fenceMark ++ '\n' :: body ++ fenceMark
    rw [restoreAll_single_cb]
    exact finalCleanup_id hpzws hpnul hphead hplast
  show String.mk (mdToMrkdwnL (btick :: btick :: btick ::
    (lang ++ ('\n' :: (body ++ fenceMark))))) = String.mk (fenceMark ++ '\n' :: body ++ fenceMark)
  rw [hmain]

/-- Witness for the amended C2 theorem: a Python-tagged fence whose body holds Markdown
and HTML special characters. -/
theorem c2_fenced_block_preserved_witness :
    md_to_mrkdwn (String.mk (btick :: btick :: btick ::
        ("python".data ++ ('\n' :: ("def f(a, b):\n    return a < b # **x** <em>\n".data ++
          fenceMark))))) =
      String.mk (fenceMark ++ '\n' :: "def f(a, b):\n    return a < b # **x** <em>\n".data ++
        fenceMark) :=
  c2_fenced_block_preserved "python".data "def f(a, b):\n    return a < b # **x** <em>\n".data
    (by decide) (by decide) (by decide) (by decide) (by decide) (by decide) (by decide)
    (by decide)

/-- Witness for the C7 theorem at the spec's concrete image example. -/
theorem c7_links_and_images_witness :
    md_to_mrkdwn "[click](https://example.com)" = "<https://example.com|click>" ∧
      md_to_mrkdwn (String.mk ('!' :: '[' :: ("alt".data ++ (']' :: '(' ::
        ("https://example.com/img.png".data ++ [')']))))) =
        String.mk "https://example.com/img.png".data :=
  c7_links_and_images "alt".data "https://example.com/img.png".data (by decide) (by decide)
    (by decide) (by decide)

/-! ### Claim theorems -/

/-- C5 counterexample: the input consisting of one fenced code block whose body holds a
run of four newlines converts to an output that still contains three consecutive
newlines (the protected body is restored after the newline collapse), contradicting
the claim that the output never contains a run of three or more newlines. -/
theorem c5_output_triple_newline_exists :
    md_to_mrkdwn "```\na\n\n\n\nb\n```" = "```\na\n\n\n\nb\n```" ∧
      subStr nl3 (md_to_mrkdwn "```\na\n\n\n\nb\n```").data = true := by
  constructor
  · decide
  · decide

/-- C5 (amended): the newline collapse guarantees that the working text right before the
restoration pass never contains three consecutive newlines; newline runs inside
protected spans are reinstated by restoration and may reach the final output. -/
theorem c5_no_triple_newline_beforeRestore (s : String) :
    subStr nl3 (beforeRestore s.data) = false := by
  unfold beforeRestore beforeRestoreP
  exact stExcessNl_no_triple _

/-- C1 counterexample: for the input `<` + inline code + `>`, the protection pass stores
the inline code span, but the generic HTML-tag stripper deletes the region holding its
placeholder token; the stored replacement never reappears (the output is empty), so
not every emitted placeholder token is restored. -/
theorem c1_protected_span_lost :
    (beforeRestoreP "<`x`>".data).2 = ["`x`".data] ∧ md_to_mrkdwn "<`x`>" = "" := by
  constructor
  · decide
  · decide

/-- C1 (amended): after the restoration loop and the final sentinel strip, no placeholder
token of any category remains anywhere in the output (the output has no sentinel byte
at all); however a token destroyed by an intermediate stage is dropped together with
its stored replacement rather than restored. -/
theorem c1_no_placeholder_token_in_output (s : String) (tag : Str) (idx : Nat) :
    nulC ∉ (md_to_mrkdwn s).data ∧
      subStr (tokenStr tag idx) (md_to_mrkdwn s).data = false := by
  refine ⟨nul_not_mem_output s, ?_⟩
  exact subStr_eq_false_of_not_mem (by simp [tokenStr]) (nul_not_mem_output s)

/-- C6: the four Markdown emphasis forms map to the single-character mrkdwn delimiters:
double-star bold to `*…*`, single-star italic to `_…_`, triple-star bold-italic to
`*_…_*`, and double-tilde strikethrough to `~…~`. -/
theorem c6_emphasis_mapping :
    md_to_mrkdwn "**bold**" = "*bold*" ∧ md_to_mrkdwn "*x*" = "_x_" ∧
      md_to_mrkdwn "***x***" = "*_x_*" ∧ md_to_mrkdwn "~~x~~" = "~x~" := by
  refine ⟨?_, ?_, ?_, ?_⟩ <;> decide

/-- C9: HTML entities decode in the fixed order lt, gt, quot, apos, amp; in particular
the doubly-escaped `&amp;lt;` decodes to `&lt;` (amp is decoded last), while each
individual entity decodes to its character. -/
theorem c9_entity_decode_order :
    md_to_mrkdwn "&amp;lt;" = "&lt;" ∧ md_to_mrkdwn "&lt;" = "<" ∧
      md_to_mrkdwn "&gt;" = ">" ∧ md_to_mrkdwn "&quot;" = "\"" ∧
      md_to_mrkdwn "&apos;" = "\x27" ∧ md_to_mrkdwn "&#39;" = "\x27" ∧
      md_to_mrkdwn "&#039;" = "\x27" ∧ md_to_mrkdwn "&amp;" = "&" := by
  refine ⟨?_, ?_, ?_, ?_, ?_, ?_, ?_, ?_⟩ <;> decide

/-- C10 counterexample: for the input zero-width-space, tab, `x`, the final step trims
whitespace first and zero-width markers second, so the marker shields the tab and the
output `"\tx"` begins with whitespace, contradicting the claim that the output never
has leading or trailing whitespace. -/
theorem c10_leading_whitespace_possible :
    md_to_mrkdwn "\u200B\tx" = "\tx" ∧ isWS '\t' = true := by
  constructor
  · decide
  · decide

/-- C10 (amended): the final result is `text.trim().trim_matches(ZWS)` — whitespace is
trimmed first and zero-width markers second — so the output never begins or ends with
a zero-width marker, but trimming the markers can expose whitespace (such as a tab)
that then remains at the ends. -/
theorem c10_no_zws_at_output_ends (s : String) :
    (md_to_mrkdwn s).data.head? ≠ some zws ∧ (md_to_mrkdwn s).data.getLast? ≠ some zws := by
  have hd : (md_to_mrkdwn s).data = mdToMrkdwnL s.data := rfl
  rw [hd, mdToMrkdwnL]
  cases he : s.data.isEmpty with
  | true => simp
  | false =>
    rw [if_neg (by simp)]
    exact ⟨finalCleanup_head_ne _, finalCleanup_getLast_ne _⟩

/-- C2 counterexample: a fenced code block whose body is two adjacent zero-width spaces
is not preserved byte-for-byte — the zero-width cleanup runs after restoration and
rewrites the body (here both markers vanish: first collapsed to one, then removed
for being adjacent to a newline). -/
theorem c2_code_block_body_rewritten :
    md_to_mrkdwn "```\n\u200B\u200B\n```" = "```\n\n```" ∧
      md_to_mrkdwn "```\n\u200B\u200B\n```" ≠ "```\n\u200B\u200B\n```" := by
  constructor
  · decide
  · decide

/-- C4 counterexample: inputs with no Markdown or HTML special characters are still
rewritten — a run of four newlines collapses to two, and surrounding whitespace is
trimmed — so conversion is not the identity on special-character-free text. -/
theorem c4_plain_text_not_fixed :
    ("a\n\n\n\nb".data.all plainChar = true ∧ md_to_mrkdwn "a\n\n\n\nb" ≠ "a\n\n\n\nb") ∧
      (" x".data.all plainChar = true ∧ md_to_mrkdwn " x" ≠ " x") := by
  refine ⟨⟨?_, ?_⟩, ⟨?_, ?_⟩⟩ <;> decide

/-! ### The table stage on a whole header/separator/body block -/

theorem takeWhile_all_eq {p : Char → Bool} {s : Str} (h : ∀ c ∈ s, p c = true) :
    s.takeWhile p = s := by
  have h2 := takeWhile_append_all (p := p) (a := s) [] h
  simpa using h2

theorem takeWhile_ne_nl_eq_self {a : Str} (ha : '\n' ∉ a) : a.takeWhile (· != '\n') = a :=
  takeWhile_all_eq (fun c hc => by
    simp only [bne_iff_ne, ne_eq, decide_eq_true_eq]
    intro he
    exact ha (he ▸ hc))

theorem drop_append_cons (a : Str) (c : Char) (b : Str) :
    (a ++ (c :: b)).drop (a.length + 1) = b := by
  induction a with
  | nil => simp
  | cons d ds ih =>
    rw [List.cons_append, List.length_cons, List.drop_succ_cons]
    exact ih

theorem getLast?_append_right {X C : Str} (h : C ≠ []) :
    (X ++ C).getLast? = C.getLast? := by
  rw [← List.head?_reverse, ← List.head?_reverse (l := C), List.reverse_append]
  cases hC : C.reverse with
  | nil => exact absurd (by simpa using hC) h
  | cons c cs => simp [hC]

theorem getLast?_dropTrailing_ne {p : Char → Bool} {t : Str} {a : Char}
    (h : (dropTrailing p t).getLast? = some a) : p a = false := by
  unfold dropTrailing at h
  rw [List.getLast?_reverse] at h
  exact head?_dropWhile_ne h

theorem getLast?_beq_cr_false {a : Str} (har : '\r' ∉ a) :
    (a.getLast? == some '\r') = false := by
  cases hg : a.getLast? with
  | none => rfl
  | some x =>
    have hx : x ∈ a := mem_of_getLast?_eq hg
    have hxr : x ≠ '\r' := fun he => har (he ▸ hx)
    simp [hxr]

theorem rowLineLen_none_noNl {s : Str} (h : '\n' ∉ s) : rowLineLen s = none := by
  have ht : s.takeWhile (· != '\n') = s := takeWhile_ne_nl_eq_self h
  simp [rowLineLen, ht]

theorem sepTail_succ {fu : Nat} {r2 after : Str} {j : Nat} (h : lastIdxOf '|' r2 = some j) :
    sepTail (fu + 1) r2 after =
      match (r2.drop (j + 1) ++ after).drop
          ((r2.drop (j + 1) ++ after).takeWhile isSpTab).length with
      | '\n' :: _ => some (j + 1 + ((r2.drop (j + 1) ++ after).takeWhile isSpTab).length + 1)
      | _ => sepTail fu (r2.take j) after := by
  simp only [sepTail]
  rw [h]

theorem sepTail_none {fu : Nat} {r2 after : Str} (h2 : '\n' ∉ r2) (ha : '\n' ∉ after) :
    sepTail fu r2 after = none := by
  induction fu generalizing r2 with
  | zero => rfl
  | succ fu ih =>
    cases hlast : lastIdxOf '|' r2 with
    | none => simp only [sepTail, hlast]
    | some j =>
      rw [sepTail_succ hlast]
      split
      · rename_i tl heq
        exfalso
        have hmem : '\n' ∈ r2.drop (j + 1) ++ after := by
          apply mem_of_mem_drop (n := ((r2.drop (j + 1) ++ after).takeWhile isSpTab).length)
          rw [heq]
          exact List.mem_cons_self _ _
        rcases List.mem_append.mp hmem with hm | hm
        · exact h2 (mem_of_mem_drop hm)
        · exact ha hm
      · exact ih (fun hm => h2 (mem_of_mem_take hm))

theorem sepLen_none_noNl {s : Str} (h : '\n' ∉ s) : sepLen s = none := by
  simp only [sepLen]
  split
  · rename_i c rest h1
    split
    · -- opening pipe found
      split
      · rename_i d rest2 h2
        split
        · -- mandatory dash found
          have hrest : ∀ x ∈ rest, x ∈ s := by
            intro x hx
            apply mem_of_mem_drop (n := (s.takeWhile isSpTab).length)
            rw [h1]
            exact List.mem_cons_of_mem _ hx
          have hrest2 : ∀ x ∈ rest2, x ∈ s := by
            intro x hx
            apply hrest
            apply mem_of_mem_drop (n := (rest.takeWhile isWsColon).length)
            rw [h2]
            exact List.mem_cons_of_mem _ hx
          have hr2 : '\n' ∉ rest2.takeWhile isSepBody := fun hm =>
            h (hrest2 _ (mem_of_mem_takeWhile hm))
          have hafter : '\n' ∉ rest2.drop (rest2.takeWhile isSepBody).length := fun hm =>
            h (hrest2 _ (mem_of_mem_drop hm))
          rw [sepTail_none hr2 hafter]
        · rfl
      · rfl
    · rfl
  · rfl

theorem headerLens_cons {fu : Nat} {s : Str} {len : Nat} (h : rowLineLen s = some len) :
    headerLens (fu + 1) s = len :: headerLens fu (s.drop len) := by
  rw [headerLens, h]

theorem headerLens_stop {fu : Nat} {s : Str} (h : rowLineLen s = none) :
    headerLens (fu + 1) s = [] := by
  rw [headerLens, h]

theorem headerLens_table {fu : Nat} {row1 sep row2 : Str}
    (h1 : rowLineLen (row1 ++ ('\n' :: (sep ++ ('\n' :: row2)))) = some (row1.length + 1))
    (h2 : rowLineLen (sep ++ ('\n' :: row2)) = some (sep.length + 1))
    (h3 : '\n' ∉ row2) :
    headerLens (fu + 3) (row1 ++ ('\n' :: (sep ++ ('\n' :: row2)))) =
      [row1.length + 1, sep.length + 1] := by
  rw [show fu + 3 = fu + 1 + 1 + 1 from by omega]
  rw [headerLens_cons h1, drop_append_cons, headerLens_cons h2, drop_append_cons,
    headerLens_stop (rowLineLen_none_noNl h3)]

theorem bodyRun_stop {fu : Nat} {s : Str} {len : Nat}
    (h : bodyLineLen s = some (len, false)) : bodyRun (fu + 1) s = len := by
  rw [bodyRun, h]

theorem tableBackRev_cons_none {s : Str} {l : Nat} {rest : List Nat}
    (h : sepLen (s.drop ((l :: rest).sum)) = none) :
    tableBackRev s (l :: rest) = tableBackRev s rest := by
  simp only [tableBackRev]
  rw [h]

theorem tableBackRev_cons_some {s : Str} {l : Nat} {rest : List Nat} {slen : Nat}
    (h : sepLen (s.drop ((l :: rest).sum)) = some slen) :
    tableBackRev s (l :: rest) = some ((l :: rest).sum + slen +
      bodyRun (s.length + 1) (s.drop ((l :: rest).sum + slen))) := by
  simp only [tableBackRev]
  rw [h]

theorem tableBackRev_table {row1 sep row2 : Str}
    (h3 : sepLen (sep ++ ('\n' :: row2)) = some (sep.length + 1))
    (h4 : bodyLineLen row2 = some (row2.length, false))
    (hnl : '\n' ∉ row2) :
    tableBackRev (row1 ++ ('\n' :: (sep ++ ('\n' :: row2))))
      [sep.length + 1, row1.length + 1] =
      some (row1.length + 1 + (sep.length + 1) + row2.length) := by
  have hsum2 : ([sep.length + 1, row1.length + 1] : List Nat).sum =
      (sep.length + 1) + (row1.length + 1) := by simp
  have hdrop2 : (row1 ++ ('\n' :: (sep ++ ('\n' :: row2)))).drop
      ((sep.length + 1) + (row1.length + 1)) = row2 := by
    rw [show (sep.length + 1) + (row1.length + 1) =
      (row1.length + 1) + (sep.length + 1) from by omega]
    rw [← List.drop_drop, drop_append_cons, drop_append_cons]
  have hnone : sepLen ((row1 ++ ('\n' :: (sep ++ ('\n' :: row2)))).drop
      (([sep.length + 1, row1.length + 1] : List Nat).sum)) = none := by
    rw [hsum2, hdrop2]
    exact sepLen_none_noNl hnl
  rw [tableBackRev_cons_none hnone]
  have hsum1 : (([row1.length + 1] : List Nat)).sum = row1.length + 1 := by simp
  have hsome : sepLen ((row1 ++ ('\n' :: (sep ++ ('\n' :: row2)))).drop
      (([row1.length + 1] : List Nat).sum)) = some (sep.length + 1) := by
    rw [hsum1, drop_append_cons]
    exact h3
  rw [tableBackRev_cons_some hsome, hsum1]
  have hdrop2' : (row1 ++ ('\n' :: (sep ++ ('\n' :: row2)))).drop
      ((row1.length + 1) + (sep.length + 1)) = row2 := by
    rw [show (row1.length + 1) + (sep.length + 1) =
      (sep.length + 1) + (row1.length + 1) from by omega]
    exact hdrop2
  rw [hdrop2', bodyRun_stop h4]

theorem tableTry_eval {s : Str} {total : Nat}
    (h : tableBackRev s (headerLens (s.length + 1) s).reverse = some total) :
    tableTry s = some (total, fun ps =>
      (tokenStr tagTB ps.length,
       ps ++ [fenceMark ++ '\n' :: tableBody (s.take total) ++ '\n' :: fenceMark])) := by
  simp only [tableTry]
  rw [h]

theorem tableTry_whole {row1 sep row2 : Str}
    (h1 : rowLineLen (row1 ++ ('\n' :: (sep ++ ('\n' :: row2)))) = some (row1.length + 1))
    (h2 : rowLineLen (sep ++ ('\n' :: row2)) = some (sep.length + 1))
    (h3 : sepLen (sep ++ ('\n' :: row2)) = some (sep.length + 1))
    (h4 : bodyLineLen row2 = some (row2.length, false))
    (hnl : '\n' ∉ row2) :
    tableTry (row1 ++ ('\n' :: (sep ++ ('\n' :: row2)))) =
      some ((row1 ++ ('\n' :: (sep ++ ('\n' :: row2)))).length, fun ps =>
        (tokenStr tagTB ps.length,
         ps ++ [fenceMark ++ '\n' :: tableBody (row1 ++ ('\n' :: (sep ++ ('\n' :: row2)))) ++
           '\n' :: fenceMark])) := by
  have hf : (row1 ++ ('\n' :: (sep ++ ('\n' :: row2)))).length + 1 =
      (row1.length + sep.length + row2.length) + 3 := by
    simp only [List.length_append, List.length_cons]
    omega
  have hhl : (headerLens ((row1 ++ ('\n' :: (sep ++ ('\n' :: row2)))).length + 1)
      (row1 ++ ('\n' :: (sep ++ ('\n' :: row2))))).reverse =
      [sep.length + 1, row1.length + 1] := by
    rw [hf, headerLens_table h1 h2 hnl]
    rfl
  have hev := @tableTry_eval (row1 ++ ('\n' :: (sep ++ ('\n' :: row2))))
      (row1.length + 1 + (sep.length + 1) + row2.length)
      (by rw [hhl]; exact tableBackRev_table h3 h4 hnl)
  rw [hev]
  have htot : row1.length + 1 + (sep.length + 1) + row2.length =
      (row1 ++ ('\n' :: (sep ++ ('\n' :: row2)))).length := by
    simp only [List.length_append, List.length_cons]
    omega
  rw [htot, List.take_length]

theorem runAnchG_nil {try? : TryFn} {n : Nat} {b : Bool} {ps : List Str} :
    runAnchG try? n b [] ps = ([], ps) := by
  cases n <;> rfl

theorem runAnch_match_all {try? : TryFn} {s : Str} {ps : List Str} {build : Build}
    (hne : s ≠ []) (h : try? s = some (s.length, build)) :
    runAnch try? s ps = ((build ps).1, (build ps).2) := by
  cases s with
  | nil => exact absurd rfl hne
  | cons c cs =>
    rw [List.length_cons] at h
    rw [runAnch, List.length_cons, runAnchG, if_pos rfl, h]
    simp [List.drop_length, runAnchG_nil]

theorem stTable_whole {row1 sep row2 : Str}
    (h1 : rowLineLen (row1 ++ ('\n' :: (sep ++ ('\n' :: row2)))) = some (row1.length + 1))
    (h2 : rowLineLen (sep ++ ('\n' :: row2)) = some (sep.length + 1))
    (h3 : sepLen (sep ++ ('\n' :: row2)) = some (sep.length + 1))
    (h4 : bodyLineLen row2 = some (row2.length, false))
    (hnl : '\n' ∉ row2) :
    stTable (row1 ++ ('\n' :: (sep ++ ('\n' :: row2))), []) =
      (tokenStr tagTB 0,
       [fenceMark ++ '\n' :: tableBody (row1 ++ ('\n' :: (sep ++ ('\n' :: row2)))) ++
         '\n' :: fenceMark]) := by
  simp only [stTable]
  rw [runAnch_match_all (by simp) (tableTry_whole h1 h2 h3 h4 hnl)]
  rfl

theorem rustLinesG_succ {fu : Nat} {s : Str} (hne : s ≠ []) :
    rustLinesG (fu + 1) s =
      match s.drop (s.takeWhile (· != '\n')).length with
      | _ :: rest2 =>
        (if (s.takeWhile (· != '\n')).getLast? == some '\r'
          then (s.takeWhile (· != '\n')).dropLast else s.takeWhile (· != '\n')) ::
          rustLinesG fu rest2
      | [] => [if (s.takeWhile (· != '\n')).getLast? == some '\r'
          then (s.takeWhile (· != '\n')).dropLast else s.takeWhile (· != '\n')] := by
  cases s with
  | nil => exact absurd rfl hne
  | cons c cs => rfl

theorem rustLinesG_cons_line {fu : Nat} {a rest : Str} (ha : '\n' ∉ a) (har : '\r' ∉ a) :
    rustLinesG (fu + 1) (a ++ ('\n' :: rest)) = a :: rustLinesG fu rest := by
  have hta : (a ++ ('\n' :: rest)).takeWhile (· != '\n') = a := by
    rw [takeWhile_append_all _ (fun c hc => by
      simp only [bne_iff_ne, ne_eq, decide_eq_true_eq]
      intro he
      exact ha (he ▸ hc))]
    simp [List.takeWhile_cons]
  rw [rustLinesG_succ (by simp), hta, List.drop_left]
  simp [getLast?_beq_cr_false har]

theorem rustLinesG_last {fu : Nat} {a : Str} (ha : '\n' ∉ a) (har : '\r' ∉ a)
    (hne : a ≠ []) : rustLinesG (fu + 1) a = [a] := by
  rw [rustLinesG_succ hne, takeWhile_ne_nl_eq_self ha, List.drop_length]
  simp [getLast?_beq_cr_false har]

theorem rustLines_three {row1 sep row2 : Str}
    (h1 : '\n' ∉ row1) (h2 : '\n' ∉ sep) (h3 : '\n' ∉ row2)
    (c1 : '\r' ∉ row1) (c2 : '\r' ∉ sep) (c3 : '\r' ∉ row2) (hne : row2 ≠ []) :
    rustLines (row1 ++ ('\n' :: (sep ++ ('\n' :: row2)))) = [row1, sep, row2] := by
  simp only [rustLines]
  rw [rustLinesG_cons_line h1 c1]
  have hf1 : (row1 ++ ('\n' :: (sep ++ ('\n' :: row2)))).length =
      (row1.length + sep.length + row2.length + 1) + 1 := by
    simp only [List.length_append, List.length_cons]
    omega
  rw [hf1, rustLinesG_cons_line h2 c2, rustLinesG_last h3 c3 hne]

theorem tableBody_three {row1 sep row2 : Str}
    (h1 : '\n' ∉ row1) (h2 : '\n' ∉ sep) (h3 : '\n' ∉ row2)
    (c1 : '\r' ∉ row1) (c2 : '\r' ∉ sep) (c3 : '\r' ∉ row2) (hne : row2 ≠ [])
    (htr : rustTrim row2 ≠ []) :
    tableBody (row1 ++ ('\n' :: (sep ++ ('\n' :: row2)))) =
      rustTrim row1 ++ '\n' :: (rustTrim sep ++ '\n' :: rustTrim row2) := by
  simp only [tableBody]
  rw [rustLines_three h1 h2 h3 c1 c2 c3 hne]
  simp only [List.map_cons, List.map_nil]
  have hj : joinNl [rustTrim row1, rustTrim sep, rustTrim row2] =
      rustTrim row1 ++ '\n' :: (rustTrim sep ++ '\n' :: rustTrim row2) := by
    simp [joinNl]
  rw [hj]
  apply dropTrailing_eq_self
  intro a hx
  have hg : (rustTrim row1 ++ '\n' :: (rustTrim sep ++ '\n' :: rustTrim row2)).getLast? =
      (rustTrim row2).getLast? := by
    rw [getLast?_append_right (by simp)]
    rw [show ('\n' :: (rustTrim sep ++ '\n' :: rustTrim row2)) =
      (('\n' :: rustTrim sep) ++ ('\n' :: rustTrim row2)) from by simp]
    rw [getLast?_append_right (by simp)]
    rw [show ('\n' :: rustTrim row2) = (['\n'] ++ rustTrim row2) from rfl]
    rw [getLast?_append_right htr]
  rw [hg] at hx
  have hxw : isWS a = false := by
    rw [rustTrim] at hx
    exact getLast?_dropTrailing_ne hx
  show (a == '\n') = false
  cases hb : a == '\n' with
  | false => rfl
  | true =>
    have ha' : a = '\n' := by simpa using hb
    rw [ha'] at hxw
    exact absurd hxw (by decide)

theorem restoreAll_single_tb (p : Str) : restoreAll (tokenStr tagTB 0) [p] = p := by
  have h1 : restoreAll (tokenStr tagTB 0) [p] = restoreOne (tokenStr tagTB 0) 0 p := by
    simp [restoreAll, List.range_succ]
  rw [h1]
  simp only [restoreOne, allTags, restoreGo]
  rw [if_neg (by decide), if_neg (by decide), if_pos (subStr_self (by simp [tokenStr]))]
  exact repAll_self (by simp [tokenStr])

set_option maxRecDepth 20000 in
/-- C8: a well-formed pipe table — a header row accepted by the row pattern, a
separator row accepted by both the row and the separator patterns, and a body row
accepted to its full length by the body pattern — converts to a fenced code block
whose interior is exactly the same rows with each line's surrounding whitespace
trimmed, provided the rows contain no backtick, carriage return, sentinel byte or
zero-width space (those characters would trigger earlier stages or the final
cleanup). -/
theorem c8_table_to_code_block (row1 sep row2 : Str)
    (h1 : rowLineLen (row1 ++ ('\n' :: (sep ++ ('\n' :: row2)))) = some (row1.length + 1))
    (h2 : rowLineLen (sep ++ ('\n' :: row2)) = some (sep.length + 1))
    (h3 : sepLen (sep ++ ('\n' :: row2)) = some (sep.length + 1))
    (h4 : bodyLineLen row2 = some (row2.length, false))
    (hnl1 : '\n' ∉ row1) (hnl2 : '\n' ∉ sep) (hnl3 : '\n' ∉ row2)
    (hsafe : (row1 ++ (sep ++ row2)).all
      (fun c => c != '\r' && c != nulC && c != btick && c != zws) = true)
    (htr : rustTrim row2 ≠ []) :
    md_to_mrkdwn (String.mk (row1 ++ ('\n' :: (sep ++ ('\n' :: row2))))) =
      String.mk (fenceMark ++ '\n' ::
        (rustTrim row1 ++ '\n' :: (rustTrim sep ++ '\n' :: rustTrim row2)) ++
        '\n' :: fenceMark) := by
  have hsafe' : ∀ c ∈ row1 ++ (sep ++ row2),
      c ≠ '\r' ∧ c ≠ nulC ∧ c ≠ btick ∧ c ≠ zws := by
    intro c hc
    have h := List.all_eq_true.mp hsafe c hc
    simp only [Bool.and_eq_true, bne_iff_ne, ne_eq] at h
    exact ⟨h.1.1.1, h.1.1.2, h.1.2, h.2⟩
  have hcr1 : '\r' ∉ row1 := fun hm => (hsafe' _ (List.mem_append_left _ hm)).1 rfl
  have hcr2 : '\r' ∉ sep := fun hm =>
    (hsafe' _ (List.mem_append_right _ (List.mem_append_left _ hm))).1 rfl
  have hcr3 : '\r' ∉ row2 := fun hm =>
    (hsafe' _ (List.mem_append_right _ (List.mem_append_right _ hm))).1 rfl
  have hne2 : row2 ≠ [] := by
    intro he
    rw [he] at h4
    exact absurd h4 (by decide)
  have hwmem : ∀ c ∈ (row1 ++ ('\n' :: (sep ++ ('\n' :: row2)))),
      c = '\n' ∨ c ∈ row1 ++ (sep ++ row2) := by
    intro c hc
    rcases List.mem_append.mp hc with h | h
    · exact Or.inr (List.mem_append_left _ h)
    · rcases List.mem_cons.mp h with h | h
      · exact Or.inl h
      · rcases List.mem_append.mp h with h | h
        · exact Or.inr (List.mem_append_right _ (List.mem_append_left _ h))
        · rcases List.mem_cons.mp h with h | h
          · exact Or.inl h
          · exact Or.inr (List.mem_append_right _ (List.mem_append_right _ h))
  have hwcr : '\r' ∉ (row1 ++ ('\n' :: (sep ++ ('\n' :: row2)))) := by
    intro hm
    rcases hwmem _ hm with h | h
    · exact absurd h (by decide)
    · exact (hsafe' _ h).1 rfl
  have hwnul : nulC ∉ (row1 ++ ('\n' :: (sep ++ ('\n' :: row2)))) := by
    intro hm
    rcases hwmem _ hm with h | h
    · exact absurd h (by decide)
    · exact (hsafe' _ h).2.1 rfl
  have hwbt : btick ∉ (row1 ++ ('\n' :: (sep ++ ('\n' :: row2)))) := by
    intro hm
    rcases hwmem _ hm with h | h
    · exact absurd h (by decide)
    · exact (hsafe' _ h).2.2.1 rfl
  have htb : tableBody (row1 ++ ('\n' :: (sep ++ ('\n' :: row2)))) =
      rustTrim row1 ++ '\n' :: (rustTrim sep ++ '\n' :: rustTrim row2) :=
    tableBody_three hnl1 hnl2 hnl3 hcr1 hcr2 hcr3 hne2 htr
  have hpmem : ∀ c ∈ (fenceMark ++ '\n' ::
      (rustTrim row1 ++ '\n' :: (rustTrim sep ++ '\n' :: rustTrim row2)) ++
      '\n' :: fenceMark), c = btick ∨ c = '\n' ∨ c ∈ row1 ++ (sep ++ row2) := by
    intro c hc
    rcases List.mem_append.mp hc with hc | hc
    · rcases List.mem_append.mp hc with hc | hc
      · simp only [fenceMark, List.mem_cons, List.not_mem_nil, or_false] at hc
        rcases hc with hc | hc | hc <;> exact Or.inl hc
      · rcases List.mem_cons.mp hc with hc | hc
        · exact Or.inr (Or.inl hc)
        · rcases List.mem_append.mp hc with hc | hc
          · exact Or.inr (Or.inr (List.mem_append_left _ (mem_of_mem_rustTrim hc)))
          · rcases List.mem_cons.mp hc with hc | hc
            · exact Or.inr (Or.inl hc)
            · rcases List.mem_append.mp hc with hc | hc
              · exact Or.inr (Or.inr (List.mem_append_right _
                  (List.mem_append_left _ (mem_of_mem_rustTrim hc))))
              · rcases List.mem_cons.mp hc with hc | hc
                · exact Or.inr (Or.inl hc)
                · exact Or.inr (Or.inr (List.mem_append_right _
                    (List.mem_append_right _ (mem_of_mem_rustTrim hc))))
    · rcases List.mem_cons.mp hc with hc | hc
      · exact Or.inr (Or.inl hc)
      · simp only [fenceMark, List.mem_cons, List.not_mem_nil, or_false] at hc
        rcases hc with hc | hc | hc <;> exact Or.inl hc
  have hpzws : zws ∉ (fenceMark ++ '\n' ::
      (rustTrim row1 ++ '\n' :: (rustTrim sep ++ '\n' :: rustTrim row2)) ++
      '\n' :: fenceMark) := by
    intro hm
    rcases hpmem _ hm with h | h | h
    · exact absurd h (by decide)
    · exact absurd h (by decide)
    · exact (hsafe' _ h).2.2.2 rfl
  have hpnul : nulC ∉ (fenceMark ++ '\n' ::
      (rustTrim row1 ++ '\n' :: (rustTrim sep ++ '\n' :: rustTrim row2)) ++
      '\n' :: fenceMark) := by
    intro hm
    rcases hpmem _ hm with h | h | h
    · exact absurd h (by decide)
    · exact absurd h (by decide)
    · exact (hsafe' _ h).2.1 rfl
  have hphead : ∀ a, (fenceMark ++ '\n' ::
      (rustTrim row1 ++ '\n' :: (rustTrim sep ++ '\n' :: rustTrim row2)) ++
      '\n' :: fenceMark).head? = some a → isWS a = false := by
    intro a ha
    simp only [fenceMark, List.cons_append, List.head?_cons, Option.some.injEq] at ha
    subst ha
    decide
  have hplast : ∀ a, (fenceMark ++ '\n' ::
      (rustTrim row1 ++ '\n' :: (rustTrim sep ++ '\n' :: rustTrim row2)) ++
      '\n' :: fenceMark).getLast? = some a → isWS a = false := by
    intro a ha
    rw [getLast?_append_right (by simp)] at ha
    rw [show (('\n' :: fenceMark).getLast?) = some btick from rfl] at ha
    simp only [Option.some.injEq] at ha
    subst ha
    decide
  have hmain : mdToMrkdwnL (row1 ++ ('\n' :: (sep ++ ('\n' :: row2)))) =
      fenceMark ++ '\n' ::
        (rustTrim row1 ++ '\n' :: (rustTrim sep ++ '\n' :: rustTrim row2)) ++
        '\n' :: fenceMark := by
    rw [mdToMrkdwnL]
    rw [if_neg (by simp)]
    show finalCleanup (restoreAll
      (beforeRestoreP (row1 ++ ('\n' :: (sep ++ ('\n' :: row2))))).1
      (beforeRestoreP (row1 ++ ('\n' :: (sep ++ ('\n' :: row2))))).2) =
      fenceMark ++ '\n' ::
        (rustTrim row1 ++ '\n' :: (rustTrim sep ++ '\n' :: rustTrim row2)) ++
        '\n' :: fenceMark
    have hbrp : beforeRestoreP (row1 ++ ('\n' :: (sep ++ ('\n' :: row2)))) =
        (tokenStr tagTB 0,
         [fenceMark ++ '\n' ::
           (rustTrim row1 ++ '\n' :: (rustTrim sep ++ '\n' :: rustTrim row2)) ++
           '\n' :: fenceMark]) := by
      simp only [beforeRestoreP]
      rw [repAll_id (show '\r' ∈ ['\r', '\n'] by simp) hwcr]
      rw [filter_ne_nul_id hwnul]
      rw [stFenced_id hwbt, stInline_id hwbt]
      rw [stTable_whole h1 h2 h3 h4 hnl3]
      rw [htb]
      rw [stHtmlPre_id (by decide), stHtmlCode_id (by decide), stHtmlStrong_id (by decide),
        stHtmlB_id (by decide), stHtmlEm_id (by decide), stHtmlI_id (by decide),
        stHtmlDel_id (by decide), stHtmlS_id (by decide), stHtmlStrike_id (by decide),
        stHtmlLink_id (by decide), stHtmlBr_id (by decide), stHtmlHeading_id (by decide),
        stHtmlLi_id (by decide), stHtmlP_id (by decide), stHtmlHr_id (by decide)]
      rw [stMdImage_id (by decide), stMdLink_id (by decide), stAnyTag_id (by decide),
        stEntities_id (by decide), stMdBoldItalic_id (by decide), stMdBold_id (by decide),
        stMdItalic_id (by decide), stMdStrike_id (by decide), stMdHeading_id (by decide),
        stMdUl_id (by decide) (by decide), stMdHr_id (by decide) (by decide) (by decide),
        stExcessNl_id (by decide)]
    rw [hbrp]
    show finalCleanup (restoreAll (tokenStr tagTB 0)
      [fenceMark ++ '\n' ::
        (rustTrim row1 ++ '\n' :: (rustTrim sep ++ '\n' :: rustTrim row2)) ++
        '\n' :: fenceMark]) =
      fenceMark ++ '\n' ::
        (rustTrim row1 ++ '\n' :: (rustTrim sep ++ '\n' :: rustTrim row2)) ++
        '\n' :: fenceMark
    rw [restoreAll_single_tb]
    exact finalCleanup_id hpzws hpnul hphead hplast
  show String.mk (mdToMrkdwnL (row1 ++ ('\n' :: (sep ++ ('\n' :: row2))))) =
    String.mk (fenceMark ++ '\n' ::
      (rustTrim row1 ++ '\n' :: (rustTrim sep ++ '\n' :: rustTrim row2)) ++
      '\n' :: fenceMark)
  rw [hmain]

set_option maxRecDepth 20000 in
/-- Witness for the C8 theorem at the source's own test table. -/
theorem c8_table_to_code_block_witness :
    md_to_mrkdwn (String.mk ("| A | B |".data ++
        ('\n' :: ("|---|---|".data ++ ('\n' :: "| 1 | 2 |".data))))) =
      String.mk (fenceMark ++ '\n' ::
        (rustTrim "| A | B |".data ++ '\n' ::
          (rustTrim "|---|---|".data ++ '\n' :: rustTrim "| 1 | 2 |".data)) ++
        '\n' :: fenceMark) :=
  c8_table_to_code_block "| A | B |".data "|---|---|".data "| 1 | 2 |".data
    (by decide) (by decide) (by decide) (by decide) (by decide) (by decide) (by decide)
    (by decide) (by decide)

/-! ### C3: digits of `Nat.repr` -/

theorem digitChar_isDigit {m : Nat} (h : m < 10) : (Nat.digitChar m).isDigit = true := by
  interval_cases m <;> decide

theorem toDigitsCore_digits (f : Nat) : ∀ (n : Nat) (acc : List Char),
    (∀ c ∈ acc, c.isDigit = true) → ∀ c ∈ Nat.toDigitsCore 10 f n acc, c.isDigit = true := by
  induction f with
  | zero => intro n acc hacc c hc; exact hacc c hc
  | succ f ih =>
    intro n acc hacc c hc
    simp only [Nat.toDigitsCore] at hc
    by_cases hq : n / 10 = 0
    · rw [if_pos hq] at hc
      rcases List.mem_cons.mp hc with hc | hc
      · exact hc ▸ digitChar_isDigit (Nat.mod_lt _ (by decide))
      · exact hacc c hc
    · rw [if_neg hq] at hc
      refine ih (n / 10) _ (fun d hd => ?_) c hc
      rcases List.mem_cons.mp hd with hd | hd
      · exact hd ▸ digitChar_isDigit (Nat.mod_lt _ (by decide))
      · exact hacc d hd

theorem repr_digits (n : Nat) : ∀ c ∈ (Nat.repr n).data, c.isDigit = true := by
  intro c hc
  have hd : (Nat.repr n).data = Nat.toDigits 10 n := rfl
  rw [hd, Nat.toDigits] at hc
  exact toDigitsCore_digits _ n [] (by simp) c hc

theorem toDigitsCore_ne_nil (f : Nat) : ∀ (n : Nat) (acc : List Char), acc ≠ [] →
    Nat.toDigitsCore 10 f n acc ≠ [] := by
  induction f with
  | zero => intro n acc hacc; exact hacc
  | succ f ih =>
    intro n acc hacc
    simp only [Nat.toDigitsCore]
    by_cases hq : n / 10 = 0
    · rw [if_pos hq]; exact List.cons_ne_nil _ _
    · rw [if_neg hq]; exact ih _ _ (List.cons_ne_nil _ _)

theorem repr_ne_nil (n : Nat) : (Nat.repr n).data ≠ [] := by
  have hd : (Nat.repr n).data = Nat.toDigits 10 n := rfl
  rw [hd, Nat.toDigits, Nat.toDigitsCore]
  by_cases hq : n / 10 = 0
  · rw [if_pos hq]; exact List.cons_ne_nil _ _
  · rw [if_neg hq]; exact toDigitsCore_ne_nil _ _ _ (List.cons_ne_nil _ _)

/-! ### C3: the shielding invariant toolkit -/

theorem isDigit_ne_nul {c : Char} (h : c.isDigit = true) : c ≠ nulC := by
  intro he
  rw [he] at h
  exact absurd h (by decide)

theorem headOK_mono {p : Option Char} {c : Char} {cs : Str}
    (h : headOK none c cs = true) : headOK p c cs = true := by
  rw [headOK] at h ⊢
  simp only [Bool.or_eq_true] at h ⊢
  rcases h with (h | h) | h
  · exact Or.inl (Or.inl h)
  · exact Or.inl (Or.inr h)
  · simp [digitOpt] at h

theorem wkn_ctx_mono {p : Option Char} {t : Str} (h : wkn none t = true) :
    wkn p t = true := by
  cases t with
  | nil => rfl
  | cons c cs =>
    rw [wkn, Bool.and_eq_true] at h ⊢
    exact ⟨headOK_mono h.1, h.2⟩

theorem wkn_ctx_swap {c : Char} {p : Option Char} {t : Str} (hc : c.isDigit = false)
    (h : wkn (some c) t = true) : wkn p t = true := by
  cases t with
  | nil => rfl
  | cons c0 cs =>
    rw [wkn, Bool.and_eq_true] at h ⊢
    refine ⟨?_, h.2⟩
    have h1 := h.1
    rw [headOK] at h1 ⊢
    simp only [Bool.or_eq_true] at h1 ⊢
    rcases h1 with (h1 | h1) | h1
    · exact Or.inl (Or.inl h1)
    · exact Or.inl (Or.inr h1)
    · have h1' : c.isDigit = true := by simpa [digitOpt] using h1
      rw [hc] at h1'
      exact absurd h1' (by simp)

theorem wkn_ctx_swap_head {t : Str} {p q : Option Char} (hh : t.head? ≠ some nulC)
    (h : wkn p t = true) : wkn q t = true := by
  cases t with
  | nil => rfl
  | cons c cs =>
    rw [wkn, Bool.and_eq_true] at h ⊢
    refine ⟨?_, h.2⟩
    have hc : c ≠ nulC := fun he => hh (by simp [he])
    rw [headOK]
    simp only [Bool.or_eq_true, bne_iff_ne, ne_eq]
    exact Or.inl (Or.inl hc)

theorem lastC_cons {p : Option Char} {c : Char} {cs : Str} :
    lastC p (c :: cs) = lastC (some c) cs := by
  cases cs with
  | nil => simp [lastC]
  | cons d ds => simp [lastC, List.getLast?_cons_cons]

theorem headOK_append {p : Option Char} {c : Char} {cs b : Str}
    (h : headOK p c cs = true) : headOK p c (cs ++ b) = true := by
  rw [headOK] at h ⊢
  simp only [Bool.or_eq_true] at h ⊢
  rcases h with (h | h) | h
  · exact Or.inl (Or.inl h)
  · refine Or.inl (Or.inr ?_)
    cases cs with
    | nil => simp [tagLHead] at h
    | cons d ds => simpa [tagLHead] using h
  · exact Or.inr h

theorem wkn_append {p : Option Char} {a b : Str} (ha : wkn p a = true)
    (hb : wkn (lastC p a) b = true) : wkn p (a ++ b) = true := by
  induction a generalizing p with
  | nil => simpa [lastC] using hb
  | cons c cs ih =>
    rw [List.cons_append, wkn, Bool.and_eq_true]
    rw [wkn, Bool.and_eq_true] at ha
    rw [lastC_cons] at hb
    exact ⟨headOK_append ha.1, ih ha.2 hb⟩

theorem wkn_append_right {p : Option Char} {a b : Str} (h : wkn p (a ++ b) = true) :
    wkn (lastC p a) b = true := by
  induction a generalizing p with
  | nil => simpa [lastC] using h
  | cons c cs ih =>
    rw [List.cons_append, wkn, Bool.and_eq_true] at h
    rw [lastC_cons]
    exact ih h.2

theorem wkn_append_left {p : Option Char} {a b : Str} (h : wkn p (a ++ b) = true)
    (hb : ∀ d, b.head? = some d → tagL d = false) : wkn p a = true := by
  induction a generalizing p with
  | nil => rfl
  | cons c cs ih =>
    rw [List.cons_append, wkn, Bool.and_eq_true] at h
    rw [wkn, Bool.and_eq_true]
    refine ⟨?_, ih h.2⟩
    have h1 := h.1
    rw [headOK] at h1 ⊢
    simp only [Bool.or_eq_true] at h1 ⊢
    rcases h1 with (h1 | h1) | h1
    · exact Or.inl (Or.inl h1)
    · cases cs with
      | nil =>
        rw [List.nil_append] at h1
        cases b with
        | nil => simp [tagLHead] at h1
        | cons d bs =>
          have h1' : tagL d = true := by simpa [tagLHead] using h1
          rw [hb d rfl] at h1'
          exact absurd h1' (by simp)
      | cons d ds => exact Or.inl (Or.inr (by simpa [tagLHead] using h1))
    · exact Or.inr h1

theorem wkn_of_not_nul {p : Option Char} {t : Str} (h : ∀ c ∈ t, c ≠ nulC) :
    wkn p t = true := by
  induction t generalizing p with
  | nil => rfl
  | cons c cs ih =>
    rw [wkn, Bool.and_eq_true]
    refine ⟨?_, ih (fun d hd => h d (List.mem_cons_of_mem _ hd))⟩
    rw [headOK]
    simp only [Bool.or_eq_true, bne_iff_ne, ne_eq]
    exact Or.inl (Or.inl (h c (List.mem_cons_self _ _)))

theorem wkn_digits_nul {p : Option Char} {ds : Str} (hds : ∀ c ∈ ds, c.isDigit = true)
    (hne : ds ≠ []) : wkn p (ds ++ [nulC]) = true := by
  induction ds generalizing p with
  | nil => exact absurd rfl hne
  | cons d ds' ih =>
    have hd : d.isDigit = true := hds d (List.mem_cons_self _ _)
    cases ds' with
    | nil =>
      rw [List.cons_append, List.nil_append, wkn, Bool.and_eq_true]
      constructor
      · rw [headOK]
        simp only [Bool.or_eq_true, bne_iff_ne, ne_eq]
        exact Or.inl (Or.inl (isDigit_ne_nul hd))
      · rw [wkn, Bool.and_eq_true]
        refine ⟨?_, rfl⟩
        rw [headOK]
        simp [tagLHead, digitOpt, hd]
    | cons e es =>
      rw [List.cons_append, wkn, Bool.and_eq_true]
      constructor
      · rw [headOK]
        simp only [Bool.or_eq_true, bne_iff_ne, ne_eq]
        exact Or.inl (Or.inl (isDigit_ne_nul hd))
      · exact ih (fun c hc => hds c (List.mem_cons_of_mem _ hc)) (List.cons_ne_nil _ _)

theorem wkn_tokenStr {p : Option Char} {tag : Str} {idx : Nat} (htag : tag ∈ allTags) :
    wkn p (tokenStr tag idx) = true := by
  have hdig := repr_digits idx
  have hnn := repr_ne_nil idx
  simp only [allTags, List.mem_cons, List.not_mem_nil, or_false] at htag
  rcases htag with rfl | rfl | rfl | rfl | rfl | rfl <;>
  · simp only [tokenStr, tagCB, tagIC, tagTB, tagLK, tagBI, tagBD, List.cons_append,
      List.append_assoc, List.nil_append]
    rw [wkn, Bool.and_eq_true]
    refine ⟨by rw [headOK]; simp [tagLHead, tagL], ?_⟩
    rw [wkn, Bool.and_eq_true]
    constructor
    · rw [headOK]
      simp only [Bool.or_eq_true, bne_iff_ne, ne_eq]
      exact Or.inl (Or.inl (by decide))
    rw [wkn, Bool.and_eq_true]
    constructor
    · rw [headOK]
      simp only [Bool.or_eq_true, bne_iff_ne, ne_eq]
      exact Or.inl (Or.inl (by decide))
    exact wkn_digits_nul hdig hnn

/-! ### C3: the shielding invariant through the stage engines -/

theorem tokChar_of_tagL {d : Char} (h : tagL d = true) : tokChar d = true := by
  rw [tagL] at h
  simp only [Bool.or_eq_true, beq_iff_eq] at h
  rcases h with (((h | h) | h) | h) | h <;> subst h <;> decide

theorem tagLHead_of_head {t : Str} {d : Char} (hh : t.head? = some d) (hd : tagL d = true) :
    tagLHead t = true := by
  cases t with
  | nil => simp at hh
  | cons e es =>
    simp only [List.head?_cons, Option.some.injEq] at hh
    subst hh
    simpa [tagLHead] using hd

theorem pfx_decomp {pat s : Str} (h : pfx pat s = true) : s = pat ++ s.drop pat.length := by
  conv_lhs => rw [← List.take_append_drop pat.length s]
  rw [take_eq_of_pfx h]

theorem runStageG_head_none {try? : TryFn} {n : Nat} {c : Char} {cs : Str} {ps : List Str}
    (h : try? (c :: cs) = none) :
    (runStageG try? n (c :: cs) ps).1.head? = some c := by
  cases n with
  | zero => rfl
  | succ n => rw [runStageG_cons_none h]; rfl

theorem headOK_transfer {prev : Option Char} {c : Char} {cs out : Str}
    (h : headOK prev c cs = true)
    (hh : ∀ d, cs.head? = some d → tagL d = true → out.head? = some d) :
    headOK prev c out = true := by
  rw [headOK] at h ⊢
  simp only [Bool.or_eq_true] at h ⊢
  rcases h with (h | h) | h
  · exact Or.inl (Or.inl h)
  · cases cs with
    | nil => simp [tagLHead] at h
    | cons d ds =>
      have hd : tagL d = true := by simpa [tagLHead] using h
      exact Or.inl (Or.inr (tagLHead_of_head (hh d rfl hd) hd))
  · exact Or.inr h

theorem runStageG_wk {try? : TryFn} (hok : WScan try?) :
    ∀ (n : Nat) (s : Str) (ps : List Str) (prev : Option Char),
      wkn prev s = true → PsW ps →
      wkn prev (runStageG try? n s ps).1 = true ∧ PsW (runStageG try? n s ps).2 := by
  intro n
  induction n with
  | zero => intro s ps prev hs hps; exact ⟨hs, hps⟩
  | succ n ih =>
    intro s ps prev hs hps
    cases s with
    | nil => exact ⟨rfl, hps⟩
    | cons c cs =>
      cases htry : try? (c :: cs) with
      | none =>
        rw [runStageG_cons_none htry]
        rw [wkn, Bool.and_eq_true] at hs
        have hr := ih cs ps (some c) hs.2 hps
        refine ⟨?_, hr.2⟩
        rw [wkn, Bool.and_eq_true]
        refine ⟨?_, hr.1⟩
        refine headOK_transfer hs.1 (fun d hd htl => ?_)
        cases cs with
        | nil => simp at hd
        | cons e es =>
          simp only [List.head?_cons, Option.some.injEq] at hd
          subst hd
          exact runStageG_head_none (hok.1 _ _ htl)
      | some p0 =>
        obtain ⟨len, build⟩ := p0
        obtain ⟨hlen, hsuf, hemit, hps'⟩ :=
          hok.2 (c :: cs) len build ps prev hs hps htry
        rw [runStageG_cons_some htry]
        have hdrop : List.drop (len - 1) cs = List.drop len (c :: cs) := by
          obtain ⟨k, rfl⟩ : ∃ k, len = k + 1 := ⟨len - 1, by omega⟩
          simp [List.drop_succ_cons]
        have hr := ih (List.drop (len - 1) cs) (build ps).2
          (lastC prev (build ps).1) (by rw [hdrop]; exact wkn_ctx_mono hsuf) hps'
        exact ⟨wkn_append (wkn_ctx_mono hemit) hr.1, hr.2⟩

theorem runStage_wk {try? : TryFn} (hok : WScan try?) {s : Str} {ps : List Str}
    {prev : Option Char} (hs : wkn prev s = true) (hps : PsW ps) :
    wkn prev (runStage try? s ps).1 = true ∧ PsW (runStage try? s ps).2 :=
  runStageG_wk hok s.length s ps prev hs hps

theorem runAnchG_cons_false {try? : TryFn} {n : Nat} {c : Char} {cs : Str} {ps : List Str} :
    runAnchG try? (n + 1) false (c :: cs) ps =
      (c :: (runAnchG try? n (c == '\n') cs ps).1, (runAnchG try? n (c == '\n') cs ps).2) := by
  rw [runAnchG]
  rw [if_neg (by simp)]

theorem runAnchG_head_nofire {try? : TryFn} {n : Nat} {b : Bool} {c : Char} {cs : Str}
    {ps : List Str} (h : try? (c :: cs) = none) :
    (runAnchG try? n b (c :: cs) ps).1.head? = some c := by
  cases n with
  | zero => rfl
  | succ n => rw [runAnchG_cons_none h]; rfl

theorem runAnchG_head_false {try? : TryFn} {n : Nat} {c : Char} {cs : Str} {ps : List Str} :
    (runAnchG try? n false (c :: cs) ps).1.head? = some c := by
  cases n with
  | zero => rfl
  | succ n => rw [runAnchG_cons_false]; rfl

theorem runAnchG_wk {try? : TryFn} (hok : WScan try?) :
    ∀ (n : Nat) (b : Bool) (s : Str) (ps : List Str) (prev : Option Char),
      wkn prev s = true → PsW ps →
      wkn prev (runAnchG try? n b s ps).1 = true ∧ PsW (runAnchG try? n b s ps).2 := by
  intro n
  induction n with
  | zero => intro b s ps prev hs hps; exact ⟨hs, hps⟩
  | succ n ih =>
    intro b s ps prev hs hps
    cases s with
    | nil =>
      have he : runAnchG try? (n + 1) b ([] : Str) ps = ([], ps) := runAnchG_nil
      rw [he]
      exact ⟨rfl, hps⟩
    | cons c cs =>
      rw [wkn, Bool.and_eq_true] at hs
      have hstep : ∀ b' : Bool,
          wkn prev (c :: (runAnchG try? n b' cs ps).1) = true ∧
            PsW (runAnchG try? n b' cs ps).2 := by
        intro b'
        have hr := ih b' cs ps (some c) hs.2 hps
        refine ⟨?_, hr.2⟩
        rw [wkn, Bool.and_eq_true]
        refine ⟨?_, hr.1⟩
        refine headOK_transfer hs.1 (fun d hd htl => ?_)
        cases cs with
        | nil => simp at hd
        | cons e es =>
          simp only [List.head?_cons, Option.some.injEq] at hd
          subst hd
          exact runAnchG_head_nofire (hok.1 _ _ htl)
      cases b with
      | false =>
        rw [runAnchG_cons_false]
        exact hstep _
      | true =>
        cases htry : try? (c :: cs) with
        | none =>
          rw [runAnchG_cons_none htry]
          exact hstep _
        | some p0 =>
          obtain ⟨len, build⟩ := p0
          obtain ⟨hlen, hsuf, hemit, hps'⟩ :=
            hok.2 (c :: cs) len build ps prev (by rw [wkn, Bool.and_eq_true]; exact hs) hps htry
          rw [runAnchG]
          rw [if_pos rfl, htry]
          have hdrop : List.drop (len - 1) cs = List.drop len (c :: cs) := by
            obtain ⟨k, rfl⟩ : ∃ k, len = k + 1 := ⟨len - 1, by omega⟩
            simp [List.drop_succ_cons]
          have hr := ih ((List.take len (c :: cs)).getLast? == some '\n')
            (List.drop (len - 1) cs) (build ps).2
            (lastC prev (build ps).1) (by rw [hdrop]; exact wkn_ctx_mono hsuf) hps'
          exact ⟨wkn_append (wkn_ctx_mono hemit) hr.1, hr.2⟩

theorem runAnch_wk {try? : TryFn} (hok : WScan try?) {s : Str} {ps : List Str}
    {prev : Option Char} (hs : wkn prev s = true) (hps : PsW ps) :
    wkn prev (runAnch try? s ps).1 = true ∧ PsW (runAnch try? s ps).2 :=
  runAnchG_wk hok s.length true s ps prev hs hps

theorem pfx_false_of_head_ne {p0 d : Char} {pat cs : Str}
    (hne : p0 ≠ d) : pfx (p0 :: pat) (d :: cs) = false := by
  rw [pfx]
  simp [hne]

theorem repAllG_head {pat rep : Str} {n : Nat} {d : Char} {cs : Str}
    (h : (pfx pat (d :: cs) && !pat.isEmpty) = false) :
    (repAllG pat rep n (d :: cs)).head? = some d := by
  cases n with
  | zero => rfl
  | succ n =>
    rw [repAllG]
    rw [if_neg (by simp [h])]
    rfl

theorem repAllG_wk {pat rep : Str} (hph : tagLHead pat = false)
    (hpl : ∀ c, pat.getLast? = some c → c.isDigit = false)
    (hrep : wkn none rep = true) :
    ∀ (n : Nat) (s : Str) (prev : Option Char), wkn prev s = true →
      wkn prev (repAllG pat rep n s) = true := by
  intro n
  induction n with
  | zero => intro s prev hs; exact hs
  | succ n ih =>
    intro s prev hs
    cases s with
    | nil => rfl
    | cons c cs =>
      rw [wkn, Bool.and_eq_true] at hs
      rw [repAllG]
      by_cases hm : (pfx pat (c :: cs) && !pat.isEmpty) = true
      · rw [if_pos hm]
        rw [Bool.and_eq_true] at hm
        have hpne : pat ≠ [] := by
          intro he
          rw [he] at hm
          simp at hm
        have hdec := pfx_decomp hm.1
        have hdrop : List.drop (pat.length - 1) cs = List.drop pat.length (c :: cs) := by
          obtain ⟨p0, pat', rfl⟩ : ∃ p0 pat', pat = p0 :: pat' := by
            cases pat with
            | nil => exact absurd rfl hpne
            | cons p0 pat' => exact ⟨p0, pat', rfl⟩
          simp [List.drop_succ_cons]
        have hsuf : wkn (lastC prev pat) (List.drop pat.length (c :: cs)) = true := by
          have := hs.1
          have hall : wkn prev (c :: cs) = true := by
            rw [wkn, Bool.and_eq_true]; exact hs
          rw [hdec] at hall
          exact wkn_append_right hall
        have hsuf' : ∀ q, wkn q (List.drop pat.length (c :: cs)) = true := by
          intro q
          have hl : lastC prev pat = pat.getLast? := by
            rw [lastC, if_neg (by simpa [List.isEmpty_iff] using hpne)]
          rw [hl] at hsuf
          cases hg : pat.getLast? with
          | none =>
            rw [hg] at hsuf
            cases pat with
            | nil => exact absurd rfl hpne
            | cons p0 pat' => simp at hg
          | some g =>
            rw [hg] at hsuf
            exact wkn_ctx_swap (hpl g hg) hsuf
        have hr := ih (List.drop (pat.length - 1) cs) (lastC prev rep)
          (by rw [hdrop]; exact hsuf' _)
        exact wkn_append (wkn_ctx_mono hrep) hr
      · rw [if_neg hm]
        have hm' : (pfx pat (c :: cs) && !pat.isEmpty) = false := by
          cases hx : (pfx pat (c :: cs) && !pat.isEmpty) with
          | false => rfl
          | true => exact absurd hx hm
        have hr := ih cs (some c) hs.2
        rw [wkn, Bool.and_eq_true]
        refine ⟨?_, hr⟩
        refine headOK_transfer hs.1 (fun d hd htl => ?_)
        cases cs with
        | nil => simp at hd
        | cons e es =>
          simp only [List.head?_cons, Option.some.injEq] at hd
          subst hd
          have hpf : (pfx pat (e :: es) && !pat.isEmpty) = false := by
            cases pat with
            | nil => simp [pfx]
            | cons p0 pat' =>
              have hp0 : tagL p0 = false := by simpa [tagLHead] using hph
              have hne : p0 ≠ e := by
                intro he2
                rw [he2, htl] at hp0
                exact Bool.noConfusion hp0
              rw [pfx_false_of_head_ne hne]
              rfl
          exact repAllG_head hpf

theorem repAll_wk {pat rep s : Str} (hph : tagLHead pat = false)
    (hpl : ∀ c, pat.getLast? = some c → c.isDigit = false)
    (hrep : wkn none rep = true) {prev : Option Char} (hs : wkn prev s = true) :
    wkn prev (repAll pat rep s) = true :=
  repAllG_wk hph hpl hrep s.length s prev hs

/-! ### C3: per-scanner shielding contracts -/

theorem ne_of_tokChar {c x : Char} (hc : tokChar c = true) (hx : tokChar x = false) :
    c ≠ x := by
  intro he
  rw [he] at hc
  rw [hc] at hx
  exact Bool.noConfusion hx

theorem ne_of_tagL {c x : Char} (hc : tagL c = true) (hx : tagL x = false) : c ≠ x := by
  intro he
  rw [he] at hc
  rw [hc] at hx
  exact Bool.noConfusion hx

theorem tagL_cases {c : Char} (h : tagL c = true) :
    c = 'C' ∨ c = 'I' ∨ c = 'T' ∨ c = 'L' ∨ c = 'B' := by
  rw [tagL] at h
  simp only [Bool.or_eq_true, beq_iff_eq] at h
  rcases h with (((h | h) | h) | h) | h <;> simp [h]

theorem wkn_none_split {prev : Option Char} {A rest : Str} (hs : wkn prev (A ++ rest) = true)
    (hne : A ≠ []) (hnd : ∀ c, A.getLast? = some c → c.isDigit = false) :
    wkn none rest = true := by
  have h2 := wkn_append_right hs
  rw [lastC, if_neg (by simpa [List.isEmpty_iff] using hne)] at h2
  cases hg : A.getLast? with
  | none =>
    cases A with
    | nil => exact absurd rfl hne
    | cons a as => rw [List.getLast?_eq_getLast _ (by simp)] at hg; exact Option.noConfusion hg
  | some g =>
    rw [hg] at h2
    exact wkn_ctx_swap (hnd g hg) h2

theorem fire_suffix {prev : Option Char} {s A tail : Str} {len : Nat}
    (hdec : s = A ++ tail) (hlen : len = A.length) (hs : wkn prev s = true)
    (hne : A ≠ []) (hnd : ∀ c, A.getLast? = some c → c.isDigit = false) :
    wkn none (List.drop len s) = true := by
  subst hdec
  subst hlen
  rw [List.drop_left]
  exact wkn_none_split hs hne hnd

theorem wkn_cons_of {p : Option Char} {c : Char} {t : Str} (hc : c ≠ nulC)
    (ht : wkn (some c) t = true) : wkn p (c :: t) = true := by
  rw [wkn, Bool.and_eq_true]
  refine ⟨?_, ht⟩
  rw [headOK]
  simp only [Bool.or_eq_true, bne_iff_ne, ne_eq]
  exact Or.inl (Or.inl hc)

theorem PsW_push {ps : List Str} {q : Str} (hps : PsW ps) (hq : wkn none q = true) :
    PsW (ps ++ [q]) := by
  intro p hp
  rcases List.mem_append.mp hp with h | h
  · exact hps p h
  · simp only [List.mem_cons, List.not_mem_nil, or_false] at h
    rw [h]
    exact hq

theorem takeWhile_decomp (p : Char → Bool) (l : Str) :
    l = l.takeWhile p ++ List.drop (l.takeWhile p).length l := by
  conv_lhs => rw [← List.takeWhile_append_dropWhile (p := p) (l := l)]
  rw [drop_takeWhile_len]

theorem append_split3 {R W T : Str} (j : Nat) :
    R ++ (W ++ T) = (R ++ List.take j W) ++ (List.drop j W ++ T) := by
  rw [List.append_assoc, ← List.append_assoc (List.take j W), List.take_append_drop]

theorem aposTry_wk : WScan aposTry := by
  constructor
  · intro c cs hc
    have hne : '&' ≠ c := Ne.symm (ne_of_tagL hc (by decide))
    rw [aposTry]
    rw [if_neg (by rw [pfx_false_of_head_ne hne]; exact Bool.noConfusion)]
    rw [if_neg (by rw [pfx_false_of_head_ne hne]; exact Bool.noConfusion)]
    rw [if_neg (by rw [pfx_false_of_head_ne hne]; exact Bool.noConfusion)]
  · intro s len build ps prev hs hps htry
    rw [aposTry] at htry
    split at htry
    · rename_i hp
      injection htry with htry
      injection htry with h1 h2
      subst h1
      subst h2
      refine ⟨by omega, ?_, ?_, hps⟩
      · refine fire_suffix (pfx_decomp hp) (by decide) hs (by decide) (fun c hg => ?_)
        have hc : c = ';' := by simpa [eq_comm] using hg
        rw [hc]
        decide
      · show wkn none ([quoteC]) = true
        decide
    · split at htry
      · rename_i hp
        injection htry with htry
        injection htry with h1 h2
        subst h1
        subst h2
        refine ⟨by omega, ?_, ?_, hps⟩
        · refine fire_suffix (pfx_decomp hp) (by decide) hs (by decide) (fun c hg => ?_)
          have hc : c = ';' := by simpa [eq_comm] using hg
          rw [hc]
          decide
        · show wkn none ([quoteC]) = true
          decide
      · split at htry
        · rename_i hp
          injection htry with htry
          injection htry with h1 h2
          subst h1
          subst h2
          refine ⟨by omega, ?_, ?_, hps⟩
          · refine fire_suffix (pfx_decomp hp) (by decide) hs (by decide) (fun c hg => ?_)
            have hc : c = ';' := by simpa [eq_comm] using hg
            rw [hc]
            decide
          · show wkn none ([quoteC]) = true
            decide
        · exact Option.noConfusion htry

theorem excessNlTry_wk : WScan excessNlTry := by
  constructor
  · intro c cs hc
    have hne : '\n' ≠ c := Ne.symm (ne_of_tagL hc (by decide))
    rw [excessNlTry]
    rw [if_neg (by rw [pfx_false_of_head_ne hne]; exact Bool.noConfusion)]
  · intro s len build ps prev hs hps htry
    rw [excessNlTry] at htry
    split at htry
    · rename_i hp
      injection htry with htry
      injection htry with h1 h2
      subst h1
      subst h2
      have hsne : s.takeWhile (· == '\n') ≠ [] := by
        cases s with
        | nil => exact absurd hp (by decide)
        | cons c0 cs0 =>
          have hc0 : c0 = '\n' := by
            rw [pfx, Bool.and_eq_true] at hp
            have h1 := hp.1
            rw [beq_iff_eq] at h1
            exact h1.symm
          subst hc0
          rw [List.takeWhile_cons, if_pos (by decide)]
          exact List.cons_ne_nil _ _
      refine ⟨?_, ?_, ?_, hps⟩
      · have := List.length_pos.mpr hsne
        omega
      · exact fire_suffix (takeWhile_decomp _ s) rfl hs hsne (fun c hg => by
          have hm := mem_of_getLast?_eq hg
          have hpred := List.mem_takeWhile_imp hm
          have hc : c = '\n' := by simpa using hpred
          rw [hc]
          decide)
      · show wkn none (['\n', '\n']) = true
        decide
    · exact Option.noConfusion htry

theorem anyTagTry_tok {c : Char} {cs : Str} (hc : tagL c = true) :
    anyTagTry (c :: cs) = none := by
  have h : c ≠ '<' := ne_of_tagL hc (by decide)
  simp only [anyTagTry]
  split
  · rename_i rest heq
    injection heq with h1 h2
    exact absurd h1 h
  · rfl

theorem anyTagTry_wk : WScan anyTagTry := by
  constructor
  · intro c cs hc; exact anyTagTry_tok hc
  · intro s len build ps prev hs hps htry
    simp only [anyTagTry] at htry
    split at htry
    · rename_i rest
      split at htry
      · exact Option.noConfusion htry
      · rename_i hemp
        split at htry
        · rename_i t2 heq2
          injection htry with htry
          injection htry with h1 h2
          subst h1
          subst h2
          have hinner := takeWhile_decomp (· != '>') rest
          rw [heq2] at hinner
          have hdec : '<' :: rest =
              ('<' :: (rest.takeWhile (· != '>') ++ ['>'])) ++ t2 := by
            rw [List.cons_append]
            congr 1
            conv_lhs => rw [hinner]
            simp
          refine ⟨by omega, ?_, ?_, hps⟩
          · refine fire_suffix hdec
              (by simp only [List.length_cons, List.length_append, List.length_nil]; omega)
              hs (by simp) (fun c hg => ?_)
            have hg2 : ((('<' :: rest.takeWhile (· != '>')) ++ ['>']) : Str).getLast? =
                some c := by simpa using hg
            rw [getLast?_append_right (by simp)] at hg2
            have hc : c = '>' := by simpa [eq_comm] using hg2
            rw [hc]
            decide
          · show wkn none (([] : Str)) = true
            rfl
        · exact Option.noConfusion htry
    · exact Option.noConfusion htry

theorem fire_suffix_head {prev : Option Char} {s A tail : Str} {len : Nat}
    (hdec : s = A ++ tail) (hlen : len = A.length) (hs : wkn prev s = true)
    (hh : tail.head? ≠ some nulC) : wkn none (List.drop len s) = true := by
  subst hdec
  subst hlen
  rw [List.drop_left]
  exact wkn_ctx_swap_head hh (wkn_append_right hs)

theorem isWS_ne_nul {c : Char} (h : isWS c = true) : c ≠ nulC := by
  intro he
  rw [he] at h
  exact absurd h (by decide)

theorem tagL_not_ws {c : Char} (h : tagL c = true) : isWS c = false := by
  rcases tagL_cases h with h | h | h | h | h <;> subst h <;> decide

theorem tagL_not_spTab {c : Char} (h : tagL c = true) : isSpTab c = false := by
  rcases tagL_cases h with h | h | h | h | h <;> subst h <;> decide

theorem tagL_not_hrChar {c : Char} (h : tagL c = true) : isHrChar c = false := by
  rcases tagL_cases h with h | h | h | h | h <;> subst h <;> decide

theorem isWS_not_digit {c : Char} (h : isWS c = true) : c.isDigit = false := by
  cases hd : c.isDigit with
  | false => rfl
  | true =>
    exfalso
    rw [Char.isDigit, Bool.and_eq_true] at hd
    have h1 : ('0' : Char) ≤ c := by simpa using hd.1
    have h2 : c ≤ ('9' : Char) := by simpa using hd.2
    have h1' : ('0' : Char).val ≤ c.val := h1
    have h2' : c.val ≤ ('9' : Char).val := h2
    rw [isWS] at h
    simp only [Bool.or_eq_true, beq_iff_eq, Bool.and_eq_true, decide_eq_true_eq,
      or_assoc] at h
    rcases h with h | h | h | h | h | h | h | h | h | h | h | h | h | h | h
    · subst h; exact absurd h1' (by decide)
    · subst h; exact absurd h1' (by decide)
    · subst h; exact absurd h1' (by decide)
    · rw [h] at h1'; exact absurd h1' (by decide)
    · rw [h] at h1'; exact absurd h1' (by decide)
    · subst h; exact absurd h1' (by decide)
    · rw [h] at h2'; exact absurd h2' (by decide)
    · rw [h] at h2'; exact absurd h2' (by decide)
    · rw [h] at h2'; exact absurd h2' (by decide)
    · exact absurd (UInt32.le_trans h.1 h2') (by decide)
    · rw [h] at h2'; exact absurd h2' (by decide)
    · rw [h] at h2'; exact absurd h2' (by decide)
    · rw [h] at h2'; exact absurd h2' (by decide)
    · rw [h] at h2'; exact absurd h2' (by decide)
    · rw [h] at h2'; exact absurd h2' (by decide)

theorem lastIdxWhere_spec {p : Char → Bool} {l : Str} {j : Nat}
    (h : lastIdxWhere p l = some j) :
    ∃ c t, List.drop j l = c :: t ∧ p c = true := by
  induction l generalizing j with
  | nil => exact Option.noConfusion h
  | cons a as ih =>
    rw [lastIdxWhere] at h
    cases hr : lastIdxWhere p as with
    | some j' =>
      rw [hr] at h
      injection h with h1
      obtain ⟨c, t, hd, hp⟩ := ih hr
      refine ⟨c, t, ?_, hp⟩
      rw [← h1, List.drop_succ_cons]
      exact hd
    | none =>
      rw [hr] at h
      by_cases hp : p a = true
      · rw [if_pos hp] at h
        injection h with h1
        refine ⟨a, as, ?_, hp⟩
        rw [← h1]
        rfl
      · rw [if_neg hp] at h
        exact Option.noConfusion h

theorem htmlBrTry_wk : WScan htmlBrTry := by
  constructor
  · intro c cs hc
    have h : c ≠ '<' := ne_of_tagL hc (by decide)
    cases cs with
    | nil => rfl
    | cons c1 cs1 =>
      cases cs1 with
      | nil => rfl
      | cons c2 cs2 =>
        simp only [htmlBrTry]
        rw [if_neg (fun hcond => h (by
          rw [Bool.and_eq_true, Bool.and_eq_true] at hcond
          simpa using hcond.1.1))]
  · intro s len build ps prev hs hps htry
    simp only [htmlBrTry] at htry
    split at htry
    · rename_i c0 c1 c2 rest
      split at htry
      · split at htry
        · rename_i t2 heq2
          injection htry with htry
          injection htry with h1 h2
          subst h1
          subst h2
          have hinner := takeWhile_decomp isWS rest
          rw [heq2] at hinner
          have hrest : rest = (rest.takeWhile isWS ++ ['/', '>']) ++ t2 := by
            conv_lhs => rw [hinner]
            simp
          have hdec : c0 :: c1 :: c2 :: rest =
              (c0 :: c1 :: c2 :: (rest.takeWhile isWS ++ ['/', '>'])) ++ t2 := by
            conv_lhs => rw [hrest]
            simp
          refine ⟨by omega, ?_, ?_, hps⟩
          · refine fire_suffix hdec
              (by simp only [List.length_cons, List.length_append, List.length_nil]; omega)
              hs (by simp) (fun c hg => ?_)
            have hg2 : (((c0 :: c1 :: c2 :: (rest.takeWhile isWS ++ ['/'])) ++ ['>']) :
                Str).getLast? = some c := by simpa using hg
            rw [getLast?_append_right (by simp)] at hg2
            have hcg : c = '>' := by simpa [eq_comm] using hg2
            rw [hcg]
            decide
          · show wkn none (['\n']) = true
            decide
        · rename_i t2 heq2
          injection htry with htry
          injection htry with h1 h2
          subst h1
          subst h2
          have hinner := takeWhile_decomp isWS rest
          rw [heq2] at hinner
          have hrest : rest = (rest.takeWhile isWS ++ ['>']) ++ t2 := by
            conv_lhs => rw [hinner]
            simp
          have hdec : c0 :: c1 :: c2 :: rest =
              (c0 :: c1 :: c2 :: (rest.takeWhile isWS ++ ['>'])) ++ t2 := by
            conv_lhs => rw [hrest]
            simp
          refine ⟨by omega, ?_, ?_, hps⟩
          · refine fire_suffix hdec
              (by simp only [List.length_cons, List.length_append, List.length_nil]; omega)
              hs (by simp) (fun c hg => ?_)
            have hg2 : (((c0 :: c1 :: c2 :: rest.takeWhile isWS) ++ ['>']) :
                Str).getLast? = some c := by simpa using hg
            rw [getLast?_append_right (by simp)] at hg2
            have hcg : c = '>' := by simpa [eq_comm] using hg2
            rw [hcg]
            decide
          · show wkn none (['\n']) = true
            decide
        · exact Option.noConfusion htry
      · exact Option.noConfusion htry
    · exact Option.noConfusion htry

theorem htmlHrTry_wk : WScan htmlHrTry := by
  constructor
  · intro c cs hc
    have h : c ≠ '<' := ne_of_tagL hc (by decide)
    cases cs with
    | nil => rfl
    | cons c1 cs1 =>
      cases cs1 with
      | nil => rfl
      | cons c2 cs2 =>
        simp only [htmlHrTry]
        rw [if_neg (fun hcond => h (by
          rw [Bool.and_eq_true, Bool.and_eq_true] at hcond
          simpa using hcond.1.1))]
  · intro s len build ps prev hs hps htry
    simp only [htmlHrTry] at htry
    split at htry
    · rename_i c0 c1 c2 rest
      split at htry
      · split at htry
        · rename_i t2 heq2
          injection htry with htry
          injection htry with h1 h2
          subst h1
          subst h2
          have hinner := takeWhile_decomp isWS rest
          rw [heq2] at hinner
          have hrest : rest = (rest.takeWhile isWS ++ ['/', '>']) ++ t2 := by
            conv_lhs => rw [hinner]
            simp
          have hdec : c0 :: c1 :: c2 :: rest =
              (c0 :: c1 :: c2 :: (rest.takeWhile isWS ++ ['/', '>'])) ++ t2 := by
            conv_lhs => rw [hrest]
            simp
          refine ⟨by omega, ?_, ?_, hps⟩
          · refine fire_suffix hdec
              (by simp only [List.length_cons, List.length_append, List.length_nil]; omega)
              hs (by simp) (fun c hg => ?_)
            have hg2 : (((c0 :: c1 :: c2 :: (rest.takeWhile isWS ++ ['/'])) ++ ['>']) :
                Str).getLast? = some c := by simpa using hg
            rw [getLast?_append_right (by simp)] at hg2
            have hcg : c = '>' := by simpa [eq_comm] using hg2
            rw [hcg]
            decide
          · show wkn none (([] : Str)) = true
            rfl
        · rename_i t2 heq2
          injection htry with htry
          injection htry with h1 h2
          subst h1
          subst h2
          have hinner := takeWhile_decomp isWS rest
          rw [heq2] at hinner
          have hrest : rest = (rest.takeWhile isWS ++ ['>']) ++ t2 := by
            conv_lhs => rw [hinner]
            simp
          have hdec : c0 :: c1 :: c2 :: rest =
              (c0 :: c1 :: c2 :: (rest.takeWhile isWS ++ ['>'])) ++ t2 := by
            conv_lhs => rw [hrest]
            simp
          refine ⟨by omega, ?_, ?_, hps⟩
          · refine fire_suffix hdec
              (by simp only [List.length_cons, List.length_append, List.length_nil]; omega)
              hs (by simp) (fun c hg => ?_)
            have hg2 : (((c0 :: c1 :: c2 :: rest.takeWhile isWS) ++ ['>']) :
                Str).getLast? = some c := by simpa using hg
            rw [getLast?_append_right (by simp)] at hg2
            have hcg : c = '>' := by simpa [eq_comm] using hg2
            rw [hcg]
            decide
          · show wkn none (([] : Str)) = true
            rfl
        · exact Option.noConfusion htry
      · exact Option.noConfusion htry
    · exact Option.noConfusion htry

theorem pTagEnd_spec {pre : Nat} {r2 : Str} {len : Nat} (h : pTagEnd pre r2 = some len) :
    ∃ t2, r2 = (r2.takeWhile (· != '>') ++ ['>']) ++ t2 ∧
      len = pre + (r2.takeWhile (· != '>')).length + 1 := by
  simp only [pTagEnd] at h
  split at h
  · rename_i t2 heq
    injection h with h1
    refine ⟨t2, ?_, h1.symm⟩
    have hinner := takeWhile_decomp (· != '>') r2
    rw [heq] at hinner
    conv_lhs => rw [hinner]
    simp
  · exact Option.noConfusion h

theorem htmlPTry_wk : WScan htmlPTry := by
  constructor
  · intro c cs hc
    have h : c ≠ '<' := ne_of_tagL hc (by decide)
    simp only [htmlPTry]
    split
    · rename_i c' r2 heq
      injection heq with h1 h2
      exact absurd h1 h
    · rename_i c' r2 heq
      injection heq with h1 h2
      exact absurd h1 h
    · rfl
  · intro s len build ps prev hs hps htry
    simp only [htmlPTry] at htry
    split at htry
    · rename_i c' r2
      split at htry
      · rw [Option.map_eq_some'] at htry
        obtain ⟨len0, hp0, hfb⟩ := htry
        obtain ⟨t2, hr2, hlen0⟩ := pTagEnd_spec hp0
        injection hfb with h1 h2
        subst h1
        subst h2
        subst hlen0
        have hdec : '<' :: '/' :: c' :: r2 =
            ('<' :: '/' :: c' :: (r2.takeWhile (· != '>') ++ ['>'])) ++ t2 := by
          conv_lhs => rw [hr2]
          simp
        refine ⟨by omega, ?_, ?_, hps⟩
        · refine fire_suffix hdec
            (by simp only [List.length_cons, List.length_append, List.length_nil]; omega)
            hs (by simp) (fun c hg => ?_)
          have hg2 : ((('<' :: '/' :: c' :: r2.takeWhile (· != '>')) ++ ['>']) :
              Str).getLast? = some c := by simpa using hg
          rw [getLast?_append_right (by simp)] at hg2
          have hcg : c = '>' := by simpa [eq_comm] using hg2
          rw [hcg]
          decide
        · show wkn none (['\n']) = true
          decide
      · exact Option.noConfusion htry
    · rename_i cc rr hno
      split at htry
      · rw [Option.map_eq_some'] at htry
        obtain ⟨len0, hp0, hfb⟩ := htry
        obtain ⟨t2, hr2, hlen0⟩ := pTagEnd_spec hp0
        injection hfb with h1 h2
        subst h1
        subst h2
        subst hlen0
        have hdec : '<' :: cc :: rr =
            ('<' :: cc :: (rr.takeWhile (· != '>') ++ ['>'])) ++ t2 := by
          conv_lhs => rw [hr2]
          simp
        refine ⟨by omega, ?_, ?_, hps⟩
        · refine fire_suffix hdec
            (by simp only [List.length_cons, List.length_append, List.length_nil]; omega)
            hs (by simp) (fun c hg => ?_)
          have hg2 : ((('<' :: cc :: rr.takeWhile (· != '>')) ++ ['>']) :
              Str).getLast? = some c := by simpa using hg
          rw [getLast?_append_right (by simp)] at hg2
          have hcg : c = '>' := by simpa [eq_comm] using hg2
          rw [hcg]
          decide
        · show wkn none (['\n']) = true
          decide
      · exact Option.noConfusion htry
    · exact Option.noConfusion htry

theorem mdUlTry_wk {marker : Char} (hm : tagL marker = false) : WScan (mdUlTry marker) := by
  constructor
  · intro c cs hc
    have hws : (c :: cs).takeWhile isWS = [] := by
      rw [List.takeWhile_cons, if_neg (by simp [tagL_not_ws hc])]
    simp only [mdUlTry, hws, List.length_nil, List.drop_zero]
    split
    · rename_i c' t2 heq
      injection heq with h1 h2
      subst h1
      rw [if_neg (fun hcm => ne_of_tagL hc hm (by simpa using hcm))]
    · rfl
  · intro s len build ps prev hs hps htry
    simp only [mdUlTry] at htry
    split at htry
    · rename_i c' t2 heq
      split at htry
      · rename_i hcm
        injection htry with htry
        injection htry with h1 h2
        subst h1
        subst h2
        have hinner := takeWhile_decomp isWS s
        rw [heq] at hinner
        have hdec : s = (s.takeWhile isWS ++ [c', ' ']) ++ t2 := by
          conv_lhs => rw [hinner]
          simp
        refine ⟨by omega, ?_, ?_, hps⟩
        · refine fire_suffix hdec
            (by simp only [List.length_append, List.length_cons, List.length_nil])
            hs (by simp) (fun c hg => ?_)
          have hg2 : (((s.takeWhile isWS ++ [c']) ++ [' ']) : Str).getLast? = some c := by
            simpa using hg
          rw [getLast?_append_right (by simp)] at hg2
          have hcg : c = ' ' := by simpa [eq_comm] using hg2
          rw [hcg]
          decide
        · show wkn none (s.takeWhile isWS ++ ([bulletC, ' '] : Str)) = true
          refine wkn_of_not_nul (fun c hcm2 => ?_)
          rcases List.mem_append.mp hcm2 with hm2 | hm2
          · exact isWS_ne_nul (List.mem_takeWhile_imp hm2)
          · simp only [List.mem_cons, List.not_mem_nil, or_false] at hm2
            rcases hm2 with rfl | rfl <;> decide
      · exact Option.noConfusion htry
    · exact Option.noConfusion htry

theorem mdHrTry_wk : WScan mdHrTry := by
  constructor
  · intro c cs hc
    have hrun : (c :: cs).takeWhile isHrChar = [] := by
      rw [List.takeWhile_cons, if_neg (by simp [tagL_not_hrChar hc])]
    simp only [mdHrTry, hrun, List.length_nil]
    rw [if_neg (by decide)]
  · intro s len build ps prev hs hps htry
    simp only [mdHrTry] at htry
    split at htry
    · rename_i hrun
      split at htry
      · rename_i hemp
        injection htry with htry
        injection htry with h1 h2
        subst h1
        subst h2
        have hrdec := takeWhile_decomp isHrChar s
        have hwdec := takeWhile_decomp isWS (List.drop (s.takeWhile isHrChar).length s)
        have hemp' : List.drop
            ((List.drop (s.takeWhile isHrChar).length s).takeWhile isWS).length
            (List.drop (s.takeWhile isHrChar).length s) = [] := by
          rwa [List.isEmpty_iff] at hemp
        rw [hemp', List.append_nil] at hwdec
        have hdec : s = (s.takeWhile isHrChar ++
            (List.drop (s.takeWhile isHrChar).length s).takeWhile isWS) ++ ([] : Str) := by
          rw [List.append_nil]
          conv_lhs => rw [hrdec]
          rw [← hwdec]
        have hne3 : s.takeWhile isHrChar ≠ [] := by
          intro he
          rw [he] at hrun
          simp at hrun
        refine ⟨?_, ?_, ?_, hps⟩
        · have := List.length_pos.mpr hne3
          omega
        · refine fire_suffix_head hdec
            (by simp only [List.length_append]) hs (by simp)
        · show wkn none (([] : Str)) = true
          rfl
      · split at htry
        · rename_i j hj
          injection htry with htry
          injection htry with h1 h2
          subst h1
          subst h2
          obtain ⟨cj, tj, hdj, hpj⟩ := lastIdxWhere_spec hj
          have hcj : cj = '\n' := by simpa using hpj
          subst hcj
          have hjle : j ≤ ((List.drop (s.takeWhile isHrChar).length s).takeWhile isWS).length := by
            by_contra hlt
            push_neg at hlt
            rw [List.drop_eq_nil_of_le (by omega)] at hdj
            exact List.noConfusion hdj
          have hrdec := takeWhile_decomp isHrChar s
          have hwdec := takeWhile_decomp isWS (List.drop (s.takeWhile isHrChar).length s)
          have hdec : s = (s.takeWhile isHrChar ++
              (List.take j ((List.drop (s.takeWhile isHrChar).length s).takeWhile isWS))) ++
              (List.drop j ((List.drop (s.takeWhile isHrChar).length s).takeWhile isWS) ++
                List.drop
                  ((List.drop (s.takeWhile isHrChar).length s).takeWhile isWS).length
                  (List.drop (s.takeWhile isHrChar).length s)) := by
            conv_lhs => rw [hrdec]
            conv_lhs => rw [hwdec]
            exact append_split3 j
          refine ⟨?_, ?_, ?_, hps⟩
          · have hne3 : s.takeWhile isHrChar ≠ [] := by
              intro he
              rw [he] at hrun
              simp at hrun
            have := List.length_pos.mpr hne3
            omega
          · refine fire_suffix_head hdec (by
              simp only [List.length_append, List.length_take]
              omega) hs
              (by rw [hdj, List.cons_append]; simp only [List.head?_cons]; decide)
          · show wkn none (([] : Str)) = true
            rfl
        · exact Option.noConfusion htry
    · exact Option.noConfusion htry

theorem wkn_tail {p : Option Char} {c : Char} {t : Str} (h : wkn p (c :: t) = true) :
    wkn (some c) t = true := by
  rw [wkn, Bool.and_eq_true] at h
  exact h.2

theorem wkn_glue {a b : Str} (ha : wkn none a = true) (hb : wkn none b = true) :
    wkn none (a ++ b) = true :=
  wkn_append ha (wkn_ctx_mono hb)

theorem span_wk (pre post : Str) {content : Str} (hpre : ∀ c ∈ pre, c ≠ nulC)
    (hpost : ∀ c ∈ post, c ≠ nulC) (hc : wkn none content = true) :
    wkn none (pre ++ (content ++ post)) = true :=
  wkn_glue (wkn_of_not_nul hpre) (wkn_glue hc (wkn_of_not_nul hpost))

theorem content_of_append {prev : Option Char} {A content B : Str}
    (hs : wkn prev (A ++ (content ++ B)) = true)
    (hA : A ≠ []) (hAd : ∀ c, A.getLast? = some c → c.isDigit = false)
    (hB : ∀ d, B.head? = some d → tagL d = false) :
    wkn none content = true :=
  wkn_append_left (wkn_none_split hs hA hAd) hB

theorem cons_head_nonTagL {d : Char} (hd : tagL d = false) {t : Str} :
    ∀ e : Char, ((d :: t) : Str).head? = some e → tagL e = false := by
  intro e hg
  have h2 : d = e := by simpa using hg
  rw [← h2]
  exact hd

theorem lazyFindNoNl_spec {close s : Str} {n : Nat} (h : lazyFindNoNl close s = some n) :
    1 ≤ n ∧ pfx close (List.drop n s) = true := by
  induction s generalizing n with
  | nil => exact Option.noConfusion h
  | cons c cs ih =>
    rw [lazyFindNoNl] at h
    split at h
    · exact Option.noConfusion h
    · split at h
      · rename_i hp
        injection h with h
        subst h
        exact ⟨le_refl 1, by simpa using hp⟩
      · cases hrec : lazyFindNoNl close cs with
        | none => rw [hrec] at h; simp at h
        | some m =>
          rw [hrec] at h
          simp at h
          obtain ⟨ih1, ih2⟩ := ih hrec
          refine ⟨by omega, ?_⟩
          rw [← h, List.drop_succ_cons]
          exact ih2

theorem firstIdx_spec {pat s : Str} {n : Nat} (h : firstIdx pat s = some n) :
    pfx pat (List.drop n s) = true := by
  induction s generalizing n with
  | nil =>
    rw [firstIdx] at h
    split at h
    · rename_i hemp
      injection h with h
      subst h
      rw [List.isEmpty_iff] at hemp
      rw [hemp]
      rfl
    · exact Option.noConfusion h
  | cons c cs ih =>
    rw [firstIdx] at h
    split at h
    · rename_i hp
      injection h with h
      subst h
      simpa using hp
    · cases hrec : firstIdx pat cs with
      | none => rw [hrec] at h; simp at h
      | some m =>
        rw [hrec] at h
        simp at h
        rw [← h, List.drop_succ_cons]
        exact ih hrec

theorem wkn_filter {p : Char → Bool} (hnul : p nulC = true)
    (htag : ∀ c, tagL c = true → p c = true)
    (hdig : ∀ c, p c = false → c.isDigit = false) :
    ∀ {t : Str} {q : Option Char}, wkn q t = true → wkn q (t.filter p) = true := by
  intro t
  induction t with
  | nil => intro q h; exact h
  | cons c cs ih =>
    intro q h
    rw [wkn, Bool.and_eq_true] at h
    rw [List.filter_cons]
    split
    · rename_i hpc
      rw [wkn, Bool.and_eq_true]
      refine ⟨?_, ih h.2⟩
      have h1 := h.1
      rw [headOK, Bool.or_eq_true, Bool.or_eq_true] at h1 ⊢
      rcases h1 with (h1 | h1) | h1
      · exact Or.inl (Or.inl h1)
      · cases cs with
        | nil => exact absurd h1 (by decide)
        | cons d ds =>
          rw [tagLHead] at h1
          refine Or.inl (Or.inr ?_)
          rw [List.filter_cons, if_pos (htag d h1), tagLHead]
          exact h1
      · exact Or.inr h1
    · rename_i hpc
      rw [Bool.not_eq_true] at hpc
      exact wkn_ctx_swap (hdig c hpc) (ih h.2)

theorem mdItalicTry_wk : WScan mdItalicTry := by
  constructor
  · intro c cs hc
    simp only [mdItalicTry]
    rw [if_neg (fun he => ne_of_tagL hc (show tagL starC = false by decide) (by simpa using he))]
  · intro s len build ps prev hs hps htry
    simp only [mdItalicTry] at htry
    split at htry
    · rename_i c cs
      split at htry
      · rename_i hceq
        split at htry
        · exact Option.noConfusion htry
        · rename_i hemp
          split at htry
          · rename_i d t2 heq
            split at htry
            · rename_i hdeq
              injection htry with htry
              injection htry with h1 h2
              subst h1
              subst h2
              rw [beq_iff_eq] at hceq hdeq
              subst hceq
              subst hdeq
              have hinner := takeWhile_decomp (fun d => d != starC && d != '\n') cs
              rw [heq] at hinner
              have hdecA : starC :: cs =
                  ((starC :: List.takeWhile (fun d => d != starC && d != '\n') cs) ++
                    [starC]) ++ t2 := by
                conv_lhs => rw [hinner]
                simp
              refine ⟨by omega, ?_, ?_, hps⟩
              · refine fire_suffix hdecA
                  (by simp only [List.length_append, List.length_cons, List.length_nil])
                  hs (by simp) (fun e hg => ?_)
                rw [getLast?_append_right (by simp)] at hg
                have hcg : e = starC := by simpa [eq_comm] using hg
                rw [hcg]
                decide
              · show wkn none (zws :: '_' ::
                    List.takeWhile (fun d => d != starC && d != '\n') cs ++ ['_', zws]) = true
                have hs2 := hs
                rw [hinner] at hs2
                have w1 := wkn_tail hs2
                have hcontent : wkn none
                    (List.takeWhile (fun d => d != starC && d != '\n') cs) = true :=
                  wkn_ctx_swap (by decide) (wkn_append_left w1 (cons_head_nonTagL (by decide)))
                exact span_wk [zws, '_'] ['_', zws] (by decide) (by decide) hcontent
            · exact Option.noConfusion htry
          · exact Option.noConfusion htry
      · exact Option.noConfusion htry
    · exact Option.noConfusion htry

theorem inlineTry_wk : WScan inlineTry := by
  constructor
  · intro c cs hc
    simp only [inlineTry]
    rw [if_neg (fun he => ne_of_tagL hc (show tagL btick = false by decide) (by simpa using he))]
  · intro s len build ps prev hs hps htry
    simp only [inlineTry] at htry
    split at htry
    · rename_i c cs
      split at htry
      · rename_i hceq
        split at htry
        · exact Option.noConfusion htry
        · rename_i hemp
          split at htry
          · rename_i d t2 heq
            split at htry
            · rename_i hdeq
              injection htry with htry
              injection htry with h1 h2
              subst h1
              subst h2
              rw [beq_iff_eq] at hceq hdeq
              subst hceq
              subst hdeq
              have hinner := takeWhile_decomp (fun d => d != btick && d != '\n') cs
              rw [heq] at hinner
              have hcontent : wkn none
                  (List.takeWhile (fun d => d != btick && d != '\n') cs) = true := by
                have hs2 := hs
                rw [hinner] at hs2
                have w1 := wkn_tail hs2
                exact wkn_ctx_swap (by decide)
                  (wkn_append_left w1 (cons_head_nonTagL (by decide)))
              have hdecA : btick :: cs =
                  ((btick :: List.takeWhile (fun d => d != btick && d != '\n') cs) ++
                    [btick]) ++ t2 := by
                conv_lhs => rw [hinner]
                simp
              refine ⟨by omega, ?_, ?_, ?_⟩
              · refine fire_suffix hdecA
                  (by simp only [List.length_append, List.length_cons, List.length_nil])
                  hs (by simp) (fun e hg => ?_)
                rw [getLast?_append_right (by simp)] at hg
                have hcg : e = btick := by simpa [eq_comm] using hg
                rw [hcg]
                decide
              · show wkn none (tokenStr tagIC ps.length) = true
                exact wkn_tokenStr (by simp [allTags])
              · refine PsW_push hps ?_
                exact span_wk [btick] [btick] (by decide) (by decide) hcontent
            · exact Option.noConfusion htry
          · exact Option.noConfusion htry
      · exact Option.noConfusion htry
    · exact Option.noConfusion htry

theorem mdStrikeTry_wk : WScan mdStrikeTry := by
  constructor
  · intro c cs hc
    have hne : '~' ≠ c := Ne.symm (ne_of_tagL hc (by decide))
    simp only [mdStrikeTry]
    rw [if_neg (by rw [pfx_false_of_head_ne hne]; exact Bool.noConfusion)]
  · intro s len build ps prev hs hps htry
    simp only [mdStrikeTry] at htry
    split at htry
    · rename_i hp
      split at htry
      · rename_i n hlz
        injection htry with htry
        injection htry with h1 h2
        subst h1
        subst h2
        obtain ⟨hn1, hp2⟩ := lazyFindNoNl_spec hlz
        have hnle : n ≤ (List.drop 2 s).length := by
          by_contra hlt
          push_neg at hlt
          rw [List.drop_eq_nil_of_le (by omega)] at hp2
          exact absurd hp2 (by decide)
        have h0 : s = '~' :: '~' :: List.drop 2 s := by
          have h5 := pfx_decomp hp
          simpa using h5
        have h2' : List.drop 2 s =
            List.take n (List.drop 2 s) ++ List.drop n (List.drop 2 s) :=
          (List.take_append_drop n (List.drop 2 s)).symm
        have h3 : List.drop n (List.drop 2 s) =
            '~' :: '~' :: List.drop 2 (List.drop n (List.drop 2 s)) := by
          have h5 := pfx_decomp hp2
          simpa using h5
        have hdecR : s = '~' :: '~' :: (List.take n (List.drop 2 s) ++
            ('~' :: '~' :: List.drop 2 (List.drop n (List.drop 2 s)))) := by
          conv_lhs => rw [h0]
          conv_lhs => rw [h2']
          conv_lhs => rw [h3]
        have hdecA : s = (('~' :: '~' :: (List.take n (List.drop 2 s) ++ ['~'])) ++ ['~']) ++
            List.drop 2 (List.drop n (List.drop 2 s)) := by
          conv_lhs => rw [hdecR]
          simp [List.append_assoc]
        have hcontent : wkn none (List.take n (List.drop 2 s)) = true := by
          have hs2 := hs
          rw [hdecR] at hs2
          have w1 := wkn_tail (wkn_tail hs2)
          exact wkn_ctx_swap (by decide)
            (wkn_append_left w1 (cons_head_nonTagL (by decide)))
        refine ⟨by omega, ?_, ?_, hps⟩
        · refine fire_suffix hdecA
            (by simp only [List.length_append, List.length_cons, List.length_nil,
                  List.length_take]
                omega)
            hs (by simp) (fun e hg => ?_)
          rw [getLast?_append_right (by simp)] at hg
          have hcg : e = '~' := by simpa [eq_comm] using hg
          rw [hcg]
          decide
        · show wkn none (zws :: '~' :: List.take n (List.drop 2 s) ++ ['~', zws]) = true
          exact span_wk [zws, '~'] ['~', zws] (by decide) (by decide) hcontent
      · exact Option.noConfusion htry
    · exact Option.noConfusion htry

theorem mdBoldItalicTry_wk : WScan mdBoldItalicTry := by
  constructor
  · intro c cs hc
    have hne : starC ≠ c := Ne.symm (ne_of_tagL hc (by decide))
    simp only [mdBoldItalicTry]
    rw [if_neg (by rw [pfx_false_of_head_ne hne]; exact Bool.noConfusion)]
  · intro s len build ps prev hs hps htry
    simp only [mdBoldItalicTry] at htry
    split at htry
    · rename_i hp
      split at htry
      · rename_i n hlz
        injection htry with htry
        injection htry with h1 h2
        subst h1
        subst h2
        obtain ⟨hn1, hp2⟩ := lazyFindNoNl_spec hlz
        have hnle : n ≤ (List.drop 3 s).length := by
          by_contra hlt
          push_neg at hlt
          rw [List.drop_eq_nil_of_le (by omega)] at hp2
          exact absurd hp2 (by decide)
        have h0 : s = starC :: starC :: starC :: List.drop 3 s := by
          have h5 := pfx_decomp hp
          simpa using h5
        have h2' : List.drop 3 s =
            List.take n (List.drop 3 s) ++ List.drop n (List.drop 3 s) :=
          (List.take_append_drop n (List.drop 3 s)).symm
        have h3 : List.drop n (List.drop 3 s) =
            starC :: starC :: starC :: List.drop 3 (List.drop n (List.drop 3 s)) := by
          have h5 := pfx_decomp hp2
          simpa using h5
        have hdecR : s = starC :: starC :: starC :: (List.take n (List.drop 3 s) ++
            (starC :: starC :: starC :: List.drop 3 (List.drop n (List.drop 3 s)))) := by
          conv_lhs => rw [h0]
          conv_lhs => rw [h2']
          conv_lhs => rw [h3]
        have hdecA : s = ((starC :: starC :: starC ::
            (List.take n (List.drop 3 s) ++ [starC, starC])) ++ [starC]) ++
            List.drop 3 (List.drop n (List.drop 3 s)) := by
          conv_lhs => rw [hdecR]
          simp [List.append_assoc]
        have hcontent : wkn none (List.take n (List.drop 3 s)) = true := by
          have hs2 := hs
          rw [hdecR] at hs2
          have w1 := wkn_tail (wkn_tail (wkn_tail hs2))
          exact wkn_ctx_swap (by decide)
            (wkn_append_left w1 (cons_head_nonTagL (by decide)))
        refine ⟨by omega, ?_, ?_, ?_⟩
        · refine fire_suffix hdecA
            (by simp only [List.length_append, List.length_cons, List.length_nil,
                  List.length_take]
                omega)
            hs (by simp) (fun e hg => ?_)
          rw [getLast?_append_right (by simp)] at hg
          have hcg : e = starC := by simpa [eq_comm] using hg
          rw [hcg]
          decide
        · show wkn none (tokenStr tagBI ps.length) = true
          exact wkn_tokenStr (by simp [allTags])
        · refine PsW_push hps ?_
          exact span_wk [zws, starC, '_'] ['_', starC, zws] (by decide) (by decide) hcontent
      · exact Option.noConfusion htry
    · exact Option.noConfusion htry

theorem mdBoldTry_wk : WScan mdBoldTry := by
  constructor
  · intro c cs hc
    have hne : starC ≠ c := Ne.symm (ne_of_tagL hc (by decide))
    simp only [mdBoldTry]
    rw [if_neg (by rw [pfx_false_of_head_ne hne]; exact Bool.noConfusion)]
  · intro s len build ps prev hs hps htry
    simp only [mdBoldTry] at htry
    split at htry
    · rename_i hp
      split at htry
      · rename_i n hlz
        injection htry with htry
        injection htry with h1 h2
        subst h1
        subst h2
        obtain ⟨hn1, hp2⟩ := lazyFindNoNl_spec hlz
        have hnle : n ≤ (List.drop 2 s).length := by
          by_contra hlt
          push_neg at hlt
          rw [List.drop_eq_nil_of_le (by omega)] at hp2
          exact absurd hp2 (by decide)
        have h0 : s = starC :: starC :: List.drop 2 s := by
          have h5 := pfx_decomp hp
          simpa using h5
        have h2' : List.drop 2 s =
            List.take n (List.drop 2 s) ++ List.drop n (List.drop 2 s) :=
          (List.take_append_drop n (List.drop 2 s)).symm
        have h3 : List.drop n (List.drop 2 s) =
            starC :: starC :: List.drop 2 (List.drop n (List.drop 2 s)) := by
          have h5 := pfx_decomp hp2
          simpa using h5
        have hdecR : s = starC :: starC :: (List.take n (List.drop 2 s) ++
            (starC :: starC :: List.drop 2 (List.drop n (List.drop 2 s)))) := by
          conv_lhs => rw [h0]
          conv_lhs => rw [h2']
          conv_lhs => rw [h3]
        have hdecA : s = ((starC :: starC :: (List.take n (List.drop 2 s) ++ [starC])) ++
            [starC]) ++ List.drop 2 (List.drop n (List.drop 2 s)) := by
          conv_lhs => rw [hdecR]
          simp [List.append_assoc]
        have hcontent : wkn none (List.take n (List.drop 2 s)) = true := by
          have hs2 := hs
          rw [hdecR] at hs2
          have w1 := wkn_tail (wkn_tail hs2)
          exact wkn_ctx_swap (by decide)
            (wkn_append_left w1 (cons_head_nonTagL (by decide)))
        have hMI : wkn none (mdItalicAll (List.take n (List.drop 2 s))) = true :=
          (runStage_wk mdItalicTry_wk hcontent (fun p hp2' => absurd hp2' (List.not_mem_nil p))).1
        refine ⟨by omega, ?_, ?_, ?_⟩
        · refine fire_suffix hdecA
            (by simp only [List.length_append, List.length_cons, List.length_nil,
                  List.length_take]
                omega)
            hs (by simp) (fun e hg => ?_)
          rw [getLast?_append_right (by simp)] at hg
          have hcg : e = starC := by simpa [eq_comm] using hg
          rw [hcg]
          decide
        · show wkn none (tokenStr tagBD ps.length) = true
          exact wkn_tokenStr (by simp [allTags])
        · refine PsW_push hps ?_
          exact span_wk [zws, starC] [starC, zws] (by decide) (by decide) hMI
      · exact Option.noConfusion htry
    · exact Option.noConfusion htry

theorem mdImageTry_wk : WScan mdImageTry := by
  constructor
  · intro c cs hc
    rcases tagL_cases hc with h | h | h | h | h <;> subst h <;> rfl
  · intro s len build ps prev hs hps htry
    simp only [mdImageTry] at htry
    split at htry
    · rename_i rest
      split at htry
      · rename_i r2 heq
        split at htry
        · exact Option.noConfusion htry
        · rename_i hemp
          split at htry
          · rename_i t2 heq2
            injection htry with htry
            injection htry with h1 h2
            subst h1
            subst h2
            have hi1 := takeWhile_decomp (· != ']') rest
            rw [heq] at hi1
            have hi2 := takeWhile_decomp (· != ')') r2
            rw [heq2] at hi2
            have hdecA : '!' :: '[' :: rest =
                (('!' :: '[' :: (List.takeWhile (· != ']') rest ++
                  (']' :: '(' :: List.takeWhile (· != ')') r2))) ++ [')']) ++ t2 := by
              conv_lhs => rw [hi1]
              conv_lhs => rw [hi2]
              simp [List.append_assoc]
            have hurl : wkn none (List.takeWhile (· != ')') r2) = true := by
              have hs2 := hs
              rw [hi1] at hs2
              rw [hi2] at hs2
              have w2 := wkn_tail (wkn_tail hs2)
              have w3 := wkn_append_right w2
              have w5 := wkn_tail (wkn_tail w3)
              exact wkn_ctx_swap (by decide)
                (wkn_append_left w5 (cons_head_nonTagL (by decide)))
            refine ⟨by omega, ?_, ?_, hps⟩
            · refine fire_suffix hdecA
                (by simp only [List.length_append, List.length_cons, List.length_nil]
                    omega)
                hs (by simp) (fun e hg => ?_)
              rw [getLast?_append_right (by simp)] at hg
              have hcg : e = ')' := by simpa [eq_comm] using hg
              rw [hcg]
              decide
            · show wkn none (List.takeWhile (· != ')') r2) = true
              exact hurl
          · exact Option.noConfusion htry
      · exact Option.noConfusion htry
    · exact Option.noConfusion htry

theorem mdLinkTry_wk : WScan mdLinkTry := by
  constructor
  · intro c cs hc
    rcases tagL_cases hc with h | h | h | h | h <;> subst h <;> rfl
  · intro s len build ps prev hs hps htry
    simp only [mdLinkTry] at htry
    split at htry
    · rename_i rest
      split at htry
      · exact Option.noConfusion htry
      · rename_i hemp
        split at htry
        · rename_i r2 heq
          split at htry
          · exact Option.noConfusion htry
          · rename_i hemp2
            split at htry
            · rename_i t2 heq2
              injection htry with htry
              injection htry with h1 h2
              subst h1
              subst h2
              have hi1 := takeWhile_decomp (· != ']') rest
              rw [heq] at hi1
              have hi2 := takeWhile_decomp (· != ')') r2
              rw [heq2] at hi2
              have hdecA : '[' :: rest =
                  (('[' :: (List.takeWhile (· != ']') rest ++
                    (']' :: '(' :: List.takeWhile (· != ')') r2))) ++ [')']) ++ t2 := by
                conv_lhs => rw [hi1]
                conv_lhs => rw [hi2]
                simp [List.append_assoc]
              have hs2 := hs
              rw [hi1] at hs2
              rw [hi2] at hs2
              have w1 := wkn_tail hs2
              have htxt0 : wkn none (List.takeWhile (· != ']') rest) = true :=
                wkn_ctx_swap (by decide)
                  (wkn_append_left w1 (cons_head_nonTagL (by decide)))
              have hurl : wkn none (List.takeWhile (· != ')') r2) = true := by
                have w3 := wkn_append_right w1
                have w5 := wkn_tail (wkn_tail w3)
                exact wkn_ctx_swap (by decide)
                  (wkn_append_left w5 (cons_head_nonTagL (by decide)))
              have htxtF : wkn none
                  (stripAngle (List.takeWhile (· != ']') rest)) = true := by
                simp only [stripAngle]
                refine wkn_filter (by decide) ?_ ?_ htxt0
                · intro c hc2
                  rcases tagL_cases hc2 with h | h | h | h | h <;> subst h <;> decide
                · intro c hpc
                  simp at hpc
                  by_cases h : c = '<'
                  · subst h; decide
                  · have h2 := hpc h
                    subst h2; decide
              refine ⟨by omega, ?_, ?_, ?_⟩
              · refine fire_suffix hdecA
                  (by simp only [List.length_append, List.length_cons, List.length_nil]
                      omega)
                  hs (by simp) (fun e hg => ?_)
                rw [getLast?_append_right (by simp)] at hg
                have hcg : e = ')' := by simpa [eq_comm] using hg
                rw [hcg]
                decide
              · show wkn none (tokenStr tagLK ps.length) = true
                exact wkn_tokenStr (by simp [allTags])
              · refine PsW_push hps ?_
                show wkn none ('<' :: List.takeWhile (· != ')') r2 ++
                  '|' :: stripAngle (List.takeWhile (· != ']') rest) ++ ['>']) = true
                exact wkn_glue (wkn_glue (wkn_cons_of (by decide) (wkn_ctx_mono hurl))
                    (wkn_cons_of (by decide) (wkn_ctx_mono htxtF)))
                  (wkn_of_not_nul (by decide))
            · exact Option.noConfusion htry
        · exact Option.noConfusion htry
    · exact Option.noConfusion htry

theorem fencedTry_wk : WScan fencedTry := by
  constructor
  · intro c cs hc
    have hne : btick ≠ c := Ne.symm (ne_of_tagL hc (by decide))
    simp only [fencedTry, fenceMark]
    rw [if_neg (by rw [pfx_false_of_head_ne hne]; exact Bool.noConfusion)]
  · intro s len build ps prev hs hps htry
    simp only [fencedTry, fenceMark] at htry
    split at htry
    · rename_i hp
      split at htry
      · rename_i rest2 heq
        split at htry
        · rename_i n hfi
          injection htry with htry
          injection htry with h1 h2
          subst h1
          subst h2
          have hpf2 := firstIdx_spec hfi
          have hnle : n ≤ rest2.length := by
            by_contra hlt
            push_neg at hlt
            rw [List.drop_eq_nil_of_le (by omega)] at hpf2
            exact absurd hpf2 (by decide)
          have h0 : s = btick :: btick :: btick :: List.drop 3 s := by
            have h5 := pfx_decomp hp
            simpa using h5
          have h1' := takeWhile_decomp (· != '\n') (List.drop 3 s)
          rw [heq] at h1'
          have h2' : rest2 = List.take n rest2 ++ List.drop n rest2 :=
            (List.take_append_drop n rest2).symm
          have h3 : List.drop n rest2 =
              btick :: btick :: btick :: List.drop 3 (List.drop n rest2) := by
            have h5 := pfx_decomp hpf2
            simpa using h5
          have hdecR : s = btick :: btick :: btick ::
              (List.takeWhile (· != '\n') (List.drop 3 s) ++
                ('\n' :: (List.take n rest2 ++
                  (btick :: btick :: btick :: List.drop 3 (List.drop n rest2))))) := by
            conv_lhs => rw [h0]
            conv_lhs => rw [h1']
            conv_lhs => rw [h2']
            conv_lhs => rw [h3]
          have hdecA : s = ((btick :: btick :: btick ::
              (List.takeWhile (· != '\n') (List.drop 3 s) ++
                ('\n' :: (List.take n rest2 ++ [btick, btick])))) ++ [btick]) ++
              List.drop 3 (List.drop n rest2) := by
            conv_lhs => rw [hdecR]
            simp [List.append_assoc]
          have hcontent : wkn none (List.take n rest2) = true := by
            have hs2 := hs
            rw [hdecR] at hs2
            have w3 := wkn_tail (wkn_tail (wkn_tail hs2))
            have w4 := wkn_append_right w3
            have w5 := wkn_tail w4
            exact wkn_ctx_swap (by decide)
              (wkn_append_left w5 (cons_head_nonTagL (by decide)))
          refine ⟨by omega, ?_, ?_, ?_⟩
          · refine fire_suffix hdecA
              (by simp only [List.length_append, List.length_cons, List.length_nil,
                    List.length_take]
                  omega)
              hs (by simp) (fun e hg => ?_)
            rw [getLast?_append_right (by simp)] at hg
            have hcg : e = btick := by simpa [eq_comm] using hg
            rw [hcg]
            decide
          · show wkn none (tokenStr tagCB ps.length) = true
            exact wkn_tokenStr (by simp [allTags])
          · refine PsW_push hps ?_
            show wkn none ([btick, btick, btick] ++
              '\n' :: List.take n rest2 ++ [btick, btick, btick]) = true
            have hspan : wkn none (([btick, btick, btick] : Str) ++
                ((['\n'] : Str) ++ (List.take n rest2 ++
                  ([btick, btick, btick] : Str)))) = true :=
              wkn_glue (wkn_of_not_nul (by decide))
                (span_wk ['\n'] [btick, btick, btick] (by decide) (by decide) hcontent)
            exact hspan
        · exact Option.noConfusion htry
      · exact Option.noConfusion htry
    · exact Option.noConfusion htry

theorem char_digit_bounds {c : Char} (h : c.isDigit = true) :
    48 ≤ c.toNat ∧ c.toNat ≤ 57 := by
  rw [Char.isDigit, Bool.and_eq_true] at h
  have h1 : (48 : UInt32) ≤ c.val := of_decide_eq_true h.1
  have h2 : c.val ≤ (57 : UInt32) := of_decide_eq_true h.2
  have h1' : (48 : Nat) ≤ c.val.toNat := h1
  have h2' : c.val.toNat ≤ (57 : Nat) := h2
  exact ⟨h1', h2'⟩

theorem foldC_not_digit {c : Char} (h : c.isDigit = true) : foldC c ≠ '>' := by
  intro hgt
  obtain ⟨h1', h2'⟩ := char_digit_bounds h
  have hlink : c.toNat = c.val.toNat := rfl
  rw [foldC] at hgt
  rw [if_neg (fun hc => by
    have h3 : c.val.toNat = (0x17F : UInt32).toNat :=
      congrArg UInt32.toNat (by simpa using hc)
    have h4 : (0x17F : UInt32).toNat = 383 := rfl
    omega)] at hgt
  rw [if_neg (fun hc => by
    have h3 : c.val.toNat = (0x212A : UInt32).toNat :=
      congrArg UInt32.toNat (by simpa using hc)
    have h4 : (0x212A : UInt32).toNat = 8490 := rfl
    omega)] at hgt
  rw [Char.toLower] at hgt
  rw [if_neg (by
    show ¬(c.toNat ≥ 65 ∧ c.toNat ≤ 90)
    omega)] at hgt
  have h5 : c.toNat = ('>' : Char).toNat := congrArg Char.toNat hgt
  have h6 : ('>' : Char).toNat = 62 := rfl
  omega

theorem ciPfx_le : ∀ {pat t : Str}, ciPfx pat t = true → pat.length ≤ t.length := by
  intro pat
  induction pat with
  | nil => intro t _; simp
  | cons q qs ih =>
    intro t h
    cases t with
    | nil => simp [ciPfx] at h
    | cons c cs =>
      rw [ciPfx, Bool.and_eq_true] at h
      have := ih h.2
      simp only [List.length_cons]
      omega

theorem ciPfx_take_last : ∀ {pat t : Str} {p : Char}, ciPfx pat t = true →
    pat.getLast? = some p →
    ∃ c, (List.take pat.length t).getLast? = some c ∧ foldC c = p := by
  intro pat
  induction pat with
  | nil => intro t p _ hp; exact Option.noConfusion hp
  | cons q qs ih =>
    intro t p h hp
    cases t with
    | nil => simp [ciPfx] at h
    | cons c cs =>
      rw [ciPfx, Bool.and_eq_true] at h
      cases qs with
      | nil =>
        have hpq : p = q := by simpa [eq_comm] using hp
        refine ⟨c, by simp, ?_⟩
        rw [hpq]
        simpa using h.1
      | cons q2 qs2 =>
        have hp2 : ((q2 :: qs2) : Str).getLast? = some p := by
          rwa [List.getLast?_cons_cons] at hp
        obtain ⟨c2, hc2l, hc2f⟩ := ih h.2 hp2
        refine ⟨c2, ?_, hc2f⟩
        rw [show ((q :: q2 :: qs2) : Str).length = ((q2 :: qs2) : Str).length + 1 from rfl]
        rw [List.take_succ_cons]
        have hne : List.take ((q2 :: qs2) : Str).length cs ≠ [] := by
          intro hnil
          rw [hnil] at hc2l
          exact Option.noConfusion hc2l
        rw [show ((c :: List.take ((q2 :: qs2) : Str).length cs) : Str) =
          [c] ++ List.take ((q2 :: qs2) : Str).length cs from rfl]
        rw [getLast?_append_right hne]
        exact hc2l

theorem ciCloseM_spec {close t : Str} {k : Nat} (h : ciCloseM close t = some k) :
    k = close.length ∧ ciPfx close t = true := by
  rw [ciCloseM] at h
  split at h
  · rename_i hp
    injection h with h
    exact ⟨h.symm, hp⟩
  · exact Option.noConfusion h

theorem lazyFind_spec {closeM : Str → Option Nat} : ∀ {s : Str} {n k : Nat},
    lazyFind closeM s = some (n, k) → closeM (List.drop n s) = some k := by
  intro s
  induction s with
  | nil =>
    intro n k h
    rw [lazyFind] at h
    split at h
    · rename_i k' hk
      injection h with h
      have h1 : 0 = n := congrArg Prod.fst h
      have h2 : k' = k := congrArg Prod.snd h
      rw [← h1, ← h2]
      exact hk
    · exact Option.noConfusion h
  | cons c cs ih =>
    intro n k h
    rw [lazyFind] at h
    split at h
    · rename_i k' hk
      injection h with h
      have h1 : 0 = n := congrArg Prod.fst h
      have h2 : k' = k := congrArg Prod.snd h
      rw [← h1, ← h2]
      exact hk
    · cases hrec : lazyFind closeM cs with
      | none => rw [hrec] at h; simp at h
      | some pr =>
        obtain ⟨m, k2⟩ := pr
        rw [hrec] at h
        simp at h
        obtain ⟨h1, h2⟩ := h
        rw [← h1, List.drop_succ_cons, ← h2]
        exact ih hrec

theorem tagPair_master {name s : Str} {len : Nat} {cap : Str} {prev : Option Char}
    (hs : wkn prev s = true) (h : tagPairTry name s = some (len, cap)) :
    1 ≤ len ∧ wkn none (List.drop len s) = true ∧ wkn none cap = true := by
  simp only [tagPairTry] at h
  split at h
  · rename_i rest1
    split at h
    · rename_i hci
      split at h
      · rename_i n k hlf
        injection h with h
        have h1 : name.length + 2 + n + k = len := congrArg Prod.fst h
        have h2 : List.take n (List.drop (name.length + 1) rest1) = cap := congrArg Prod.snd h
        subst h1
        subst h2
        obtain ⟨hk, hciC⟩ := ciCloseM_spec (lazyFind_spec hlf)
        have hk' : k = name.length + 3 := by simpa using hk
        subst hk'
        have hle1' : name.length + 1 ≤ rest1.length := by simpa using ciPfx_le hci
        have hle2' : name.length + 3 ≤
            (List.drop n (List.drop (name.length + 1) rest1)).length := by
          simpa using ciPfx_le hciC
        have hrl : (List.drop n (List.drop (name.length + 1) rest1)).length =
            (List.drop (name.length + 1) rest1).length - n := by
          rw [List.length_drop]
        have hrl2 : (List.drop (name.length + 1) rest1).length =
            rest1.length - (name.length + 1) := by
          rw [List.length_drop]
        have hnle : n ≤ (List.drop (name.length + 1) rest1).length := by omega
        have e1 : rest1 = List.take (name.length + 1) rest1 ++
            List.drop (name.length + 1) rest1 :=
          (List.take_append_drop (name.length + 1) rest1).symm
        have e2 : List.drop (name.length + 1) rest1 =
            List.take n (List.drop (name.length + 1) rest1) ++
              List.drop n (List.drop (name.length + 1) rest1) :=
          (List.take_append_drop n (List.drop (name.length + 1) rest1)).symm
        have e3 : List.drop n (List.drop (name.length + 1) rest1) =
            List.take (name.length + 3) (List.drop n (List.drop (name.length + 1) rest1)) ++
              List.drop (name.length + 3)
                (List.drop n (List.drop (name.length + 1) rest1)) :=
          (List.take_append_drop (name.length + 3) _).symm
        have hdecA : '<' :: rest1 = (('<' :: (List.take (name.length + 1) rest1 ++
            (List.take n (List.drop (name.length + 1) rest1) ++
              List.take (name.length + 3)
                (List.drop n (List.drop (name.length + 1) rest1))))) : Str) ++
            List.drop (name.length + 3) (List.drop n (List.drop (name.length + 1) rest1)) := by
          conv_lhs => rw [e1]
          conv_lhs => rw [e2]
          conv_lhs => rw [e3]
          simp [List.append_assoc]
        obtain ⟨cl, hcl, hclf⟩ := ciPfx_take_last hciC
          (show (('<' :: '/' :: name ++ ['>']) : Str).getLast? = some '>' from by
            rw [show (('<' :: '/' :: name ++ ['>']) : Str) =
              ['<', '/'] ++ (name ++ ['>']) from rfl]
            rw [getLast?_append_right (by simp), getLast?_append_right (by simp)]
            rfl)
        have hlen3 : (('<' :: '/' :: name ++ ['>']) : Str).length = name.length + 3 := by
          simp
        rw [hlen3] at hcl
        have hMne : List.take (name.length + 3)
            (List.drop n (List.drop (name.length + 1) rest1)) ≠ [] := by
          intro hnil
          rw [hnil] at hcl
          exact Option.noConfusion hcl
        have hAlast : (('<' :: (List.take (name.length + 1) rest1 ++
            (List.take n (List.drop (name.length + 1) rest1) ++
              List.take (name.length + 3)
                (List.drop n (List.drop (name.length + 1) rest1))))) : Str).getLast? =
            some cl := by
          rw [show (('<' :: (List.take (name.length + 1) rest1 ++
            (List.take n (List.drop (name.length + 1) rest1) ++
              List.take (name.length + 3)
                (List.drop n (List.drop (name.length + 1) rest1))))) : Str) =
            ['<'] ++ (List.take (name.length + 1) rest1 ++
            (List.take n (List.drop (name.length + 1) rest1) ++
              List.take (name.length + 3)
                (List.drop n (List.drop (name.length + 1) rest1)))) from rfl]
          rw [getLast?_append_right (fun hcon => hMne (List.append_eq_nil.mp
            (List.append_eq_nil.mp hcon).2).2)]
          rw [getLast?_append_right (fun hcon => hMne (List.append_eq_nil.mp hcon).2)]
          rw [getLast?_append_right hMne]
          exact hcl
        refine ⟨by omega, ?_, ?_⟩
        · refine fire_suffix hdecA
            (by simp only [List.length_append, List.length_cons, List.length_nil,
                  List.length_take]
                omega)
            hs (by simp) (fun e hg => ?_)
          rw [hAlast] at hg
          injection hg with hg
          rw [← hg]
          cases hdig : cl.isDigit with
          | false => rfl
          | true => exact absurd hclf (foldC_not_digit hdig)
        · have hs2 := hs
          rw [e1] at hs2
          rw [e2] at hs2
          have hsC : wkn prev ((('<' :: List.take (name.length + 1) rest1) : Str) ++
              (List.take n (List.drop (name.length + 1) rest1) ++
                List.drop n (List.drop (name.length + 1) rest1))) = true := hs2
          obtain ⟨co, hco, hcof⟩ := ciPfx_take_last hci
            (show ((name ++ ['>']) : Str).getLast? = some '>' from by
              rw [getLast?_append_right (by simp)]
              rfl)
          have hlenn : ((name ++ ['>']) : Str).length = name.length + 1 := by simp
          rw [hlenn] at hco
          have hXne : List.take (name.length + 1) rest1 ≠ [] := by
            intro hnil
            rw [hnil] at hco
            exact Option.noConfusion hco
          refine content_of_append hsC (by simp) ?_ ?_
          · intro e hg
            have hg2 : (List.take (name.length + 1) rest1).getLast? = some e := by
              rw [show (('<' :: List.take (name.length + 1) rest1) : Str) =
                ['<'] ++ List.take (name.length + 1) rest1 from rfl] at hg
              rwa [getLast?_append_right hXne] at hg
            rw [hco] at hg2
            injection hg2 with hg2
            rw [← hg2]
            cases hdig : co.isDigit with
            | false => rfl
            | true => exact absurd hcof (foldC_not_digit hdig)
          · intro d hd
            cases hu : List.drop n (List.drop (name.length + 1) rest1) with
            | nil => rw [hu] at hd; exact Option.noConfusion hd
            | cons c0 u' =>
              have hciC2 := hciC
              rw [hu] at hciC2 hd
              injection hd with hd
              subst hd
              simp only [ciPfx, Bool.and_eq_true] at hciC2
              have hf : foldC c0 = '<' := by simpa using hciC2.1
              cases htl : tagL c0 with
              | false => rfl
              | true =>
                exfalso
                rcases tagL_cases htl with hq | hq | hq | hq | hq <;> subst hq <;>
                  exact absurd hf (by decide)
      · exact Option.noConfusion h
    · exact Option.noConfusion h
  · exact Option.noConfusion h

theorem protTagTry_wk {name tag wrapL wrapR : Str} (htag : tag ∈ allTags)
    (hwL : ∀ c ∈ wrapL, c ≠ nulC) (hwR : ∀ c ∈ wrapR, c ≠ nulC) :
    WScan (protTagTry name tag wrapL wrapR) := by
  constructor
  · intro c cs hc
    simp only [protTagTry]
    rcases tagL_cases hc with h | h | h | h | h <;> subst h <;> rfl
  · intro s len build ps prev hs hps htry
    simp only [protTagTry] at htry
    cases htp : tagPairTry name s with
    | none => rw [htp] at htry; simp at htry
    | some pr =>
      obtain ⟨plen, cap⟩ := pr
      rw [htp] at htry
      injection htry with htry
      injection htry with h1 h2
      subst h1
      subst h2
      obtain ⟨hl1, hdrop, hcap⟩ := tagPair_master hs htp
      refine ⟨hl1, hdrop, ?_, ?_⟩
      · show wkn none (tokenStr tag ps.length) = true
        exact wkn_tokenStr htag
      · refine PsW_push hps ?_
        show wkn none (wrapL ++ cap ++ wrapR) = true
        exact wkn_glue (wkn_glue (wkn_of_not_nul hwL) hcap) (wkn_of_not_nul hwR)

theorem inlineTagTry_wk {name wrapL wrapR : Str}
    (hwL : ∀ c ∈ wrapL, c ≠ nulC) (hwR : ∀ c ∈ wrapR, c ≠ nulC) :
    WScan (inlineTagTry name wrapL wrapR) := by
  constructor
  · intro c cs hc
    simp only [inlineTagTry]
    rcases tagL_cases hc with h | h | h | h | h <;> subst h <;> rfl
  · intro s len build ps prev hs hps htry
    simp only [inlineTagTry] at htry
    cases htp : tagPairTry name s with
    | none => rw [htp] at htry; simp at htry
    | some pr =>
      obtain ⟨plen, cap⟩ := pr
      rw [htp] at htry
      injection htry with htry
      injection htry with h1 h2
      subst h1
      subst h2
      obtain ⟨hl1, hdrop, hcap⟩ := tagPair_master hs htp
      refine ⟨hl1, hdrop, ?_, hps⟩
      show wkn none (wrapL ++ cap ++ wrapR) = true
      exact wkn_glue (wkn_glue (wkn_of_not_nul hwL) hcap) (wkn_of_not_nul hwR)

theorem htmlLiTry_wk : WScan htmlLiTry := by
  constructor
  · intro c cs hc
    have h : c ≠ '<' := ne_of_tagL hc (by decide)
    cases cs with
    | nil => rfl
    | cons c1 cs1 =>
      cases cs1 with
      | nil => rfl
      | cons c2 cs2 =>
        simp only [htmlLiTry, liOpenLen]
        rw [if_neg (fun hcond => h (by
          rw [Bool.and_eq_true, Bool.and_eq_true] at hcond
          simpa using hcond.1.1))]
  · intro s len build ps prev hs hps htry
    simp only [htmlLiTry] at htry
    split at htry
    · rename_i ol holen
      split at htry
      · rename_i n k hlf
        injection htry with htry
        injection htry with h1 h2
        subst h1
        subst h2
        simp only [liOpenLen] at holen
        split at holen
        · rename_i c0 c1 c2 rest
          split at holen
          · rename_i hcond
            split at holen
            · rename_i r2 heq
              injection holen with holen
              subst holen
              rw [Bool.and_eq_true, Bool.and_eq_true] at hcond
              have hc0 : c0 = '<' := by simpa using hcond.1.1
              subst hc0
              have hiw := takeWhile_decomp (· != '>') rest
              rw [heq] at hiw
              have hD : List.drop (3 + (List.takeWhile (· != '>') rest).length + 1)
                  ('<' :: c1 :: c2 :: rest) = r2 := by
                rw [show 3 + (List.takeWhile (· != '>') rest).length + 1 =
                  (List.takeWhile (· != '>') rest).length + 1 + 1 + 1 + 1 from by omega]
                rw [List.drop_succ_cons, List.drop_succ_cons, List.drop_succ_cons]
                nth_rewrite 2 [hiw]
                exact drop_append_cons _ '>' _
              rw [hD] at hlf
              obtain ⟨hk, hciC⟩ := ciCloseM_spec (lazyFind_spec hlf)
              have hk' : k = 5 := by simpa using hk
              subst hk'
              have hle2 : 5 ≤ (List.drop n r2).length := by simpa using ciPfx_le hciC
              have hld : (List.drop n r2).length = r2.length - n := by
                rw [List.length_drop]
              have hnle : n ≤ r2.length := by omega
              have e2 : r2 = List.take n r2 ++ List.drop n r2 :=
                (List.take_append_drop n r2).symm
              have e3 : List.drop n r2 =
                  List.take 5 (List.drop n r2) ++ List.drop 5 (List.drop n r2) :=
                (List.take_append_drop 5 (List.drop n r2)).symm
              have hdecA : '<' :: c1 :: c2 :: rest =
                  (('<' :: c1 :: c2 :: (List.takeWhile (· != '>') rest ++
                    ('>' :: (List.take n r2 ++ List.take 5 (List.drop n r2))))) : Str) ++
                  List.drop 5 (List.drop n r2) := by
                conv_lhs => rw [hiw]
                conv_lhs => rw [e2]
                conv_lhs => rw [e3]
                simp [List.append_assoc]
              obtain ⟨cl, hcl, hclf⟩ := ciPfx_take_last hciC
                (show ((['<', '/', 'l', 'i', '>']) : Str).getLast? = some '>' from rfl)
              rw [show ((['<', '/', 'l', 'i', '>']) : Str).length = 5 from rfl] at hcl
              have hMne : List.take 5 (List.drop n r2) ≠ [] := by
                intro hnil
                rw [hnil] at hcl
                exact Option.noConfusion hcl
              have hAlast : (('<' :: c1 :: c2 :: (List.takeWhile (· != '>') rest ++
                  ('>' :: (List.take n r2 ++ List.take 5 (List.drop n r2))))) : Str).getLast? =
                  some cl := by
                rw [show (('<' :: c1 :: c2 :: (List.takeWhile (· != '>') rest ++
                  ('>' :: (List.take n r2 ++ List.take 5 (List.drop n r2))))) : Str) =
                  ['<', c1, c2] ++ (List.takeWhile (· != '>') rest ++
                  ('>' :: (List.take n r2 ++ List.take 5 (List.drop n r2)))) from rfl]
                rw [getLast?_append_right (by simp)]
                rw [getLast?_append_right (by simp)]
                rw [show (('>' :: (List.take n r2 ++ List.take 5 (List.drop n r2))) : Str) =
                  ['>'] ++ (List.take n r2 ++ List.take 5 (List.drop n r2)) from rfl]
                rw [getLast?_append_right
                  (fun hcon => hMne (List.append_eq_nil.mp hcon).2)]
                rw [getLast?_append_right hMne]
                exact hcl
              have hsC : wkn prev ((('<' :: c1 :: c2 ::
                  (List.takeWhile (· != '>') rest ++ ['>'])) : Str) ++
                  (List.take n r2 ++ List.drop n r2)) = true := by
                have hs2 := hs
                rw [hiw] at hs2
                rw [e2] at hs2
                have hre : (('<' :: c1 :: c2 ::
                    (List.takeWhile (· != '>') rest ++ ['>'])) : Str) ++
                    (List.take n r2 ++ List.drop n r2) =
                    '<' :: c1 :: c2 :: ((List.takeWhile (· != '>') rest ++ ['>']) ++
                      (List.take n r2 ++ List.drop n r2)) := rfl
                rw [hre, List.append_assoc]
                exact hs2
              have hA0last : (('<' :: c1 :: c2 ::
                  (List.takeWhile (· != '>') rest ++ ['>'])) : Str).getLast? = some '>' := by
                rw [show (('<' :: c1 :: c2 ::
                  (List.takeWhile (· != '>') rest ++ ['>'])) : Str) =
                  ['<', c1, c2] ++ (List.takeWhile (· != '>') rest ++ ['>']) from rfl]
                rw [getLast?_append_right (by simp), getLast?_append_right (by simp)]
                rfl
              have hB : ∀ d, (List.drop n r2).head? = some d → tagL d = false := by
                intro d hd
                cases hu : List.drop n r2 with
                | nil => rw [hu] at hd; exact Option.noConfusion hd
                | cons e0 u' =>
                  have hciC2 := hciC
                  rw [hu] at hciC2 hd
                  injection hd with hd
                  subst hd
                  simp only [ciPfx, Bool.and_eq_true] at hciC2
                  have hf : foldC e0 = '<' := by simpa using hciC2.1
                  cases htl : tagL e0 with
                  | false => rfl
                  | true =>
                    exfalso
                    rcases tagL_cases htl with hq | hq | hq | hq | hq <;> subst hq <;>
                      exact absurd hf (by decide)
              have hcontent : wkn none (List.take n r2) = true := by
                refine content_of_append hsC (by simp) ?_ hB
                intro e hg
                rw [hA0last] at hg
                injection hg with hg
                rw [← hg]
                decide
              refine ⟨by omega, ?_, ?_, hps⟩
              · refine fire_suffix hdecA
                  (by simp only [List.length_append, List.length_cons, List.length_nil,
                        List.length_take]
                      omega)
                  hs (by simp) (fun e hg => ?_)
                rw [hAlast] at hg
                injection hg with hg
                rw [← hg]
                cases hdig : cl.isDigit with
                | false => rfl
                | true => exact absurd hclf (foldC_not_digit hdig)
              · show wkn none (bulletC :: ' ' :: List.take n
                  (List.drop (3 + (List.takeWhile (· != '>') rest).length + 1)
                    ('<' :: c1 :: c2 :: rest)) ++ ['\n']) = true
                rw [hD]
                exact span_wk [bulletC, ' '] ['\n'] (by decide) (by decide) hcontent
            · exact Option.noConfusion holen
          · exact Option.noConfusion holen
        · exact Option.noConfusion holen
      · exact Option.noConfusion htry
    · exact Option.noConfusion htry

theorem hCloseM_spec {t : Str} {k : Nat} (h : hCloseM t = some k) :
    k = 5 ∧ ∃ b c d t2, t = '<' :: b :: c :: d :: '>' :: t2 := by
  simp only [hCloseM] at h
  split at h
  · rename_i a b c d e t2
    split at h
    · rename_i hcond
      injection h with h
      rw [Bool.and_eq_true, Bool.and_eq_true, Bool.and_eq_true, Bool.and_eq_true] at hcond
      have ha : a = '<' := by simpa using hcond.1.1.1.1
      have he : e = '>' := by simpa using hcond.2
      subst ha
      subst he
      exact ⟨h.symm, b, c, d, t2, rfl⟩
    · exact Option.noConfusion h
  · exact Option.noConfusion h

theorem htmlHeadingTry_wk : WScan htmlHeadingTry := by
  constructor
  · intro c cs hc
    have h : c ≠ '<' := ne_of_tagL hc (by decide)
    cases cs with
    | nil => rfl
    | cons c1 cs1 =>
      cases cs1 with
      | nil => rfl
      | cons c2 cs2 =>
        simp only [htmlHeadingTry, hOpenLen]
        rw [if_neg (fun hcond => h (by
          rw [Bool.and_eq_true, Bool.and_eq_true] at hcond
          simpa using hcond.1.1))]
  · intro s len build ps prev hs hps htry
    simp only [htmlHeadingTry] at htry
    split at htry
    · rename_i ol holen
      split at htry
      · rename_i n k hlf
        injection htry with htry
        injection htry with h1 h2
        subst h1
        subst h2
        simp only [hOpenLen] at holen
        split at holen
        · rename_i c0 c1 c2 rest
          split at holen
          · rename_i hcond
            split at holen
            · rename_i r2 heq
              injection holen with holen
              subst holen
              rw [Bool.and_eq_true, Bool.and_eq_true] at hcond
              have hc0 : c0 = '<' := by simpa using hcond.1.1
              subst hc0
              have hiw := takeWhile_decomp (· != '>') rest
              rw [heq] at hiw
              have hD : List.drop (3 + (List.takeWhile (· != '>') rest).length + 1)
                  ('<' :: c1 :: c2 :: rest) = r2 := by
                rw [show 3 + (List.takeWhile (· != '>') rest).length + 1 =
                  (List.takeWhile (· != '>') rest).length + 1 + 1 + 1 + 1 from by omega]
                rw [List.drop_succ_cons, List.drop_succ_cons, List.drop_succ_cons]
                nth_rewrite 2 [hiw]
                exact drop_append_cons _ '>' _
              rw [hD] at hlf
              obtain ⟨hk, b0, d0, e0, t2, hstruct⟩ := hCloseM_spec (lazyFind_spec hlf)
              subst hk
              have hlen5 : (List.drop n r2).length = t2.length + 5 := by
                rw [hstruct]
                simp
              have hld : (List.drop n r2).length = r2.length - n := by
                rw [List.length_drop]
              have hnle : n ≤ r2.length := by omega
              have e2 : r2 = List.take n r2 ++ List.drop n r2 :=
                (List.take_append_drop n r2).symm
              have hdecA : '<' :: c1 :: c2 :: rest =
                  (('<' :: c1 :: c2 :: (List.takeWhile (· != '>') rest ++
                    ('>' :: (List.take n r2 ++ ['<', b0, d0, e0, '>'])))) : Str) ++ t2 := by
                conv_lhs => rw [hiw]
                conv_lhs => rw [e2]
                conv_lhs => rw [hstruct]
                simp [List.append_assoc]
              have hsC : wkn prev ((('<' :: c1 :: c2 ::
                  (List.takeWhile (· != '>') rest ++ ['>'])) : Str) ++
                  (List.take n r2 ++ List.drop n r2)) = true := by
                have hs2 := hs
                rw [hiw] at hs2
                rw [e2] at hs2
                have hre : (('<' :: c1 :: c2 ::
                    (List.takeWhile (· != '>') rest ++ ['>'])) : Str) ++
                    (List.take n r2 ++ List.drop n r2) =
                    '<' :: c1 :: c2 :: ((List.takeWhile (· != '>') rest ++ ['>']) ++
                      (List.take n r2 ++ List.drop n r2)) := rfl
                rw [hre, List.append_assoc]
                exact hs2
              have hA0last : (('<' :: c1 :: c2 ::
                  (List.takeWhile (· != '>') rest ++ ['>'])) : Str).getLast? = some '>' := by
                rw [show (('<' :: c1 :: c2 ::
                  (List.takeWhile (· != '>') rest ++ ['>'])) : Str) =
                  ['<', c1, c2] ++ (List.takeWhile (· != '>') rest ++ ['>']) from rfl]
                rw [getLast?_append_right (by simp), getLast?_append_right (by simp)]
                rfl
              have hcontent : wkn none (List.take n r2) = true := by
                refine content_of_append hsC (by simp) ?_ ?_
                · intro e hg
                  rw [hA0last] at hg
                  injection hg with hg
                  rw [← hg]
                  decide
                · intro d hd
                  rw [hstruct] at hd
                  have hd2 : '<' = d := by simpa using hd
                  rw [← hd2]
                  decide
              refine ⟨by omega, ?_, ?_, ?_⟩
              · refine fire_suffix hdecA
                  (by simp only [List.length_append, List.length_cons, List.length_nil,
                        List.length_take]
                      omega)
                  hs (by simp) (fun e hg => ?_)
                have hAlast : (('<' :: c1 :: c2 :: (List.takeWhile (· != '>') rest ++
                    ('>' :: (List.take n r2 ++ ['<', b0, d0, e0, '>'])))) : Str).getLast? =
                    some '>' := by
                  rw [show (('<' :: c1 :: c2 :: (List.takeWhile (· != '>') rest ++
                    ('>' :: (List.take n r2 ++ ['<', b0, d0, e0, '>'])))) : Str) =
                    ['<', c1, c2] ++ (List.takeWhile (· != '>') rest ++
                    ('>' :: (List.take n r2 ++ ['<', b0, d0, e0, '>']))) from rfl]
                  rw [getLast?_append_right (by simp), getLast?_append_right (by simp)]
                  rw [show (('>' :: (List.take n r2 ++ ['<', b0, d0, e0, '>'])) : Str) =
                    ['>'] ++ (List.take n r2 ++ ['<', b0, d0, e0, '>']) from rfl]
                  rw [getLast?_append_right (by simp), getLast?_append_right (by simp)]
                  rfl
                rw [hAlast] at hg
                injection hg with hg
                rw [← hg]
                decide
              · show wkn none ('\n' :: tokenStr tagBD ps.length ++ ['\n']) = true
                exact wkn_glue (wkn_cons_of (by decide) (wkn_tokenStr (by simp [allTags])))
                  (wkn_of_not_nul (by decide))
              · refine PsW_push hps ?_
                show wkn none (zws :: starC :: List.take n
                  (List.drop (3 + (List.takeWhile (· != '>') rest).length + 1)
                    ('<' :: c1 :: c2 :: rest)) ++ [starC, zws]) = true
                rw [hD]
                exact span_wk [zws, starC] [starC, zws] (by decide) (by decide) hcontent
            · exact Option.noConfusion holen
          · exact Option.noConfusion holen
        · exact Option.noConfusion holen
      · exact Option.noConfusion htry
    · exact Option.noConfusion htry

theorem dropWhile_head_not {p : Char → Bool} : ∀ {l : Str} {c : Char},
    (l.dropWhile p).head? = some c → p c = false := by
  intro l
  induction l with
  | nil => intro c h; exact Option.noConfusion h
  | cons a as ih =>
    intro c h
    rw [List.dropWhile_cons] at h
    split at h
    · exact ih h
    · rename_i hpa
      injection h with h
      rw [Bool.not_eq_true] at hpa
      rw [← h]
      exact hpa

theorem backJ_spec {ws after : Str} {j : Nat} (h : backJ ws after = some j)
    (hne : ws.isEmpty = false) : 1 ≤ j ∧ j ≤ ws.length := by
  rw [backJ] at h
  split at h
  · split at h
    · rename_i j' hj'
      split at h
      · rename_i hge
        injection h with h
        subst h
        obtain ⟨c, t, hd, hp⟩ := lastIdxWhere_spec hj'
        have hlt : j' < ws.length := by
          by_contra hx
          push_neg at hx
          rw [List.drop_eq_nil_of_le hx] at hd
          exact List.noConfusion hd
        exact ⟨hge, by omega⟩
      · exact Option.noConfusion h
    · exact Option.noConfusion h
  · injection h with h
    subst h
    have hwne : ws ≠ [] := by
      intro hnil
      rw [hnil] at hne
      simp at hne
    have := List.length_pos.mpr hwne
    exact ⟨by omega, le_refl _⟩

theorem mdHeadingTry_wk : WScan mdHeadingTry := by
  constructor
  · intro c cs hc
    have hh : (c :: cs).takeWhile (· == '#') = [] := by
      rw [List.takeWhile_cons,
        if_neg (fun hcc => ne_of_tagL hc (show tagL '#' = false by decide)
          (by simpa using hcc))]
    simp only [mdHeadingTry, hh, List.length_nil]
    rw [if_neg (by decide)]
  · intro s len build ps prev hs hps htry
    simp only [mdHeadingTry] at htry
    split at htry
    · rename_i hm
      split at htry
      · exact Option.noConfusion htry
      · rename_i hwse
        split at htry
        · rename_i j hbj
          injection htry with htry
          injection htry with h1 h2
          subst h1
          subst h2
          have hne : (List.takeWhile isWS
              (List.drop (List.takeWhile (· == '#') s).length s)).isEmpty = false := by
            rwa [Bool.not_eq_true] at hwse
          obtain ⟨hj1, hjle⟩ := backJ_spec hbj hne
          have hwsr : (List.takeWhile isWS
              (List.drop (List.takeWhile (· == '#') s).length s)).length ≤
              (List.drop (List.takeWhile (· == '#') s).length s).length :=
            (List.takeWhile_sublist isWS).length_le
          have hjr : j ≤ (List.drop (List.takeWhile (· == '#') s).length s).length := by
            omega
          have hwdec := takeWhile_decomp (· == '#') s
          have hsplit := (List.take_append_drop j
            (List.drop (List.takeWhile (· == '#') s).length s)).symm
          have hcdec := takeWhile_decomp (· != '\n')
            (List.drop j (List.drop (List.takeWhile (· == '#') s).length s))
          have hdecA : s = ((List.takeWhile (· == '#') s ++
              (List.take j (List.drop (List.takeWhile (· == '#') s).length s) ++
                List.takeWhile (· != '\n')
                  (List.drop j (List.drop (List.takeWhile (· == '#') s).length s)))) : Str) ++
              List.drop (List.takeWhile (· != '\n')
                  (List.drop j (List.drop (List.takeWhile (· == '#') s).length s))).length
                (List.drop j (List.drop (List.takeWhile (· == '#') s).length s)) := by
            conv_lhs => rw [hwdec]
            conv_lhs => rw [hsplit]
            conv_lhs => rw [hcdec]
            simp [List.append_assoc]
          have hs2 := hs
          rw [hwdec] at hs2
          rw [hsplit] at hs2
          rw [hcdec] at hs2
          rw [← List.append_assoc] at hs2
          have htkne : List.take j
              (List.drop (List.takeWhile (· == '#') s).length s) ≠ [] := by
            intro hnil
            have hlen := congrArg List.length hnil
            rw [List.length_take, List.length_nil] at hlen
            omega
          have hcontent : wkn none (List.takeWhile (· != '\n')
              (List.drop j (List.drop (List.takeWhile (· == '#') s).length s))) = true := by
            refine content_of_append hs2 ?_ ?_ ?_
            · intro hnil
              rw [List.append_eq_nil] at hnil
              exact htkne hnil.2
            · intro e hg
              rw [getLast?_append_right htkne] at hg
              have hemem : e ∈ List.take j
                  (List.drop (List.takeWhile (· == '#') s).length s) :=
                List.mem_of_mem_getLast? hg
              have hemem2 : e ∈ List.takeWhile isWS
                  (List.drop (List.takeWhile (· == '#') s).length s) := by
                have hwdec2 := takeWhile_decomp isWS
                  (List.drop (List.takeWhile (· == '#') s).length s)
                rw [hwdec2, List.take_append_of_le_length hjle] at hemem
                exact List.mem_of_mem_take hemem
              exact isWS_not_digit (List.mem_takeWhile_imp hemem2)
            · intro d hd
              rw [drop_takeWhile_len] at hd
              have hfail := dropWhile_head_not hd
              simp at hfail
              subst hfail
              decide
          refine ⟨?_, ?_, ?_, ?_⟩
          · omega
          · refine fire_suffix_head hdecA
              (by simp only [List.length_append, List.length_take]
                  omega)
              hs ?_
            intro hcon
            rw [drop_takeWhile_len] at hcon
            have hfail := dropWhile_head_not hcon
            exact absurd hfail (by decide)
          · show wkn none (tokenStr tagBD ps.length) = true
            exact wkn_tokenStr (by simp [allTags])
          · refine PsW_push hps ?_
            exact span_wk [zws, starC] [starC, zws] (by decide) (by decide) hcontent
        · exact Option.noConfusion htry
    · exact Option.noConfusion htry

theorem isQuote_not_digit {c : Char} (h : isQuote c = true) : c.isDigit = false := by
  rw [isQuote, Bool.or_eq_true] at h
  rcases h with h | h
  · have h2 : c = dquoteC := by simpa using h
    subst h2
    decide
  · have h2 : c = quoteC := by simpa using h
    subst h2
    decide

theorem isQuote_not_tagL {c : Char} (h : isQuote c = true) : tagL c = false := by
  rw [isQuote, Bool.or_eq_true] at h
  rcases h with h | h
  · have h2 : c = dquoteC := by simpa using h
    subst h2
    decide
  · have h2 : c = quoteC := by simpa using h
    subst h2
    decide

theorem hrefBack_elim {rest : Str} {r : Nat × Str × Str} : ∀ {J : Nat},
    hrefBack rest J = some r → ∃ j, tryHrefAt rest j = some r := by
  intro J
  induction J with
  | zero => intro h; exact ⟨0, h⟩
  | succ J ih =>
    intro h
    rw [hrefBack] at h
    split at h
    · rename_i r' hr'
      injection h with h
      subst h
      exact ⟨J + 1, hr'⟩
    · exact ih h

theorem tryHrefAt_master {rest : Str} {j len2 : Nat} {url txt : Str} {pv : Option Char}
    (hw : wkn pv rest = true) (h : tryHrefAt rest j = some (len2, url, txt)) :
    1 ≤ len2 ∧ wkn none (List.drop len2 rest) = true ∧
      wkn none url = true ∧ wkn none txt = true := by
  simp only [tryHrefAt] at h
  split at h
  · rename_i hci
    split at h
    · rename_i q r2 heq1
      split at h
      · rename_i hq
        split at h
        · rename_i q2 r3 heq2
          split at h
          · rename_i hq2
            split at h
            · rename_i r4 heq3
              split at h
              · rename_i n k hlf
                injection h with h
                have hA1 : j + 5 + 1 + (List.takeWhile (fun c => !(isQuote c)) r2).length +
                    1 + (List.takeWhile (· != '>') r3).length + 1 + n + k = len2 :=
                  congrArg Prod.fst h
                have hA2 := congrArg Prod.snd h
                have hA21 : List.takeWhile (fun c => !(isQuote c)) r2 = url :=
                  congrArg Prod.fst hA2
                have hA22 : List.take n r4 = txt := congrArg Prod.snd hA2
                subst hA1
                subst hA21
                subst hA22
                obtain ⟨hk, hciC⟩ := ciCloseM_spec (lazyFind_spec hlf)
                have hk' : k = 4 := by simpa using hk
                subst hk'
                have h5le : 5 ≤ (List.drop j rest).length := by simpa using ciPfx_le hci
                have hdl1 : (List.drop j rest).length = rest.length - j := by
                  rw [List.length_drop]
                have hjle : j ≤ rest.length := by omega
                have h4le : 4 ≤ (List.drop n r4).length := by simpa using ciPfx_le hciC
                have hdl4 : (List.drop n r4).length = r4.length - n := by
                  rw [List.length_drop]
                have hnle : n ≤ r4.length := by omega
                have ej : rest = List.take j rest ++ List.drop j rest :=
                  (List.take_append_drop j rest).symm
                have e5 := (List.take_append_drop 5 (List.drop j rest)).symm
                rw [heq1] at e5
                have eu := takeWhile_decomp (fun c => !(isQuote c)) r2
                rw [heq2] at eu
                have ea := takeWhile_decomp (· != '>') r3
                rw [heq3] at ea
                have et : r4 = List.take n r4 ++ List.drop n r4 :=
                  (List.take_append_drop n r4).symm
                have em : List.drop n r4 =
                    List.take 4 (List.drop n r4) ++ List.drop 4 (List.drop n r4) :=
                  (List.take_append_drop 4 (List.drop n r4)).symm
                have hdecA : rest = (((List.take j rest ++
                    (List.take 5 (List.drop j rest) ++
                      (q :: (List.takeWhile (fun c => !(isQuote c)) r2 ++
                        (q2 :: (List.takeWhile (· != '>') r3 ++
                          ('>' :: List.take n r4))))))) : Str) ++
                    List.take 4 (List.drop n r4)) ++ List.drop 4 (List.drop n r4) := by
                  conv_lhs => rw [ej]
                  conv_lhs => rw [e5]
                  conv_lhs => rw [eu]
                  conv_lhs => rw [ea]
                  conv_lhs => rw [et]
                  conv_lhs => rw [em]
                  simp [List.append_assoc]
                obtain ⟨cl, hcl, hclf⟩ := ciPfx_take_last hciC
                  (show ((['<', '/', 'a', '>']) : Str).getLast? = some '>' from rfl)
                rw [show ((['<', '/', 'a', '>']) : Str).length = 4 from rfl] at hcl
                have hMne : List.take 4 (List.drop n r4) ≠ [] := by
                  intro hnil
                  rw [hnil] at hcl
                  exact Option.noConfusion hcl
                have hB : ∀ d, (List.take 4 (List.drop n r4) ++
                    List.drop 4 (List.drop n r4)).head? = some d → tagL d = false := by
                  intro d hd
                  rw [List.take_append_drop] at hd
                  cases hu : List.drop n r4 with
                  | nil => rw [hu] at hd; exact Option.noConfusion hd
                  | cons e0 u' =>
                    have hciC2 := hciC
                    rw [hu] at hciC2 hd
                    injection hd with hd
                    subst hd
                    simp only [ciPfx, Bool.and_eq_true] at hciC2
                    have hf : foldC e0 = '<' := by simpa using hciC2.1
                    cases htl : tagL e0 with
                    | false => rfl
                    | true =>
                      exfalso
                      rcases tagL_cases htl with hz | hz | hz | hz | hz <;> subst hz <;>
                        exact absurd hf (by decide)
                have hw2 := hw
                rw [ej] at hw2
                rw [e5] at hw2
                rw [eu] at hw2
                rw [ea] at hw2
                rw [et] at hw2
                rw [em] at hw2
                have w1 := wkn_append_right hw2
                have w2 := wkn_append_right w1
                have w3 := wkn_tail w2
                have hurl : wkn none (List.takeWhile (fun c => !(isQuote c)) r2) = true :=
                  wkn_ctx_swap (isQuote_not_digit hq)
                    (wkn_append_left w3 (cons_head_nonTagL (isQuote_not_tagL hq2)))
                have w4 := wkn_append_right w3
                have w5 := wkn_tail w4
                have w6 := wkn_append_right w5
                have w7 := wkn_tail w6
                have htxt : wkn none (List.take n r4) = true :=
                  wkn_ctx_swap (by decide) (wkn_append_left w7 hB)
                refine ⟨by omega, ?_, hurl, htxt⟩
                refine fire_suffix hdecA
                  (by simp only [List.length_append, List.length_cons, List.length_nil,
                        List.length_take]
                      omega)
                  hw (by simp) (fun e hg => ?_)
                rw [getLast?_append_right hMne] at hg
                rw [hcl] at hg
                injection hg with hg
                rw [← hg]
                cases hdig : cl.isDigit with
                | false => rfl
                | true => exact absurd hclf (foldC_not_digit hdig)
              · exact Option.noConfusion h
            · exact Option.noConfusion h
          · exact Option.noConfusion h
        · exact Option.noConfusion h
      · exact Option.noConfusion h
    · exact Option.noConfusion h
  · exact Option.noConfusion h

theorem htmlLinkTry_wk : WScan htmlLinkTry := by
  constructor
  · intro c cs hc
    rcases tagL_cases hc with h | h | h | h | h <;> subst h
    all_goals
      cases cs with
      | nil => rfl
      | cons c1 cs1 =>
        cases cs1 with
        | nil => rfl
        | cons c2 cs2 => rfl
  · intro s len build ps prev hs hps htry
    simp only [htmlLinkTry] at htry
    split at htry
    · rename_i a0 w rest
      split at htry
      · rename_i hcond
        split at htry
        · rename_i len2 url txt hhb
          injection htry with htry
          injection htry with h1 h2
          subst h1
          subst h2
          obtain ⟨j, htr⟩ := hrefBack_elim hhb
          have hw3 : wkn (some w) rest = true := wkn_tail (wkn_tail (wkn_tail hs))
          obtain ⟨hl1, hdrop, hurl, htxt⟩ := tryHrefAt_master hw3 htr
          refine ⟨by omega, ?_, ?_, ?_⟩
          · rw [show 3 + len2 = len2 + 1 + 1 + 1 from by omega]
            rw [List.drop_succ_cons, List.drop_succ_cons, List.drop_succ_cons]
            exact hdrop
          · show wkn none (tokenStr tagLK ps.length) = true
            exact wkn_tokenStr (by simp [allTags])
          · refine PsW_push hps ?_
            show wkn none ('<' :: url ++ '|' :: stripAngle txt ++ ['>']) = true
            have htxtF : wkn none (stripAngle txt) = true := by
              simp only [stripAngle]
              refine wkn_filter (by decide) ?_ ?_ htxt
              · intro c hc2
                rcases tagL_cases hc2 with h | h | h | h | h <;> subst h <;> decide
              · intro c hpc
                simp at hpc
                by_cases h : c = '<'
                · subst h; decide
                · have h2 := hpc h
                  subst h2; decide
            exact wkn_glue (wkn_glue (wkn_cons_of (by decide) (wkn_ctx_mono hurl))
                (wkn_cons_of (by decide) (wkn_ctx_mono htxtF)))
              (wkn_of_not_nul (by decide))
        · exact Option.noConfusion htry
      · exact Option.noConfusion htry
    · exact Option.noConfusion htry

theorem wkn_prefix_of_last_not_nul : ∀ {a : Str} {b : Str} {p : Option Char},
    wkn p (a ++ b) = true → (∀ c, a.getLast? = some c → c ≠ nulC) → wkn p a = true := by
  intro a
  induction a with
  | nil => intro b p _ _; rfl
  | cons c cs ih =>
    intro b p h hl
    rw [List.cons_append, wkn, Bool.and_eq_true] at h
    rw [wkn, Bool.and_eq_true]
    cases cs with
    | nil =>
      refine ⟨?_, rfl⟩
      have hcn : c ≠ nulC := hl c rfl
      rw [headOK]
      simp only [Bool.or_eq_true, bne_iff_ne, ne_eq]
      exact Or.inl (Or.inl hcn)
    | cons d ds =>
      refine ⟨?_, ih h.2 (fun e hg => hl e (by
        rw [show ((c :: d :: ds) : Str) = [c] ++ (d :: ds) from rfl]
        rw [getLast?_append_right (by simp)]
        exact hg))⟩
      have h1 := h.1
      rw [headOK] at h1 ⊢
      simp only [Bool.or_eq_true] at h1 ⊢
      rcases h1 with (h1 | h1) | h1
      · exact Or.inl (Or.inl h1)
      · rw [List.cons_append, tagLHead] at h1
        rw [tagLHead]
        exact Or.inl (Or.inr h1)
      · exact Or.inr h1

theorem wkn_ctx_gen {p q : Option Char} {t : Str} (hp : digitOpt p = false)
    (h : wkn p t = true) : wkn q t = true := by
  cases p with
  | none => exact wkn_ctx_mono h
  | some c =>
    have hc : c.isDigit = false := hp
    exact wkn_ctx_swap hc h

theorem takeWhile_append_len {p : Char → Bool} : ∀ {a b : Str},
    a.length < (List.takeWhile p (a ++ b)).length →
    ∃ d, b.head? = some d ∧ p d = true := by
  intro a
  induction a with
  | nil =>
    intro b h
    cases b with
    | nil => simp at h
    | cons d ds =>
      rw [List.nil_append, List.takeWhile_cons] at h
      split at h
      · rename_i hpd
        exact ⟨d, rfl, hpd⟩
      · simp at h
  | cons x xs ih =>
    intro b h
    rw [List.cons_append, List.takeWhile_cons] at h
    split at h
    · rename_i hpx
      rw [List.length_cons, List.length_cons] at h
      exact ih (by omega)
    · simp at h

theorem dropTrailing_decomp (p : Char → Bool) (x : Str) :
    x = dropTrailing p x ++ (List.takeWhile p x.reverse).reverse := by
  rw [dropTrailing]
  conv_lhs => rw [← List.reverse_reverse x]
  conv_lhs => rw [← List.takeWhile_append_dropWhile (p := p) (l := x.reverse)]
  rw [List.reverse_append]

theorem wkn_dropWhile_ws {t : Str} (h : wkn none t = true) :
    wkn none (t.dropWhile isWS) = true := by
  have hdec := takeWhile_decomp isWS t
  rw [drop_takeWhile_len] at hdec
  have h2 := h
  rw [hdec] at h2
  have h3 := wkn_append_right h2
  cases hlc : lastC none (List.takeWhile isWS t) with
  | none => rw [hlc] at h3; exact h3
  | some c =>
    rw [hlc] at h3
    have hcw : isWS c = true := by
      rw [lastC] at hlc
      split at hlc
      · exact Option.noConfusion hlc
      · exact List.mem_takeWhile_imp (List.mem_of_mem_getLast? hlc)
    exact wkn_ctx_swap (isWS_not_digit hcw) h3

theorem wkn_dropTrailing {p : Char → Bool} (hp : ∀ c, p c = true → tagL c = false)
    {t : Str} (h : wkn none t = true) : wkn none (dropTrailing p t) = true := by
  have hdec := dropTrailing_decomp p t
  have h2 := h
  rw [hdec] at h2
  refine wkn_append_left h2 ?_
  intro d hd
  have hdm : d ∈ (List.takeWhile p t.reverse).reverse := by
    cases hx : (List.takeWhile p t.reverse).reverse with
    | nil => rw [hx] at hd; exact Option.noConfusion hd
    | cons e es =>
      rw [hx] at hd
      injection hd with hd
      rw [← hd]
      exact List.mem_cons_self _ _
  exact hp d (List.mem_takeWhile_imp (List.mem_reverse.mp hdm))

theorem ws_not_tagL {c : Char} (h : isWS c = true) : tagL c = false := by
  cases htl : tagL c with
  | false => rfl
  | true =>
    rw [tagL_not_ws htl] at h
    exact Bool.noConfusion h

theorem wkn_rustTrim {t : Str} (h : wkn none t = true) : wkn none (rustTrim t) = true := by
  rw [rustTrim]
  exact wkn_dropTrailing (fun c hc => ws_not_tagL hc) (wkn_dropWhile_ws h)

theorem rustLinesG_wk : ∀ (fu : Nat) {m : Str} {prev : Option Char},
    wkn prev m = true → digitOpt prev = false →
    ∀ ℓ ∈ rustLinesG fu m, wkn none ℓ = true := by
  intro fu
  induction fu with
  | zero => intro m prev _ _ ℓ hm; simp [rustLinesG] at hm
  | succ fu ih =>
    intro m prev hw hp ℓ hm
    cases m with
    | nil => simp [rustLinesG] at hm
    | cons c cs =>
      simp only [rustLinesG] at hm
      have hline : wkn none (List.takeWhile (· != '\n') (c :: cs)) = true := by
        have hdec := takeWhile_decomp (· != '\n') (c :: cs)
        have h2 := hw
        rw [hdec] at h2
        have h3 := wkn_append_left h2 (fun d hd => by
          rw [drop_takeWhile_len] at hd
          have hfail := dropWhile_head_not hd
          simp at hfail
          subst hfail
          decide)
        exact wkn_ctx_gen hp h3
      have hline2 : wkn none
          (if (List.takeWhile (· != '\n') (c :: cs)).getLast? == some '\r'
            then (List.takeWhile (· != '\n') (c :: cs)).dropLast
            else List.takeWhile (· != '\n') (c :: cs)) = true := by
        split
        · rename_i hcr
          have hcr' : (List.takeWhile (· != '\n') (c :: cs)).getLast? = some '\r' := by
            simpa using hcr
          have hdl : List.takeWhile (· != '\n') (c :: cs) =
              (List.takeWhile (· != '\n') (c :: cs)).dropLast ++ ['\r'] :=
            (List.dropLast_append_getLast? '\r' hcr').symm
          have h4 := hline
          rw [hdl] at h4
          exact wkn_append_left h4 (fun d hd => by
            have h5 : '\r' = d := by simpa using hd
            rw [← h5]
            decide)
        · exact hline
      split at hm
      · rename_i c2 rest2 heq2
        rw [List.mem_cons] at hm
        rcases hm with hm | hm
        · rw [hm]
          exact hline2
        · have hc2 : c2 = '\n' := by
            have hh : (List.drop (List.takeWhile (· != '\n') (c :: cs)).length
                (c :: cs)).head? = some c2 := by rw [heq2]; rfl
            rw [drop_takeWhile_len] at hh
            have hfail := dropWhile_head_not hh
            simpa using hfail
          have hdec := takeWhile_decomp (· != '\n') (c :: cs)
          rw [heq2] at hdec
          have h2 := hw
          rw [hdec] at h2
          have h3 := wkn_tail (wkn_append_right h2)
          subst hc2
          exact ih h3 (by decide) ℓ hm
      · simp only [List.mem_cons, List.not_mem_nil, or_false] at hm
        rw [hm]
        exact hline2

theorem joinNl_wk : ∀ {ls : List Str}, (∀ ℓ ∈ ls, wkn none ℓ = true) →
    wkn none (joinNl ls) = true := by
  intro ls
  induction ls with
  | nil => intro _; rfl
  | cons l ls ih =>
    intro h
    cases ls with
    | nil => exact h l (by simp)
    | cons l2 ls2 =>
      show wkn none (l ++ '\n' :: joinNl (l2 :: ls2)) = true
      refine wkn_glue (h l (by simp)) ?_
      exact wkn_cons_of (by decide)
        (wkn_ctx_mono (ih (fun x hx => h x (List.mem_cons_of_mem _ hx))))

theorem tableBody_wk {m : Str} (h : wkn none m = true) :
    wkn none (tableBody m) = true := by
  rw [tableBody]
  refine wkn_dropTrailing ?_ ?_
  · intro c hc
    have h2 : c = '\n' := by simpa using hc
    subst h2
    decide
  · refine joinNl_wk ?_
    intro ℓ hℓ
    rw [List.mem_map] at hℓ
    obtain ⟨ℓ0, hℓ0, hmap⟩ := hℓ
    rw [← hmap]
    exact wkn_rustTrim (rustLinesG_wk _ h (by decide) ℓ0 hℓ0)

theorem spTab_sepBody {c : Char} (h : isSpTab c = true) : isSepBody c = true := by
  rw [isSpTab, Bool.or_eq_true] at h
  rcases h with h | h
  · have h2 : c = ' ' := by simpa using h
    subst h2
    decide
  · have h2 : c = '\t' := by simpa using h
    subst h2
    decide

theorem isSpTab_ne_nul {c : Char} (h : isSpTab c = true) : c ≠ nulC := by
  rw [isSpTab, Bool.or_eq_true] at h
  rcases h with h | h
  · have h2 : c = ' ' := by simpa using h
    subst h2
    decide
  · have h2 : c = '\t' := by simpa using h
    subst h2
    decide

theorem isSepBody_not_digit {c : Char} (h : isSepBody c = true) : c.isDigit = false := by
  rw [isSepBody, Bool.or_eq_true, Bool.or_eq_true, Bool.or_eq_true] at h
  rcases h with ((h | h) | h) | h
  · exact isWS_not_digit h
  · have h2 : c = ':' := by simpa using h
    subst h2
    decide
  · have h2 : c = '-' := by simpa using h
    subst h2
    decide
  · have h2 : c = '|' := by simpa using h
    subst h2
    decide

theorem isSepBody_ne_nul {c : Char} (h : isSepBody c = true) : c ≠ nulC := by
  rw [isSepBody, Bool.or_eq_true, Bool.or_eq_true, Bool.or_eq_true] at h
  rcases h with ((h | h) | h) | h
  · exact isWS_ne_nul h
  · have h2 : c = ':' := by simpa using h
    subst h2
    decide
  · have h2 : c = '-' := by simpa using h
    subst h2
    decide
  · have h2 : c = '|' := by simpa using h
    subst h2
    decide

theorem take_app_cons (a : Str) (x : Char) (b : Str) (i : Nat) :
    List.take (a.length + 1 + i) (a ++ (x :: b)) = a ++ (x :: List.take i b) := by
  rw [show a.length + 1 + i = a.length + (1 + i) from by omega]
  rw [List.take_append]
  rw [show List.take (1 + i) (x :: b) = x :: List.take i b from by
    rw [show 1 + i = i + 1 from by omega]
    rw [List.take_succ_cons]]

theorem takeWhile_head {p : Char → Bool} {t : Str} {c : Char} {r : Str}
    (h : List.takeWhile p t = c :: r) : t.head? = some c ∧ p c = true := by
  cases t with
  | nil => exact List.noConfusion h
  | cons a as =>
    rw [List.takeWhile_cons] at h
    split at h
    · rename_i hpa
      injection h with h1 h2
      subst h1
      exact ⟨rfl, hpa⟩
    · exact List.noConfusion h

theorem rowLineLen_spec {t : Str} {len : Nat} (h : rowLineLen t = some len) :
    1 ≤ len ∧ len ≤ t.length ∧
      ∃ c, (List.take len t).getLast? = some c ∧ isSepBody c = true := by
  simp only [rowLineLen] at h
  split at h
  · exact Option.noConfusion h
  · rename_i hem
    split at h
    · rename_i c0 rest0 heq0
      split at h
      · split at h
        · rename_i d0 hgl
          split at h
          · injection h with h
            subst h
            have hem' : (List.drop (List.takeWhile (· != '\n') t).length t).isEmpty =
                false := by
              rwa [Bool.not_eq_true] at hem
            rw [drop_takeWhile_len] at hem'
            cases hdw : List.dropWhile (· != '\n') t with
            | nil => rw [hdw] at hem'; simp at hem'
            | cons dn rn =>
              have hdn : dn = '\n' := by
                have hh : (List.dropWhile (· != '\n') t).head? = some dn := by
                  rw [hdw]
                  rfl
                have hfail := dropWhile_head_not hh
                simpa using hfail
              subst hdn
              have hdec := takeWhile_decomp (· != '\n') t
              rw [drop_takeWhile_len, hdw] at hdec
              have hlen := congrArg List.length hdec
              rw [List.length_append, List.length_cons] at hlen
              refine ⟨by omega, by omega, '\n', ?_, by decide⟩
              have htake : List.take ((List.takeWhile (· != '\n') t).length + 1) t =
                  List.takeWhile (· != '\n') t ++ ['\n'] := by
                nth_rewrite 2 [hdec]
                rw [List.take_append]
                rfl
              rw [htake, getLast?_append_right (by simp)]
              rfl
          · exact Option.noConfusion h
        · exact Option.noConfusion h
      · exact Option.noConfusion h
    · exact Option.noConfusion h

theorem rowLineLen_head {t : Str} {len : Nat} (h : rowLineLen t = some len) :
    ∀ c, t.head? = some c → c ≠ nulC := by
  intro c hc
  simp only [rowLineLen] at h
  split at h
  · exact Option.noConfusion h
  · rename_i hem
    split at h
    · rename_i c0 rest0 heq0
      split at h
      · rename_i hpipe
        cases hws : List.takeWhile isSpTab (List.takeWhile (· != '\n') t) with
        | nil =>
          rw [hws, List.length_nil, List.drop_zero] at heq0
          obtain ⟨hh, hp⟩ := takeWhile_head heq0
          rw [hh] at hc
          injection hc with hc
          rw [beq_iff_eq] at hpipe
          rw [← hc, hpipe]
          decide
        | cons w ws' =>
          obtain ⟨hh, hp⟩ := takeWhile_head hws
          cases hline : List.takeWhile (· != '\n') t with
          | nil => rw [hline] at hh; exact Option.noConfusion hh
          | cons lc lr =>
            rw [hline] at hh
            injection hh with hh
            obtain ⟨hh2, hp2⟩ := takeWhile_head hline
            rw [hh2] at hc
            injection hc with hc
            rw [← hc, hh]
            exact isSpTab_ne_nul hp
      · exact Option.noConfusion h
    · exact Option.noConfusion h

theorem headerLens_sums : ∀ (fu : Nat) (s : Str) (P Q : List Nat),
    headerLens fu s = P ++ Q → P ≠ [] →
    1 ≤ P.sum ∧ P.sum ≤ s.length ∧
      ∃ c, (List.take P.sum s).getLast? = some c ∧ isSepBody c = true := by
  intro fu
  induction fu with
  | zero =>
    intro s P Q h hne
    cases P with
    | nil => exact absurd rfl hne
    | cons a as => simp [headerLens] at h
  | succ fu ih =>
    intro s P Q h hne
    cases hrow : rowLineLen s with
    | none =>
      rw [headerLens_stop hrow] at h
      cases P with
      | nil => exact absurd rfl hne
      | cons a as => simp at h
    | some len =>
      rw [headerLens_cons hrow] at h
      cases P with
      | nil => exact absurd rfl hne
      | cons a as =>
        rw [List.cons_append] at h
        injection h with h1 h2
        subst h1
        obtain ⟨hr1, hr2, c1, hc1, hc1b⟩ := rowLineLen_spec hrow
        cases as with
        | nil =>
          have hs1 : (([len] : List Nat)).sum = len := by simp
          refine ⟨by omega, by omega, c1, ?_, hc1b⟩
          rw [hs1]
          exact hc1
        | cons a2 as2 =>
          obtain ⟨hq1, hq2, c2, hc2, hc2b⟩ := ih (s.drop len) (a2 :: as2) Q h2 (by simp)
          have hsum : ((len :: a2 :: as2) : List Nat).sum =
              len + ((a2 :: as2) : List Nat).sum := by
            simp
          have hdl : (List.drop len s).length = s.length - len := by rw [List.length_drop]
          refine ⟨by omega, by omega, c2, ?_, hc2b⟩
          rw [hsum, List.take_add]
          rw [getLast?_append_right (fun hnil => by
            rw [hnil] at hc2
            exact Option.noConfusion hc2)]
          exact hc2

theorem sepTail_spec {after : Str}
    (hafter : ∀ d, after.head? = some d → isSepBody d = false) :
    ∀ (fu : Nat) {r2 : Str} {tl : Nat}, sepTail fu r2 after = some tl →
      2 ≤ tl ∧ tl ≤ r2.length := by
  intro fu
  induction fu with
  | zero => intro r2 tl h; exact Option.noConfusion h
  | succ fu ih =>
    intro r2 tl h
    cases hli : lastIdxOf '|' r2 with
    | none =>
      simp only [sepTail, hli] at h
      exact Option.noConfusion h
    | some j =>
      obtain ⟨cj, tj, hdj, hpj⟩ := lastIdxWhere_spec hli
      have hjlt : j < r2.length := by
        by_contra hx
        push_neg at hx
        rw [List.drop_eq_nil_of_le hx] at hdj
        exact List.noConfusion hdj
      rw [sepTail_succ hli] at h
      split at h
      · rename_i rr heqn
        injection h with h
        subst h
        have hAL : ((r2.drop (j + 1) ++ after).takeWhile isSpTab).length ≤
            (r2.drop (j + 1)).length := by
          by_contra hx
          push_neg at hx
          obtain ⟨d, hdh, hdp⟩ := takeWhile_append_len hx
          have h1 := hafter d hdh
          have h2 := spTab_sepBody hdp
          rw [h1] at h2
          exact Bool.noConfusion h2
        have hANe : ((r2.drop (j + 1) ++ after).takeWhile isSpTab).length ≠
            (r2.drop (j + 1)).length := by
          intro heqL
          rw [heqL, List.drop_left] at heqn
          have h1 := hafter '\n' (by rw [heqn]; rfl)
          exact absurd h1 (by decide)
        have hdrop : (r2.drop (j + 1)).length = r2.length - (j + 1) := by
          rw [List.length_drop]
        omega
      · obtain ⟨h1, h2⟩ := ih h
        rw [List.length_take] at h2
        exact ⟨h1, by omega⟩

theorem sepLen_spec {t : Str} {slen : Nat} (h : sepLen t = some slen) :
    1 ≤ slen ∧ slen ≤ t.length ∧
      ∃ c, (List.take slen t).getLast? = some c ∧ isSepBody c = true := by
  simp only [sepLen] at h
  split at h
  · rename_i c0 rest heq0
    split at h
    · rename_i hpipe
      split at h
      · rename_i d0 rest2 heq2
        split at h
        · rename_i hdash
          split at h
          · rename_i tl hst
            injection h with h
            subst h
            have hafter : ∀ d, (List.drop (List.takeWhile isSepBody rest2).length
                rest2).head? = some d → isSepBody d = false := by
              intro d hd
              rw [drop_takeWhile_len] at hd
              exact dropWhile_head_not hd
            obtain ⟨htl2, htlle⟩ := sepTail_spec hafter _ hst
            have hr2le : (List.takeWhile isSepBody rest2).length ≤ rest2.length :=
              (List.takeWhile_sublist isSepBody).length_le
            rw [beq_iff_eq] at hpipe hdash
            subst hpipe
            subst hdash
            have hw := takeWhile_decomp isSpTab t
            rw [heq0] at hw
            have hr1 := takeWhile_decomp isWsColon rest
            rw [heq2] at hr1
            have ht2 : t = List.takeWhile isSpTab t ++
                ('|' :: (List.takeWhile isWsColon rest ++ ('-' :: rest2))) := by
              conv_lhs => rw [hw]
              conv_lhs => rw [hr1]
            have hlt := congrArg List.length ht2
            rw [List.length_append, List.length_cons, List.length_append,
              List.length_cons] at hlt
            have htr : List.take tl rest2 =
                List.take tl (List.takeWhile isSepBody rest2) := by
              have hr2d := takeWhile_decomp isSepBody rest2
              conv_lhs => rw [hr2d]
              rw [List.take_append_of_le_length htlle]
            have hne2 : List.take tl rest2 ≠ [] := by
              intro hnil
              have hln := congrArg List.length hnil
              rw [List.length_take, List.length_nil] at hln
              omega
            have htake : List.take ((List.takeWhile isSpTab t).length + 1 +
                (List.takeWhile isWsColon rest).length + 1 + tl) t =
                List.takeWhile isSpTab t ++
                  ('|' :: (List.takeWhile isWsColon rest ++
                    ('-' :: List.take tl rest2))) := by
              have h1 : List.take ((List.takeWhile isSpTab t).length + 1 +
                  (List.takeWhile isWsColon rest).length + 1 + tl) t =
                  List.take ((List.takeWhile isSpTab t).length + 1 +
                    (List.takeWhile isWsColon rest).length + 1 + tl)
                    (List.takeWhile isSpTab t ++
                      ('|' :: (List.takeWhile isWsColon rest ++ ('-' :: rest2)))) := by
                rw [← ht2]
              rw [h1]
              rw [show (List.takeWhile isSpTab t).length + 1 +
                  (List.takeWhile isWsColon rest).length + 1 + tl =
                  (List.takeWhile isSpTab t).length + 1 +
                    ((List.takeWhile isWsColon rest).length + 1 + tl) from by omega]
              rw [take_app_cons]
              rw [take_app_cons]
            cases hgl2 : (List.take tl rest2).getLast? with
            | none => exact absurd (List.getLast?_eq_none_iff.mp hgl2) hne2
            | some cL =>
              have hcmem : cL ∈ List.takeWhile isSepBody rest2 := by
                have hm1 := List.mem_of_mem_getLast? hgl2
                rw [htr] at hm1
                exact List.mem_of_mem_take hm1
              refine ⟨by omega, by omega, cL, ?_, List.mem_takeWhile_imp hcmem⟩
              rw [htake]
              rw [getLast?_append_right (by simp)]
              rw [show (('|' :: (List.takeWhile isWsColon rest ++
                ('-' :: List.take tl rest2))) : Str) =
                ['|'] ++ (List.takeWhile isWsColon rest ++
                  ('-' :: List.take tl rest2)) from rfl]
              rw [getLast?_append_right (by simp), getLast?_append_right (by simp)]
              rw [show (('-' :: List.take tl rest2) : Str) =
                ['-'] ++ List.take tl rest2 from rfl]
              rw [getLast?_append_right hne2]
              exact hgl2
          · exact Option.noConfusion h
        · exact Option.noConfusion h
      · exact Option.noConfusion h
    · exact Option.noConfusion h
  · exact Option.noConfusion h

theorem bodyLineLen_spec {t : Str} {len : Nat} {b : Bool}
    (h : bodyLineLen t = some (len, b)) :
    1 ≤ len ∧ len ≤ t.length ∧
      ∃ c, (List.take len t).getLast? = some c ∧ isSepBody c = true := by
  simp only [bodyLineLen] at h
  split at h
  · rename_i c0 rest heq0
    split at h
    · rename_i hpipe
      split at h
      · rename_i j hj
        split at h
        · rename_i hge
          obtain ⟨cj, tj, hdj, hpj⟩ := lastIdxWhere_spec hj
          have hjlt : j < rest.length := by
            by_contra hx
            push_neg at hx
            rw [List.drop_eq_nil_of_le hx] at hdj
            exact List.noConfusion hdj
          have hlinedec := takeWhile_decomp isSpTab (List.takeWhile (· != '\n') t)
          rw [heq0] at hlinedec
          have hll := congrArg List.length hlinedec
          rw [List.length_append, List.length_cons] at hll
          have hal : (List.drop (j + 1) rest).length = rest.length - (j + 1) := by
            rw [List.length_drop]
          split at h
          · rename_i hcond
            injection h with h
            have hf : (List.takeWhile isSpTab (List.takeWhile (· != '\n') t)).length + 1 +
                j + 1 + ((rest.drop (j + 1)).takeWhile isSpTab).length + 1 = len :=
              congrArg Prod.fst h
            have hb : true = b := congrArg Prod.snd h
            subst hf
            rw [Bool.and_eq_true] at hcond
            have hws2a : ((rest.drop (j + 1)).takeWhile isSpTab).length =
                (rest.drop (j + 1)).length := by
              have := hcond.1
              rwa [beq_iff_eq] at this
            have hemx : (List.drop (List.takeWhile (· != '\n') t).length t).isEmpty =
                false := by
              have := hcond.2
              simpa using this
            rw [drop_takeWhile_len] at hemx
            cases hdw : List.dropWhile (· != '\n') t with
            | nil => rw [hdw] at hemx; simp at hemx
            | cons dn rn =>
              have hdn : dn = '\n' := by
                have hh : (List.dropWhile (· != '\n') t).head? = some dn := by
                  rw [hdw]
                  rfl
                have hfail := dropWhile_head_not hh
                simpa using hfail
              subst hdn
              have hdec := takeWhile_decomp (· != '\n') t
              rw [drop_takeWhile_len, hdw] at hdec
              have hlen := congrArg List.length hdec
              rw [List.length_append, List.length_cons] at hlen
              have hcnt : (List.takeWhile isSpTab (List.takeWhile (· != '\n') t)).length +
                  1 + j + 1 + ((rest.drop (j + 1)).takeWhile isSpTab).length + 1 =
                  (List.takeWhile (· != '\n') t).length + 1 := by
                omega
              refine ⟨by omega, by omega, '\n', ?_, by decide⟩
              rw [hcnt]
              have htake : List.take ((List.takeWhile (· != '\n') t).length + 1) t =
                  List.takeWhile (· != '\n') t ++ ['\n'] := by
                nth_rewrite 2 [hdec]
                rw [List.take_append]
                rfl
              rw [htake, getLast?_append_right (by simp)]
              rfl
          · rename_i hcond
            injection h with h
            have hf : (List.takeWhile isSpTab (List.takeWhile (· != '\n') t)).length + 1 +
                j + 1 + ((rest.drop (j + 1)).takeWhile isSpTab).length = len :=
              congrArg Prod.fst h
            have hb : false = b := congrArg Prod.snd h
            subst hf
            rw [beq_iff_eq] at hpipe
            subst hpipe
            have htdec := takeWhile_decomp (· != '\n') t
            rw [drop_takeWhile_len] at htdec
            have ht2 : t = List.takeWhile isSpTab (List.takeWhile (· != '\n') t) ++
                ('|' :: (rest ++ List.dropWhile (· != '\n') t)) := by
              conv_lhs => rw [htdec]
              conv_lhs => rw [hlinedec]
              simp [List.append_assoc]
            have hrs : rest = List.take (j + 1) rest ++ List.drop (j + 1) rest :=
              (List.take_append_drop (j + 1) rest).symm
            have hadec := takeWhile_decomp isSpTab (List.drop (j + 1) rest)
            have ht3 : t = (List.takeWhile isSpTab (List.takeWhile (· != '\n') t) ++
                ('|' :: (List.take (j + 1) rest ++
                  (rest.drop (j + 1)).takeWhile isSpTab))) ++
                (List.drop ((rest.drop (j + 1)).takeWhile isSpTab).length
                    (List.drop (j + 1) rest) ++
                  List.dropWhile (· != '\n') t) := by
              conv_lhs => rw [ht2]
              conv_lhs => rw [hrs]
              conv_lhs => rw [hadec]
              simp [List.append_assoc]
            have hPlen : (List.takeWhile isSpTab (List.takeWhile (· != '\n') t) ++
                ('|' :: (List.take (j + 1) rest ++
                  (rest.drop (j + 1)).takeWhile isSpTab))).length =
                (List.takeWhile isSpTab (List.takeWhile (· != '\n') t)).length + 1 +
                  j + 1 + ((rest.drop (j + 1)).takeWhile isSpTab).length := by
              simp only [List.length_append, List.length_cons, List.length_take]
              omega
            have hlt3 := congrArg List.length ht3
            rw [List.length_append] at hlt3
            have htake : List.take ((List.takeWhile isSpTab
                (List.takeWhile (· != '\n') t)).length + 1 + j + 1 +
                ((rest.drop (j + 1)).takeWhile isSpTab).length) t =
                List.takeWhile isSpTab (List.takeWhile (· != '\n') t) ++
                  ('|' :: (List.take (j + 1) rest ++
                    (rest.drop (j + 1)).takeWhile isSpTab)) := by
              rw [← hPlen]
              have h1 : List.take (List.takeWhile isSpTab
                  (List.takeWhile (· != '\n') t) ++
                  ('|' :: (List.take (j + 1) rest ++
                    (rest.drop (j + 1)).takeWhile isSpTab))).length t =
                  List.take (List.takeWhile isSpTab
                    (List.takeWhile (· != '\n') t) ++
                    ('|' :: (List.take (j + 1) rest ++
                      (rest.drop (j + 1)).takeWhile isSpTab))).length
                    ((List.takeWhile isSpTab (List.takeWhile (· != '\n') t) ++
                      ('|' :: (List.take (j + 1) rest ++
                        (rest.drop (j + 1)).takeWhile isSpTab))) ++
                      (List.drop ((rest.drop (j + 1)).takeWhile isSpTab).length
                          (List.drop (j + 1) rest) ++
                        List.dropWhile (· != '\n') t)) := by
                rw [← ht3]
              rw [h1, List.take_left]
            have hPlast : ∃ c, (List.takeWhile isSpTab
                (List.takeWhile (· != '\n') t) ++
                ('|' :: (List.take (j + 1) rest ++
                  (rest.drop (j + 1)).takeWhile isSpTab))).getLast? = some c ∧
                isSepBody c = true := by
              cases hws2 : (rest.drop (j + 1)).takeWhile isSpTab with
              | nil =>
                have htk : List.take (j + 1) rest = List.take j rest ++ [cj] := by
                  conv_lhs => rw [show rest = List.take j rest ++ (cj :: tj) from by
                    conv_lhs => rw [← List.take_append_drop j rest]
                    rw [hdj]]
                  rw [show j + 1 = (List.take j rest).length + 1 from by
                    rw [List.length_take]
                    omega]
                  rw [List.take_append]
                  rfl
                refine ⟨cj, ?_, ?_⟩
                · rw [List.append_nil, htk]
                  rw [getLast?_append_right (by simp)]
                  rw [show (('|' :: (List.take j rest ++ [cj])) : Str) =
                    ['|'] ++ (List.take j rest ++ [cj]) from rfl]
                  rw [getLast?_append_right (by simp), getLast?_append_right (by simp)]
                  rfl
                · rw [beq_iff_eq] at hpj
                  rw [hpj]
                  decide
              | cons w2 ws2' =>
                cases hgl2 : ((w2 :: ws2') : Str).getLast? with
                | none =>
                  exact absurd (List.getLast?_eq_none_iff.mp hgl2) (by simp)
                | some cL =>
                  have hcmem : cL ∈ (rest.drop (j + 1)).takeWhile isSpTab := by
                    rw [hws2]
                    exact List.mem_of_mem_getLast? hgl2
                  refine ⟨cL, ?_, spTab_sepBody (List.mem_takeWhile_imp hcmem)⟩
                  rw [getLast?_append_right (by simp)]
                  rw [show (('|' :: (List.take (j + 1) rest ++ (w2 :: ws2'))) : Str) =
                    ['|'] ++ (List.take (j + 1) rest ++ (w2 :: ws2')) from rfl]
                  rw [getLast?_append_right (by simp), getLast?_append_right (by simp)]
                  exact hgl2
            obtain ⟨cP, hcP, hcPs⟩ := hPlast
            refine ⟨by omega, by omega, cP, ?_, hcPs⟩
            rw [htake]
            exact hcP
        · exact Option.noConfusion h
      · exact Option.noConfusion h
    · exact Option.noConfusion h
  · exact Option.noConfusion h

theorem bodyRun_spec : ∀ (fu : Nat) {t : Str},
    bodyRun fu t = 0 ∨
      (1 ≤ bodyRun fu t ∧ bodyRun fu t ≤ t.length ∧
        ∃ c, (List.take (bodyRun fu t) t).getLast? = some c ∧ isSepBody c = true) := by
  intro fu
  induction fu with
  | zero => intro t; exact Or.inl rfl
  | succ fu ih =>
    intro t
    cases hbl : bodyLineLen t with
    | none =>
      left
      simp only [bodyRun, hbl]
    | some pr =>
      obtain ⟨len, b⟩ := pr
      obtain ⟨hb1, hb2, c1, hc1, hc1s⟩ := bodyLineLen_spec hbl
      cases b with
      | false =>
        right
        rw [bodyRun_stop hbl]
        exact ⟨hb1, hb2, c1, hc1, hc1s⟩
      | true =>
        have heq : bodyRun (fu + 1) t = len + bodyRun fu (t.drop len) := by
          rw [bodyRun, hbl]
        right
        rw [heq]
        have hdl : (List.drop len t).length = t.length - len := by rw [List.length_drop]
        rcases ih (t := List.drop len t) with h0 | ⟨hr1, hr2, c2, hc2, hc2s⟩
        · rw [h0]
          refine ⟨by omega, by omega, c1, ?_, hc1s⟩
          rw [show len + 0 = len from by omega]
          exact hc1
        · refine ⟨by omega, by omega, c2, ?_, hc2s⟩
          rw [List.take_add]
          rw [getLast?_append_right (fun hnil => by
            rw [hnil] at hc2
            exact Option.noConfusion hc2)]
          exact hc2

theorem tableBackRev_spec {s : Str} : ∀ {R : List Nat} {total : Nat},
    (∀ l rest, ((l :: rest) : List Nat) <:+ R →
        1 ≤ ((l :: rest) : List Nat).sum ∧ ((l :: rest) : List Nat).sum ≤ s.length ∧
          ∃ c, (List.take (((l :: rest) : List Nat).sum) s).getLast? = some c ∧
            isSepBody c = true) →
    tableBackRev s R = some total →
    1 ≤ total ∧ total ≤ s.length ∧
      ∃ c, (List.take total s).getLast? = some c ∧ isSepBody c = true := by
  intro R
  induction R with
  | nil => intro total _ h; exact Option.noConfusion h
  | cons l rest ih =>
    intro total hR h
    cases hsep : sepLen (s.drop (((l :: rest) : List Nat).sum)) with
    | none =>
      rw [tableBackRev_cons_none hsep] at h
      exact ih (fun l2 r2 hsuf => hR l2 r2 (hsuf.trans (List.suffix_cons l rest))) h
    | some slen =>
      rw [tableBackRev_cons_some hsep] at h
      injection h with h
      subst h
      obtain ⟨hh1, hh2, ch, hch, hchs⟩ := hR l rest (List.suffix_refl _)
      obtain ⟨hs1, hs2, cs, hcs, hcss⟩ := sepLen_spec hsep
      have hdl : (List.drop (((l :: rest) : List Nat).sum) s).length =
          s.length - ((l :: rest) : List Nat).sum := by rw [List.length_drop]
      rcases bodyRun_spec (s.length + 1)
          (t := List.drop (((l :: rest) : List Nat).sum + slen) s) with
        h0 | ⟨hbr1, hbr2, cb, hcb, hcbs⟩
      · refine ⟨by omega, by omega, cs, ?_, hcss⟩
        rw [h0, show ((l :: rest) : List Nat).sum + slen + 0 =
          ((l :: rest) : List Nat).sum + slen from by omega]
        rw [List.take_add]
        rw [getLast?_append_right (fun hnil => by
          rw [hnil] at hcs
          exact Option.noConfusion hcs)]
        exact hcs
      · have hdl2 : (List.drop (((l :: rest) : List Nat).sum + slen) s).length =
            s.length - (((l :: rest) : List Nat).sum + slen) := by rw [List.length_drop]
        refine ⟨by omega, by omega, cb, ?_, hcbs⟩
        rw [List.take_add]
        rw [getLast?_append_right (fun hnil => by
          rw [hnil] at hcb
          exact Option.noConfusion hcb)]
        exact hcb

theorem rowLineLen_tagL {c : Char} {cs : Str} (hc : tagL c = true) :
    rowLineLen (c :: cs) = none := by
  have hcn : (c != '\n') = true := by
    simp only [bne_iff_ne, ne_eq]
    exact ne_of_tagL hc (by decide)
  simp only [rowLineLen]
  rw [List.takeWhile_cons, if_pos hcn]
  split
  · rfl
  · rename_i hem
    rw [List.takeWhile_cons, if_neg (by simp [tagL_not_spTab hc])]
    simp only [List.length_nil, List.drop_zero]
    split
    · rename_i heq
      exact absurd (show c = '|' by simpa using heq)
        (ne_of_tagL hc (show tagL '|' = false by decide))
    · rfl

theorem tableTry_wk : WScan tableTry := by
  constructor
  · intro c cs hc
    simp only [tableTry]
    rw [headerLens_stop (rowLineLen_tagL hc)]
    rfl
  · intro s len build ps prev hs hps htry
    simp only [tableTry] at htry
    split at htry
    · rename_i total htb
      injection htry with htry
      injection htry with h1 h2
      subst h1
      subst h2
      have hR : ∀ l rest, ((l :: rest) : List Nat) <:+
          (headerLens (s.length + 1) s).reverse →
          1 ≤ ((l :: rest) : List Nat).sum ∧
            ((l :: rest) : List Nat).sum ≤ s.length ∧
            ∃ c, (List.take (((l :: rest) : List Nat).sum) s).getLast? = some c ∧
              isSepBody c = true := by
        intro l rest hsuf
        obtain ⟨T, hT⟩ := hsuf
        have h3 := congrArg List.reverse hT
        rw [List.reverse_append, List.reverse_reverse] at h3
        obtain ⟨hp1, hp2, cx, hcx, hcxs⟩ := headerLens_sums (s.length + 1) s
          (((l :: rest) : List Nat).reverse) T.reverse h3.symm (by simp)
        rw [List.sum_reverse] at hp1 hp2 hcx
        exact ⟨hp1, hp2, cx, hcx, hcxs⟩
      obtain ⟨ht1, ht2, ce, hce, hces⟩ := tableBackRev_spec hR htb
      cases hHL0 : headerLens (s.length + 1) s with
      | nil =>
        rw [hHL0] at htb
        simp only [List.reverse_nil] at htb
        exact Option.noConfusion htb
      | cons l1 hl' =>
        have hrow1 : rowLineLen s = some l1 := by
          cases hrw : rowLineLen s with
          | none => rw [headerLens_stop hrw] at hHL0; exact List.noConfusion hHL0
          | some v =>
            rw [headerLens_cons hrw] at hHL0
            injection hHL0 with hv hrest
            rw [hv]
        have hhead : ∀ c2, s.head? = some c2 → c2 ≠ nulC := rowLineLen_head hrow1
        have hdec : s = List.take total s ++ List.drop total s :=
          (List.take_append_drop total s).symm
        have hksnn : List.take total s ≠ [] := by
          intro hnil
          rw [hnil] at hce
          exact Option.noConfusion hce
        have htw : wkn none (List.take total s) = true := by
          have hs2 : wkn prev (List.take total s ++ List.drop total s) = true := by
            rw [List.take_append_drop]
            exact hs
          have hpref := wkn_prefix_of_last_not_nul hs2 (fun c2 hg => by
            rw [hce] at hg
            injection hg with hg
            rw [← hg]
            exact isSepBody_ne_nul hces)
          refine wkn_ctx_swap_head ?_ hpref
          intro hcon
          cases s with
          | nil =>
            rw [List.take_nil] at hcon
            exact Option.noConfusion hcon
          | cons a as =>
            cases total with
            | zero => exact absurd ht1 (by omega)
            | succ m =>
              rw [List.take_succ_cons] at hcon
              injection hcon with hcon
              exact hhead a rfl hcon
        refine ⟨by omega, ?_, ?_, ?_⟩
        · refine fire_suffix hdec (by rw [List.length_take]; omega) hs hksnn ?_
          intro c2 hg
          rw [hce] at hg
          injection hg with hg
          rw [← hg]
          exact isSepBody_not_digit hces
        · show wkn none (tokenStr tagTB ps.length) = true
          exact wkn_tokenStr (by simp [allTags])
        · refine PsW_push hps ?_
          show wkn none (fenceMark ++ '\n' :: tableBody (List.take total s) ++
            '\n' :: fenceMark) = true
          have hTB := tableBody_wk htw
          exact wkn_glue (wkn_glue (wkn_of_not_nul (by decide))
              (wkn_cons_of (by decide) (wkn_ctx_mono hTB)))
            (wkn_cons_of (by decide) (wkn_of_not_nul (by decide)))
    · exact Option.noConfusion htry

/-! ### C3: the shielding invariant across the stages, restoration and cleanup -/

theorem band_true_elim {a b : Bool} (h : (a && b) = true) : a = true ∧ b = true := by
  rw [Bool.and_eq_true] at h
  exact h

theorem tagL_ne_nulC {d : Char} (hd : tagL d = true) : d ≠ nulC := by
  intro he
  subst he
  exact absurd hd (by decide)

theorem getLast_nondigit_of {pat : Str} {v : Char} (hp : pat.getLast? = some v)
    (hv : v.isDigit = false) : ∀ ch, pat.getLast? = some ch → ch.isDigit = false := by
  intro ch hch
  rw [hp] at hch
  injection hch with h2
  rw [← h2]
  exact hv

theorem tokenStr_head_nontag (tag : Str) (idx : Nat) : tagLHead (tokenStr tag idx) = false := by
  show tagLHead (((nulC :: tag) ++ (Nat.repr idx).data) ++ [nulC]) = false
  rw [List.cons_append, List.cons_append]
  show tagL nulC = false
  decide

theorem getLast_app_single (l : Str) (a : Char) : (l ++ [a]).getLast? = some a := by
  simp

theorem tokenStr_last_nondigit (tag : Str) (idx : Nat) :
    ∀ ch, (tokenStr tag idx).getLast? = some ch → ch.isDigit = false := by
  have hp : (tokenStr tag idx).getLast? = some nulC := by
    show (((nulC :: tag) ++ (Nat.repr idx).data) ++ [nulC]).getLast? = some nulC
    exact getLast_app_single _ _
  exact getLast_nondigit_of hp (by decide)

theorem stFenced_wk {st : StP} (h : StW st) : StW (stFenced st) :=
  runStage_wk fencedTry_wk h.1 h.2

theorem stInline_wk {st : StP} (h : StW st) : StW (stInline st) :=
  runStage_wk inlineTry_wk h.1 h.2

theorem stTable_wk {st : StP} (h : StW st) : StW (stTable st) :=
  runAnch_wk tableTry_wk h.1 h.2

theorem preTag_wk :
    WScan (protTagTry ['p', 'r', 'e'] tagCB (fenceMark ++ ['\n']) ('\n' :: fenceMark)) :=
  protTagTry_wk (by decide) (by decide) (by decide)

theorem codeTag_wk : WScan (protTagTry ['c', 'o', 'd', 'e'] tagIC [btick] [btick]) :=
  protTagTry_wk (by decide) (by decide) (by decide)

theorem strongTag_wk :
    WScan (protTagTry ['s', 't', 'r', 'o', 'n', 'g'] tagBD [zws, starC] [starC, zws]) :=
  protTagTry_wk (by decide) (by decide) (by decide)

theorem bTag_wk : WScan (protTagTry ['b'] tagBD [zws, starC] [starC, zws]) :=
  protTagTry_wk (by decide) (by decide) (by decide)

theorem emTag_wk : WScan (inlineTagTry ['e', 'm'] [zws, '_'] ['_', zws]) :=
  inlineTagTry_wk (by decide) (by decide)

theorem iTag_wk : WScan (inlineTagTry ['i'] [zws, '_'] ['_', zws]) :=
  inlineTagTry_wk (by decide) (by decide)

theorem delTag_wk : WScan (inlineTagTry ['d', 'e', 'l'] [zws, '~'] ['~', zws]) :=
  inlineTagTry_wk (by decide) (by decide)

theorem sTag_wk : WScan (inlineTagTry ['s'] [zws, '~'] ['~', zws]) :=
  inlineTagTry_wk (by decide) (by decide)

theorem strikeTag_wk : WScan (inlineTagTry ['s', 't', 'r', 'i', 'k', 'e'] [zws, '~'] ['~', zws]) :=
  inlineTagTry_wk (by decide) (by decide)

theorem stHtmlPre_wk {st : StP} (h : StW st) : StW (stHtmlPre st) :=
  runStage_wk preTag_wk h.1 h.2

theorem stHtmlCode_wk {st : StP} (h : StW st) : StW (stHtmlCode st) :=
  runStage_wk codeTag_wk h.1 h.2

theorem stHtmlStrong_wk {st : StP} (h : StW st) : StW (stHtmlStrong st) :=
  runStage_wk strongTag_wk h.1 h.2

theorem stHtmlB_wk {st : StP} (h : StW st) : StW (stHtmlB st) :=
  runStage_wk bTag_wk h.1 h.2

theorem stHtmlEm_wk {st : StP} (h : StW st) : StW (stHtmlEm st) :=
  runStage_wk emTag_wk h.1 h.2

theorem stHtmlI_wk {st : StP} (h : StW st) : StW (stHtmlI st) :=
  runStage_wk iTag_wk h.1 h.2

theorem stHtmlDel_wk {st : StP} (h : StW st) : StW (stHtmlDel st) :=
  runStage_wk delTag_wk h.1 h.2

theorem stHtmlS_wk {st : StP} (h : StW st) : StW (stHtmlS st) :=
  runStage_wk sTag_wk h.1 h.2

theorem stHtmlStrike_wk {st : StP} (h : StW st) : StW (stHtmlStrike st) :=
  runStage_wk strikeTag_wk h.1 h.2

theorem stHtmlLink_wk {st : StP} (h : StW st) : StW (stHtmlLink st) :=
  runStage_wk htmlLinkTry_wk h.1 h.2

theorem stHtmlBr_wk {st : StP} (h : StW st) : StW (stHtmlBr st) :=
  runStage_wk htmlBrTry_wk h.1 h.2

theorem stHtmlHeading_wk {st : StP} (h : StW st) : StW (stHtmlHeading st) :=
  runStage_wk htmlHeadingTry_wk h.1 h.2

theorem stHtmlLi_wk {st : StP} (h : StW st) : StW (stHtmlLi st) :=
  runStage_wk htmlLiTry_wk h.1 h.2

theorem stHtmlP_wk {st : StP} (h : StW st) : StW (stHtmlP st) :=
  runStage_wk htmlPTry_wk h.1 h.2

theorem stHtmlHr_wk {st : StP} (h : StW st) : StW (stHtmlHr st) :=
  runStage_wk htmlHrTry_wk h.1 h.2

theorem stMdImage_wk {st : StP} (h : StW st) : StW (stMdImage st) :=
  runStage_wk mdImageTry_wk h.1 h.2

theorem stMdLink_wk {st : StP} (h : StW st) : StW (stMdLink st) :=
  runStage_wk mdLinkTry_wk h.1 h.2

theorem stAnyTag_wk {st : StP} (h : StW st) : StW (stAnyTag st) :=
  runStage_wk anyTagTry_wk h.1 h.2

theorem stEntities_wk {st : StP} (h : StW st) : StW (stEntities st) := by
  refine ⟨?_, h.2⟩
  have e1 : wkn none (repAll ['&', 'l', 't', ';'] ['<'] st.1) = true :=
    repAll_wk (by decide)
      (getLast_nondigit_of (show (['&', 'l', 't', ';'] : Str).getLast? = some ';' from rfl)
        (by decide)) (by decide) h.1
  have e2 : wkn none (repAll ['&', 'g', 't', ';'] ['>']
      (repAll ['&', 'l', 't', ';'] ['<'] st.1)) = true :=
    repAll_wk (by decide)
      (getLast_nondigit_of (show (['&', 'g', 't', ';'] : Str).getLast? = some ';' from rfl)
        (by decide)) (by decide) e1
  have e3 : wkn none (repAll ['&', 'q', 'u', 'o', 't', ';'] [dquoteC]
      (repAll ['&', 'g', 't', ';'] ['>'] (repAll ['&', 'l', 't', ';'] ['<'] st.1))) = true :=
    repAll_wk (by decide)
      (getLast_nondigit_of
        (show (['&', 'q', 'u', 'o', 't', ';'] : Str).getLast? = some ';' from rfl)
        (by decide)) (by decide) e2
  have e4 : wkn none ((runStage aposTry
      (repAll ['&', 'q', 'u', 'o', 't', ';'] [dquoteC]
        (repAll ['&', 'g', 't', ';'] ['>'] (repAll ['&', 'l', 't', ';'] ['<'] st.1))) []).1) =
      true :=
    (runStage_wk aposTry_wk e3 (fun p hp => absurd hp (List.not_mem_nil p))).1
  exact repAll_wk (by decide)
    (getLast_nondigit_of (show (['&', 'a', 'm', 'p', ';'] : Str).getLast? = some ';' from rfl)
      (by decide)) (by decide) e4

theorem stMdBoldItalic_wk {st : StP} (h : StW st) : StW (stMdBoldItalic st) :=
  runStage_wk mdBoldItalicTry_wk h.1 h.2

theorem stMdBold_wk {st : StP} (h : StW st) : StW (stMdBold st) :=
  runStage_wk mdBoldTry_wk h.1 h.2

theorem stMdItalic_wk {st : StP} (h : StW st) : StW (stMdItalic st) :=
  runStage_wk mdItalicTry_wk h.1 h.2

theorem stMdStrike_wk {st : StP} (h : StW st) : StW (stMdStrike st) :=
  runStage_wk mdStrikeTry_wk h.1 h.2

theorem stMdHeading_wk {st : StP} (h : StW st) : StW (stMdHeading st) :=
  runAnch_wk mdHeadingTry_wk h.1 h.2

theorem stMdUl_wk {st : StP} (h : StW st) : StW (stMdUl st) := by
  have h1 := runAnch_wk (mdUlTry_wk (show tagL '-' = false by decide)) h.1 h.2
  exact runAnch_wk (mdUlTry_wk (show tagL starC = false by decide)) h1.1 h1.2

theorem stMdHr_wk {st : StP} (h : StW st) : StW (stMdHr st) :=
  runAnch_wk mdHrTry_wk h.1 h.2

theorem stExcessNl_wk {st : StP} (h : StW st) : StW (stExcessNl st) :=
  runStage_wk excessNlTry_wk h.1 h.2

theorem beforeRestoreP_wk (s : Str) : StW (beforeRestoreP s) := by
  have h0 : StW ((repAll ['\r', '\n'] ['\n'] s).filter (fun c => c != nulC), ([] : List Str)) := by
    constructor
    · exact wkn_of_not_nul (fun c hc => by simpa using List.of_mem_filter hc)
    · exact fun p hp => absurd hp (List.not_mem_nil p)
  have h1 := stFenced_wk h0
  have h2 := stInline_wk h1
  have h3 := stTable_wk h2
  have h4 := stHtmlPre_wk h3
  have h5 := stHtmlCode_wk h4
  have h6 := stHtmlStrong_wk h5
  have h7 := stHtmlB_wk h6
  have h8 := stHtmlEm_wk h7
  have h9 := stHtmlI_wk h8
  have h10 := stHtmlDel_wk h9
  have h11 := stHtmlS_wk h10
  have h12 := stHtmlStrike_wk h11
  have h13 := stHtmlLink_wk h12
  have h14 := stHtmlBr_wk h13
  have h15 := stHtmlHeading_wk h14
  have h16 := stHtmlLi_wk h15
  have h17 := stHtmlP_wk h16
  have h18 := stHtmlHr_wk h17
  have h19 := stMdImage_wk h18
  have h20 := stMdLink_wk h19
  have h21 := stAnyTag_wk h20
  have h22 := stEntities_wk h21
  have h23 := stMdBoldItalic_wk h22
  have h24 := stMdBold_wk h23
  have h25 := stMdItalic_wk h24
  have h26 := stMdStrike_wk h25
  have h27 := stMdHeading_wk h26
  have h28 := stMdUl_wk h27
  have h29 := stMdHr_wk h28
  exact stExcessNl_wk h29

theorem restoreGo_wk : ∀ (tgs : List Str) (t : Str) (idx : Nat) (rep : Str),
    wkn none t = true → wkn none rep = true →
    wkn none (restoreGo tgs t idx rep) = true := by
  intro tgs
  induction tgs with
  | nil =>
    intro t idx rep ht _
    exact ht
  | cons tg rest ih =>
    intro t idx rep ht hrep
    rw [restoreGo]
    split
    · exact repAll_wk (tokenStr_head_nontag tg idx) (tokenStr_last_nondigit tg idx) hrep ht
    · exact ih t idx rep ht hrep

theorem restoreFold_wk : ∀ (l : List (Nat × Str)) (t : Str),
    wkn none t = true → (∀ pr ∈ l, wkn none pr.2 = true) →
    wkn none (l.foldl (fun acc pr => restoreOne acc pr.1 pr.2) t) = true := by
  intro l
  induction l with
  | nil =>
    intro t ht _
    exact ht
  | cons pr rest ih =>
    intro t ht hl
    rw [List.foldl_cons]
    exact ih _ (restoreGo_wk allTags t pr.1 pr.2 ht (hl pr (List.mem_cons_self pr rest)))
      (fun q hq => hl q (List.mem_cons_of_mem pr hq))

theorem restoreAll_wk {t : Str} {ps : List Str} (ht : wkn none t = true) (hps : PsW ps) :
    wkn none (restoreAll t ps) = true := by
  refine restoreFold_wk _ t ht ?_
  intro pr hpr
  obtain ⟨i, rep⟩ := pr
  exact hps rep (List.of_mem_zip (List.mem_reverse.mp hpr)).2

theorem pfx_pair_iff {x y c : Char} {cs : Str} :
    pfx [x, y] (c :: cs) = true ↔ x = c ∧ cs.head? = some y := by
  cases cs with
  | nil => simp [pfx]
  | cons d ds =>
    simp only [pfx, Bool.and_eq_true, Bool.and_true, beq_iff_eq, List.head?_cons,
      Option.some.injEq]
    constructor
    · intro h
      exact ⟨h.1, h.2.symm⟩
    · intro h
      exact ⟨h.1, h.2.symm⟩

theorem subStr_tail_false {pat : Str} {c : Char} {cs : Str}
    (h : subStr pat (c :: cs) = false) : subStr pat cs = false := by
  have h2 : (pfx pat (c :: cs) || subStr pat cs) = false := h
  exact (Bool.or_eq_false_iff.mp h2).2

theorem subStr_cons_of_tail {pat : Str} {c : Char} {cs : Str}
    (h : subStr pat cs = true) : subStr pat (c :: cs) = true := by
  show (pfx pat (c :: cs) || subStr pat cs) = true
  rw [h, Bool.or_true]

theorem subStr_pair_at {u v : Char} {t : Str} (h : t.head? = some v) :
    subStr [u, v] (u :: t) = true := by
  show (pfx [u, v] (u :: t) || subStr [u, v] t) = true
  rw [pfx_pair_iff.mpr ⟨rfl, h⟩, Bool.true_or]

theorem subStr_nil_pat (s : Str) : subStr [] s = true := by
  cases s with
  | nil => rfl
  | cons c cs =>
    show (pfx [] (c :: cs) || subStr [] cs) = true
    rw [show pfx [] (c :: cs) = true from rfl, Bool.true_or]

theorem pfx_app_ext : ∀ {pat u : Str} (t : Str), pfx pat u = true → pfx pat (u ++ t) = true := by
  intro pat
  induction pat with
  | nil =>
    intro u t _
    rfl
  | cons p ps ih =>
    intro u t h
    cases u with
    | nil => exact Bool.noConfusion h
    | cons c cs =>
      have h2 : (p == c && pfx ps cs) = true := h
      rw [List.cons_append]
      show (p == c && pfx ps (cs ++ t)) = true
      rw [Bool.and_eq_true] at h2 ⊢
      exact ⟨h2.1, ih t h2.2⟩

theorem subStr_app_left_false {pat : Str} : ∀ (u t : Str),
    subStr pat (u ++ t) = false → subStr pat u = false := by
  intro u
  induction u with
  | nil =>
    intro t h
    cases pat with
    | nil =>
      rw [subStr_nil_pat] at h
      exact Bool.noConfusion h
    | cons p ps => rfl
  | cons c cs ih =>
    intro t h
    have h2 : (pfx pat (c :: (cs ++ t)) || subStr pat (cs ++ t)) = false := h
    obtain ⟨hpf, htl⟩ := Bool.or_eq_false_iff.mp h2
    show (pfx pat (c :: cs) || subStr pat cs) = false
    have htail : subStr pat cs = false := ih t htl
    have hhead : pfx pat (c :: cs) = false := by
      cases hq : pfx pat (c :: cs) with
      | false => rfl
      | true =>
        have h3 := pfx_app_ext t hq
        rw [List.cons_append] at h3
        rw [h3] at hpf
        exact Bool.noConfusion hpf
    rw [hhead, htail]
    rfl

theorem subStr_dropWhile_false {pat : Str} (p : Char → Bool) :
    ∀ (l : Str), subStr pat l = false → subStr pat (l.dropWhile p) = false := by
  intro l
  induction l with
  | nil =>
    intro h
    exact h
  | cons c cs ih =>
    intro h
    rw [List.dropWhile_cons]
    split
    · exact ih (subStr_tail_false h)
    · exact h

theorem subStr_dropTrailing_false {pat : Str} (p : Char → Bool) (l : Str)
    (h : subStr pat l = false) : subStr pat (dropTrailing p l) = false := by
  obtain ⟨t, ht⟩ := exists_append_dropTrailing p l
  rw [ht] at h
  exact subStr_app_left_false _ t h

theorem subStr_trims_false {pat f : Str} (h : subStr pat f = false) :
    subStr pat (trimZwsEnds (rustTrim f)) = false :=
  subStr_dropTrailing_false _ _ (subStr_dropWhile_false _ _
    (subStr_dropTrailing_false _ _ (subStr_dropWhile_false _ _ h)))

theorem repAllG_pair_head {a b k h : Char} {n : Nat} {s : Str}
    (hh : (repAllG [a, b] [k] n s).head? = some h) :
    s.head? = some h ∨ (h = k ∧ s.head? = some a) := by
  cases n with
  | zero => exact Or.inl hh
  | succ m =>
    cases s with
    | nil =>
      rw [show repAllG [a, b] [k] (m + 1) [] = [] from rfl] at hh
      simp at hh
    | cons c cs =>
      rw [repAllG] at hh
      split at hh
      · rename_i hm
        have hm2 : pfx [a, b] (c :: cs) = true := (band_true_elim hm).1
        have hac : a = c := (pfx_pair_iff.mp hm2).1
        injection hh with hh2
        right
        refine ⟨hh2.symm, ?_⟩
        show some c = some a
        rw [hac]
      · exact Or.inl hh

theorem repAllG_pair_pres {a b k x y : Char} :
    ∀ (n : Nat) (s : Str), subStr [x, y] s = false →
      (y = k → subStr [x, a] s = false) →
      (x = k → subStr [b, y] s = false) →
      (x = k → y = k → subStr [b, a] s = false) →
      subStr [x, y] (repAllG [a, b] [k] n s) = false := by
  intro n
  induction n with
  | zero =>
    intro s h1 _ _ _
    exact h1
  | succ m ih =>
    intro s h1 h2 h3 h4
    cases s with
    | nil => rfl
    | cons c cs =>
      rw [repAllG]
      split
      · rename_i hm
        have hm2 : pfx [a, b] (c :: cs) = true := (band_true_elim hm).1
        obtain ⟨hac, hcsb⟩ := pfx_pair_iff.mp hm2
        subst hac
        cases cs with
        | nil => simp at hcsb
        | cons d cs2 =>
          injection hcsb with hdb
          have hbd : b = d := hdb.symm
          subst hbd
          have hdrop : List.drop (List.length [a, b] - 1) (b :: cs2) = cs2 := rfl
          rw [hdrop, List.singleton_append]
          show (pfx [x, y] (k :: repAllG [a, b] [k] m cs2) ||
            subStr [x, y] (repAllG [a, b] [k] m cs2)) = false
          have htail : subStr [x, y] (repAllG [a, b] [k] m cs2) = false :=
            ih cs2 (subStr_tail_false (subStr_tail_false h1))
              (fun hy => subStr_tail_false (subStr_tail_false (h2 hy)))
              (fun hx => subStr_tail_false (subStr_tail_false (h3 hx)))
              (fun hx hy => subStr_tail_false (subStr_tail_false (h4 hx hy)))
          have hhead : pfx [x, y] (k :: repAllG [a, b] [k] m cs2) = false := by
            cases hp : pfx [x, y] (k :: repAllG [a, b] [k] m cs2) with
            | false => rfl
            | true =>
              obtain ⟨hxk, hhy⟩ := pfx_pair_iff.mp hp
              rcases repAllG_pair_head hhy with hy1 | ⟨hyk, hy2⟩
              · have h5 : subStr [b, y] (a :: b :: cs2) = true :=
                  subStr_cons_of_tail (subStr_pair_at hy1)
                rw [h3 hxk] at h5
                exact Bool.noConfusion h5
              · have h5 : subStr [b, a] (a :: b :: cs2) = true :=
                  subStr_cons_of_tail (subStr_pair_at hy2)
                rw [h4 hxk hyk] at h5
                exact Bool.noConfusion h5
          rw [hhead, htail]
          rfl
      · rename_i hm
        show (pfx [x, y] (c :: repAllG [a, b] [k] m cs) ||
          subStr [x, y] (repAllG [a, b] [k] m cs)) = false
        have htail : subStr [x, y] (repAllG [a, b] [k] m cs) = false :=
          ih cs (subStr_tail_false h1) (fun hy => subStr_tail_false (h2 hy))
            (fun hx => subStr_tail_false (h3 hx)) (fun hx hy => subStr_tail_false (h4 hx hy))
        have hhead : pfx [x, y] (c :: repAllG [a, b] [k] m cs) = false := by
          cases hp : pfx [x, y] (c :: repAllG [a, b] [k] m cs) with
          | false => rfl
          | true =>
            obtain ⟨hxc, hhy⟩ := pfx_pair_iff.mp hp
            rcases repAllG_pair_head hhy with hy1 | ⟨hyk, hy2⟩
            · have h5 : subStr [x, y] (c :: cs) = true := by
                rw [hxc]
                exact subStr_pair_at hy1
              rw [h1] at h5
              exact Bool.noConfusion h5
            · have h5 : subStr [x, a] (c :: cs) = true := by
                rw [hxc]
                exact subStr_pair_at hy2
              rw [h2 hyk] at h5
              exact Bool.noConfusion h5
        rw [hhead, htail]
        rfl

theorem repAllG_pair_gone {a b k : Char} :
    ∀ (n : Nat) (s : Str), s.length ≤ n →
      (k = a → subStr [b, b] s = false) →
      (b = k → subStr [a, a] s = false) →
      (k = a → b = k → subStr [b, a] s = false) →
      subStr [a, b] (repAllG [a, b] [k] n s) = false := by
  intro n
  induction n with
  | zero =>
    intro s hl _ _ _
    cases s with
    | nil => rfl
    | cons c cs => simp at hl
  | succ m ih =>
    intro s hl h1 h2 h3
    cases s with
    | nil => rfl
    | cons c cs =>
      rw [repAllG]
      split
      · rename_i hm
        have hm2 : pfx [a, b] (c :: cs) = true := (band_true_elim hm).1
        obtain ⟨hac, hcsb⟩ := pfx_pair_iff.mp hm2
        subst hac
        cases cs with
        | nil => simp at hcsb
        | cons d cs2 =>
          injection hcsb with hdb
          have hbd : b = d := hdb.symm
          subst hbd
          have hdrop : List.drop (List.length [a, b] - 1) (b :: cs2) = cs2 := rfl
          rw [hdrop, List.singleton_append]
          show (pfx [a, b] (k :: repAllG [a, b] [k] m cs2) ||
            subStr [a, b] (repAllG [a, b] [k] m cs2)) = false
          have hlen : cs2.length ≤ m := by
            simp only [List.length_cons] at hl
            omega
          have htail : subStr [a, b] (repAllG [a, b] [k] m cs2) = false :=
            ih cs2 hlen (fun hk => subStr_tail_false (subStr_tail_false (h1 hk)))
              (fun hk => subStr_tail_false (subStr_tail_false (h2 hk)))
              (fun hk hb => subStr_tail_false (subStr_tail_false (h3 hk hb)))
          have hhead : pfx [a, b] (k :: repAllG [a, b] [k] m cs2) = false := by
            cases hp : pfx [a, b] (k :: repAllG [a, b] [k] m cs2) with
            | false => rfl
            | true =>
              obtain ⟨hak, hhb⟩ := pfx_pair_iff.mp hp
              rcases repAllG_pair_head hhb with hb1 | ⟨hbk, hb2⟩
              · have h5 : subStr [b, b] (a :: b :: cs2) = true :=
                  subStr_cons_of_tail (subStr_pair_at hb1)
                rw [h1 hak.symm] at h5
                exact Bool.noConfusion h5
              · have h5 : subStr [b, a] (a :: b :: cs2) = true :=
                  subStr_cons_of_tail (subStr_pair_at hb2)
                rw [h3 hak.symm hbk] at h5
                exact Bool.noConfusion h5
          rw [hhead, htail]
          rfl
      · rename_i hm
        show (pfx [a, b] (c :: repAllG [a, b] [k] m cs) ||
          subStr [a, b] (repAllG [a, b] [k] m cs)) = false
        have hlen : cs.length ≤ m := by
          simp only [List.length_cons] at hl
          omega
        have htail : subStr [a, b] (repAllG [a, b] [k] m cs) = false :=
          ih cs hlen (fun hk => subStr_tail_false (h1 hk))
            (fun hk => subStr_tail_false (h2 hk))
            (fun hk hb => subStr_tail_false (h3 hk hb))
        have hhead : pfx [a, b] (c :: repAllG [a, b] [k] m cs) = false := by
          cases hp : pfx [a, b] (c :: repAllG [a, b] [k] m cs) with
          | false => rfl
          | true =>
            obtain ⟨hac, hhb⟩ := pfx_pair_iff.mp hp
            rcases repAllG_pair_head hhb with hb1 | ⟨hbk, hb2⟩
            · have hpf : pfx [a, b] (c :: cs) = true := pfx_pair_iff.mpr ⟨hac, hb1⟩
              have h5 : (pfx [a, b] (c :: cs) && !List.isEmpty [a, b]) = true := by
                rw [hpf]
                rfl
              exact absurd h5 hm
            · have hpf2 : pfx [a, a] (c :: cs) = true := pfx_pair_iff.mpr ⟨hac, hb2⟩
              have h5 : subStr [a, a] (c :: cs) = true := by
                show (pfx [a, a] (c :: cs) || subStr [a, a] cs) = true
                rw [hpf2, Bool.true_or]
              rw [h2 hbk] at h5
              exact Bool.noConfusion h5
        rw [hhead, htail]
        rfl

theorem repAllG_pair_len {a b k : Char} : ∀ (n : Nat) (s : Str),
    (repAllG [a, b] [k] n s).length ≤ s.length := by
  intro n
  induction n with
  | zero =>
    intro s
    exact Nat.le_refl _
  | succ m ih =>
    intro s
    cases s with
    | nil => exact Nat.le_refl _
    | cons c cs =>
      rw [repAllG]
      split
      · rw [List.singleton_append]
        show (repAllG [a, b] [k] m (List.drop (List.length [a, b] - 1) cs)).length + 1 ≤
          cs.length + 1
        have h1 := ih (List.drop (List.length [a, b] - 1) cs)
        have h2 : (List.drop (List.length [a, b] - 1) cs).length ≤ cs.length := by
          rw [List.length_drop]
          omega
        omega
      · show (repAllG [a, b] [k] m cs).length + 1 ≤ cs.length + 1
        have h1 := ih cs
        omega

theorem repAllG_pair_len_lt {a b k : Char} : ∀ (n : Nat) (s : Str),
    subStr [a, b] s = true → s.length ≤ n →
    (repAllG [a, b] [k] n s).length < s.length := by
  intro n
  induction n with
  | zero =>
    intro s hs hl
    cases s with
    | nil => exact Bool.noConfusion hs
    | cons c cs => simp at hl
  | succ m ih =>
    intro s hs hl
    cases s with
    | nil => exact Bool.noConfusion hs
    | cons c cs =>
      rw [repAllG]
      split
      · rename_i hm
        have hm2 : pfx [a, b] (c :: cs) = true := (band_true_elim hm).1
        obtain ⟨hac, hcsb⟩ := pfx_pair_iff.mp hm2
        cases cs with
        | nil => simp at hcsb
        | cons d cs2 =>
          rw [List.singleton_append]
          have hdrop : List.drop (List.length [a, b] - 1) (d :: cs2) = cs2 := rfl
          rw [hdrop]
          show (repAllG [a, b] [k] m cs2).length + 1 < cs2.length + 1 + 1
          have h1 : (repAllG [a, b] [k] m cs2).length ≤ cs2.length := repAllG_pair_len m cs2
          omega
      · rename_i hm
        have hpf : pfx [a, b] (c :: cs) = false := by
          cases hq : pfx [a, b] (c :: cs) with
          | false => rfl
          | true =>
            have h5 : (pfx [a, b] (c :: cs) && !List.isEmpty [a, b]) = true := by
              rw [hq]
              rfl
            exact absurd h5 hm
        have hs2 : subStr [a, b] cs = true := by
          have h0 : (pfx [a, b] (c :: cs) || subStr [a, b] cs) = true := hs
          rw [hpf, Bool.false_or] at h0
          exact h0
        show (repAllG [a, b] [k] m cs).length + 1 < cs.length + 1
        have hlen : cs.length ≤ m := by
          simp only [List.length_cons] at hl
          omega
        have h1 := ih cs hs2 hlen
        omega

theorem collapseZwsG_no_zz : ∀ (n : Nat) (s : Str), s.length ≤ n →
    subStr zz (collapseZwsG n s) = false := by
  intro n
  induction n with
  | zero =>
    intro s hl
    cases s with
    | nil => rfl
    | cons c cs => simp at hl
  | succ m ih =>
    intro s hl
    rw [collapseZwsG]
    split
    · rename_i hs
      refine ih (repAll zz [zws] s) ?_
      have hlt : (repAllG [zws, zws] [zws] s.length s).length < s.length :=
        repAllG_pair_len_lt s.length s hs (Nat.le_refl _)
      have hle : (repAll zz [zws] s).length < s.length := hlt
      omega
    · rename_i hs
      simpa using hs

theorem collapseZwsG_wk : ∀ (n : Nat) (s : Str) (prev : Option Char),
    wkn prev s = true → wkn prev (collapseZwsG n s) = true := by
  intro n
  induction n with
  | zero =>
    intro s prev h
    exact h
  | succ m ih =>
    intro s prev h
    rw [collapseZwsG]
    split
    · refine ih _ _ ?_
      exact repAll_wk (by decide)
        (getLast_nondigit_of (show (zz : Str).getLast? = some zws from rfl) (by decide))
        (by decide) h
    · exact h

theorem filt_head_of_wkn {c h : Char} {cs : Str}
    (hw : wkn (some c) cs = true) (hcd : c.isDigit = false)
    (hh : (cs.filter (fun x => x != nulC)).head? = some h) (hht : tagL h = false) :
    cs.head? = some h := by
  cases cs with
  | nil => simp at hh
  | cons e cs2 =>
    by_cases he : e = nulC
    · subst he
      have hw2 : (headOK (some c) nulC cs2 && wkn (some nulC) cs2) = true := hw
      have hok : headOK (some c) nulC cs2 = true := (band_true_elim hw2).1
      have htg : tagLHead cs2 = true := by
        have h3 : ((nulC != nulC) || tagLHead cs2 || digitOpt (some c)) = true := hok
        simp only [bne_self_eq_false, Bool.false_or, Bool.or_eq_true] at h3
        rcases h3 with h3 | h3
        · exact h3
        · have h4 : c.isDigit = true := h3
          rw [hcd] at h4
          exact Bool.noConfusion h4
      cases cs2 with
      | nil => exact Bool.noConfusion htg
      | cons d cs3 =>
        have hd : tagL d = true := htg
        rw [List.filter_cons, if_neg (by simp), List.filter_cons,
          if_pos (by simp [tagL_ne_nulC hd])] at hh
        rw [List.head?_cons] at hh
        injection hh with h5
        rw [h5] at hd
        rw [hht] at hd
        exact Bool.noConfusion hd
    · rw [List.filter_cons, if_pos (by simp [he])] at hh
      rw [List.head?_cons] at hh
      exact hh

theorem filt_pair_false {x y : Char} (hx : x.isDigit = false) (hy : tagL y = false) :
    ∀ (t : Str) (prev : Option Char), wkn prev t = true → subStr [x, y] t = false →
      subStr [x, y] (t.filter (fun ch => ch != nulC)) = false := by
  intro t
  induction t with
  | nil =>
    intro prev _ _
    rfl
  | cons c cs ih =>
    intro prev hw hp
    have hw1 : (headOK prev c cs && wkn (some c) cs) = true := hw
    have hw2 : wkn (some c) cs = true := (band_true_elim hw1).2
    have hp2 : subStr [x, y] cs = false := subStr_tail_false hp
    by_cases hc : c = nulC
    · subst hc
      rw [List.filter_cons, if_neg (by simp)]
      exact ih (some nulC) hw2 hp2
    · rw [List.filter_cons, if_pos (by simp [hc])]
      show (pfx [x, y] (c :: cs.filter (fun ch => ch != nulC)) ||
        subStr [x, y] (cs.filter (fun ch => ch != nulC))) = false
      have htail := ih (some c) hw2 hp2
      have hhead : pfx [x, y] (c :: cs.filter (fun ch => ch != nulC)) = false := by
        cases hq : pfx [x, y] (c :: cs.filter (fun ch => ch != nulC)) with
        | false => rfl
        | true =>
          obtain ⟨hxc, hfy⟩ := pfx_pair_iff.mp hq
          have hcd : c.isDigit = false := by
            rw [← hxc]
            exact hx
          have hcy : cs.head? = some y := filt_head_of_wkn hw2 hcd hfy hy
          have h5 : subStr [x, y] (c :: cs) = true := by
            rw [hxc]
            exact subStr_pair_at hcy
          rw [hp] at h5
          exact Bool.noConfusion h5
      rw [hhead, htail]
      rfl

theorem step_r1 {c : Str} (hw : wkn none c = true) (hzz : subStr [zws, zws] c = false) :
    wkn none (repAll [' ', zws] [' '] c) = true ∧
    subStr [zws, zws] (repAll [' ', zws] [' '] c) = false ∧
    subStr [' ', zws] (repAll [' ', zws] [' '] c) = false := by
  refine ⟨repAll_wk (by decide)
    (getLast_nondigit_of (show ([' ', zws] : Str).getLast? = some zws from rfl) (by decide))
    (by decide) hw, ?_, ?_⟩
  · exact repAllG_pair_pres _ _ hzz (fun h => absurd h (by decide))
      (fun h => absurd h (by decide)) (fun h _ => absurd h (by decide))
  · exact repAllG_pair_gone _ _ (Nat.le_refl _) (fun _ => hzz)
      (fun h => absurd h (by decide)) (fun _ h => absurd h (by decide))

theorem step_r2 {c : Str} (hw : wkn none c = true) (hzz : subStr [zws, zws] c = false)
    (hsz : subStr [' ', zws] c = false) :
    wkn none (repAll [zws, ' '] [' '] c) = true ∧
    subStr [zws, zws] (repAll [zws, ' '] [' '] c) = false ∧
    subStr [' ', zws] (repAll [zws, ' '] [' '] c) = false ∧
    subStr [zws, ' '] (repAll [zws, ' '] [' '] c) = false := by
  refine ⟨repAll_wk (by decide)
    (getLast_nondigit_of (show ([zws, ' '] : Str).getLast? = some ' ' from rfl) (by decide))
    (by decide) hw, ?_, ?_, ?_⟩
  · exact repAllG_pair_pres _ _ hzz (fun h => absurd h (by decide))
      (fun h => absurd h (by decide)) (fun h _ => absurd h (by decide))
  · exact repAllG_pair_pres _ _ hsz (fun h => absurd h (by decide))
      (fun _ => hsz) (fun _ h => absurd h (by decide))
  · exact repAllG_pair_gone _ _ (Nat.le_refl _) (fun h => absurd h (by decide))
      (fun _ => hzz) (fun h _ => absurd h (by decide))

theorem step_r3 {c : Str} (hw : wkn none c = true) (hzz : subStr [zws, zws] c = false)
    (hsz : subStr [' ', zws] c = false) (hzs : subStr [zws, ' '] c = false) :
    wkn none (repAll ['\n', zws] ['\n'] c) = true ∧
    subStr [zws, zws] (repAll ['\n', zws] ['\n'] c) = false ∧
    subStr [' ', zws] (repAll ['\n', zws] ['\n'] c) = false ∧
    subStr [zws, ' '] (repAll ['\n', zws] ['\n'] c) = false ∧
    subStr ['\n', zws] (repAll ['\n', zws] ['\n'] c) = false := by
  refine ⟨repAll_wk (by decide)
    (getLast_nondigit_of (show (['\n', zws] : Str).getLast? = some zws from rfl) (by decide))
    (by decide) hw, ?_, ?_, ?_, ?_⟩
  · exact repAllG_pair_pres _ _ hzz (fun h => absurd h (by decide))
      (fun h => absurd h (by decide)) (fun h _ => absurd h (by decide))
  · exact repAllG_pair_pres _ _ hsz (fun h => absurd h (by decide))
      (fun h => absurd h (by decide)) (fun h _ => absurd h (by decide))
  · exact repAllG_pair_pres _ _ hzs (fun h => absurd h (by decide))
      (fun h => absurd h (by decide)) (fun h _ => absurd h (by decide))
  · exact repAllG_pair_gone _ _ (Nat.le_refl _) (fun _ => hzz)
      (fun h => absurd h (by decide)) (fun _ h => absurd h (by decide))

theorem step_r4 {c : Str} (hw : wkn none c = true) (hzz : subStr [zws, zws] c = false)
    (hsz : subStr [' ', zws] c = false) (hzs : subStr [zws, ' '] c = false)
    (hnz : subStr ['\n', zws] c = false) :
    wkn none (repAll [zws, '\n'] ['\n'] c) = true ∧
    subStr [zws, zws] (repAll [zws, '\n'] ['\n'] c) = false ∧
    subStr [' ', zws] (repAll [zws, '\n'] ['\n'] c) = false ∧
    subStr [zws, ' '] (repAll [zws, '\n'] ['\n'] c) = false ∧
    subStr ['\n', zws] (repAll [zws, '\n'] ['\n'] c) = false ∧
    subStr [zws, '\n'] (repAll [zws, '\n'] ['\n'] c) = false := by
  refine ⟨repAll_wk (by decide)
    (getLast_nondigit_of (show ([zws, '\n'] : Str).getLast? = some '\n' from rfl) (by decide))
    (by decide) hw, ?_, ?_, ?_, ?_, ?_⟩
  · exact repAllG_pair_pres _ _ hzz (fun h => absurd h (by decide))
      (fun h => absurd h (by decide)) (fun h _ => absurd h (by decide))
  · exact repAllG_pair_pres _ _ hsz (fun h => absurd h (by decide))
      (fun h => absurd h (by decide)) (fun h _ => absurd h (by decide))
  · exact repAllG_pair_pres _ _ hzs (fun h => absurd h (by decide))
      (fun h => absurd h (by decide)) (fun h _ => absurd h (by decide))
  · exact repAllG_pair_pres _ _ hnz (fun h => absurd h (by decide))
      (fun _ => hnz) (fun _ h => absurd h (by decide))
  · exact repAllG_pair_gone _ _ (Nat.le_refl _) (fun h => absurd h (by decide))
      (fun _ => hzz) (fun h _ => absurd h (by decide))

theorem finalCleanup_pairs (t : Str) (hw : wkn none t = true) :
    subStr [zws, zws] (finalCleanup t) = false ∧
    subStr [' ', zws] (finalCleanup t) = false ∧
    subStr [zws, ' '] (finalCleanup t) = false ∧
    subStr ['\n', zws] (finalCleanup t) = false ∧
    subStr [zws, '\n'] (finalCleanup t) = false := by
  have hcw : wkn none (collapseZwsG t.length t) = true := collapseZwsG_wk t.length t none hw
  have hczz : subStr [zws, zws] (collapseZwsG t.length t) = false :=
    collapseZwsG_no_zz t.length t (Nat.le_refl _)
  obtain ⟨hw1, hzz1, hsz1⟩ := step_r1 hcw hczz
  obtain ⟨hw2, hzz2, hsz2, hzs2⟩ := step_r2 hw1 hzz1 hsz1
  obtain ⟨hw3, hzz3, hsz3, hzs3, hnz3⟩ := step_r3 hw2 hzz2 hsz2 hzs2
  obtain ⟨hw4, hzz4, hsz4, hzs4, hnz4, hzn4⟩ := step_r4 hw3 hzz3 hsz3 hzs3 hnz3
  refine ⟨?_, ?_, ?_, ?_, ?_⟩
  · exact subStr_trims_false (filt_pair_false (by decide) (by decide) _ none hw4 hzz4)
  · exact subStr_trims_false (filt_pair_false (by decide) (by decide) _ none hw4 hsz4)
  · exact subStr_trims_false (filt_pair_false (by decide) (by decide) _ none hw4 hzs4)
  · exact subStr_trims_false (filt_pair_false (by decide) (by decide) _ none hw4 hnz4)
  · exact subStr_trims_false (filt_pair_false (by decide) (by decide) _ none hw4 hzn4)

theorem mdToMrkdwnL_c3 (u : Str) :
    subStr [zws, zws] (mdToMrkdwnL u) = false ∧
    subStr [' ', zws] (mdToMrkdwnL u) = false ∧
    subStr [zws, ' '] (mdToMrkdwnL u) = false ∧
    subStr ['\n', zws] (mdToMrkdwnL u) = false ∧
    subStr [zws, '\n'] (mdToMrkdwnL u) = false ∧
    (mdToMrkdwnL u).head? ≠ some zws ∧
    (mdToMrkdwnL u).getLast? ≠ some zws := by
  cases he : u.isEmpty with
  | true =>
    rw [mdToMrkdwnL, if_pos he]
    exact ⟨rfl, rfl, rfl, rfl, rfl, by simp, by simp⟩
  | false =>
    rw [mdToMrkdwnL, if_neg (by simp [he])]
    have hst := beforeRestoreP_wk u
    have hr : wkn none (restoreAll (beforeRestoreP u).1 (beforeRestoreP u).2) = true :=
      restoreAll_wk hst.1 hst.2
    obtain ⟨p1, p2, p3, p4, p5⟩ :=
      finalCleanup_pairs (restoreAll (beforeRestoreP u).1 (beforeRestoreP u).2) hr
    exact ⟨p1, p2, p3, p4, p5, finalCleanup_head_ne _, finalCleanup_getLast_ne _⟩

/-- C3: for every input string, the output of `md_to_mrkdwn` never contains the sentinel
byte (NUL), never contains two adjacent zero-width markers (U+200B), and a zero-width
marker never appears immediately next to a space or a newline nor at the start or end
of the output. -/
theorem c3_sentinel_and_zws_clean (s : String) :
    nulC ∉ (md_to_mrkdwn s).data ∧
    subStr [zws, zws] (md_to_mrkdwn s).data = false ∧
    subStr [' ', zws] (md_to_mrkdwn s).data = false ∧
    subStr [zws, ' '] (md_to_mrkdwn s).data = false ∧
    subStr ['\n', zws] (md_to_mrkdwn s).data = false ∧
    subStr [zws, '\n'] (md_to_mrkdwn s).data = false ∧
    (md_to_mrkdwn s).data.head? ≠ some zws ∧
    (md_to_mrkdwn s).data.getLast? ≠ some zws := by
  obtain ⟨p1, p2, p3, p4, p5, p6, p7⟩ := mdToMrkdwnL_c3 s.data
  exact ⟨nul_not_mem_output s, p1, p2, p3, p4, p5, p6, p7⟩

end Mrkdwn
